import Mathlib

/-!
# NRE service runtime: producer/consumer ring and service session table

A shallow embedding of `nre/include/ipc/Producer.h`, `include/service/Service.h`, the
portal handlers of the console, keyboard and PCI configuration services,
`nre/include/subsystem/ChildMemory.h`, `nre/include/collection/DList.h`,
`nre/include/collection/Treap.h`, `nre/include/stream/VGAStream.h` and the string
and memory functions of `nre/libs/libstdc++/string.c`.
Machine words (`size_t`, `capsel_t`) are natural numbers below `2 ^ w`; the word
width `w` is an explicit argument, and every arithmetic operation of the source
wraps modulo `2 ^ w`. Objects that the source reaches through pointers live in a
store that maps addresses to objects; the null pointer is `none`. The functions of
`string.c` work on a memory of bytes, a function from addresses to bytes. Loops that
the source does not bound take a number of rounds as `fuel` and give `none` when it
does not suffice.
-/

namespace NRE

/-! ## Machine words and error codes -/

/-- Error codes carried by the exceptions of the runtime. -/
inductive ErrorCode where
  | E_SUCCESS
  | E_ARGS_INVALID
  | E_CAPACITY
  | E_NOT_FOUND
  | E_EXISTS
  | E_ABORT
  | E_FAILURE
  deriving DecidableEq, Repr

/-- Addition of two machine words of `w` bits. -/
def wadd (w a b : Nat) : Nat := (a + b) % 2 ^ w

/-- Subtraction of two machine words of `w` bits (wraps below zero). -/
def wsub (w a b : Nat) : Nat := (a % 2 ^ w + 2 ^ w - b % 2 ^ w) % 2 ^ w

/-- Multiplication of two machine words of `w` bits. -/
def wmul (w a b : Nat) : Nat := (a * b) % 2 ^ w

/-- A number is a power of two. -/
def IsPow2 (n : Nat) : Prop := ∃ k : Nat, n = 2 ^ k

/-! ## The semaphore and the ring header -/

/-- Modelled from the spec: the counting semaphore `Sm` (kobj/Sm.h is not among the
sources) shared by producer and consumer. `fault` is set once the peer has closed the
session: from then on `up()` raises that error. `ups` counts the `up()` calls that
were issued. -/
structure Sm where
  value : Nat
  fault : Option ErrorCode
  ups : Nat
  deriving DecidableEq, Repr

/-- Modelled from the spec: `Sm::up` (kobj/Sm.h is not among the sources). A counting
semaphore whose `up()` increments the counter, and raises once the peer is gone. -/
def Sm.up (s : Sm) : Except ErrorCode Unit × Sm :=
  match s.fault with
  | none => (Except.ok (), { s with value := s.value + 1, ups := s.ups + 1 })
  | some e => (Except.error e, { s with ups := s.ups + 1 })

/-- Modelled from the spec: `Consumer<T>::Interface` (ipc/Consumer.h is not among the
sources): the ring header `rpos`, `wpos` at the start of the dataspace, followed by
the slots `buffer[0]`, `buffer[1]`, ... -/
structure Interface (T : Type) where
  rpos : Nat
  wpos : Nat
  buffer : Nat → T

/-- Modelled from the spec: `Math::prev_pow2` (util/Math.h is not among the sources),
the loop that doubles `p` while the double still fits below `x`. -/
def prev_pow2_loop : Nat → Nat → Nat → Nat
  | 0, p, _ => p
  | fuel + 1, p, x => if 2 * p ≤ x then prev_pow2_loop fuel (2 * p) x else p

/-- Modelled from the spec: `Math::prev_pow2` (util/Math.h is not among the sources):
the value rounded down to a power of two, that is the largest power of two that is
at most `x`. The spec gives no value for `x = 0`; the model returns 0 there. -/
def prev_pow2 (x : Nat) : Nat :=
  if x = 0 then 0 else prev_pow2_loop x 1 x

/-! ## Producer -/

/-- The state a `Producer<T>` works on: the size of its dataspace `_ds`, the ring
interface `*_if` inside the dataspace, the ring length `_max` and the semaphore `_sm`. -/
structure Producer (T : Type) where
  ds_size : Nat
  ifc : Interface T
  max : Nat
  sm : Sm

variable {T : Type}

/-- The constructor `Producer::Producer(ds, sm, init)`. `hdr` is
`sizeof(Consumer<T>::Interface)`, `szT` is `sizeof(T)`, `mem` is the content of the
dataspace before the call. The constructor has no failing path. -/
def Producer.new (w hdr szT ds_size : Nat) (mem : Interface T) (sm : Sm) (init : Bool) :
    Except ErrorCode (Producer T) :=
  Except.ok
    { ds_size := ds_size
      ifc := if init then { mem with rpos := 0, wpos := 0 } else mem
      max := prev_pow2 (wsub w ds_size hdr / szT)
      sm := sm }

/-- The method `Producer::rblength`. -/
def Producer.rblength (p : Producer T) : Nat := p.max

/-- The method `Producer::current`: `none` is the null pointer, `some i` is the
pointer `_if->buffer + i`. The second component is the state after the call. -/
def Producer.current (w : Nat) (p : Producer T) : Option Nat × Producer T :=
  if (wadd w p.ifc.wpos 1) &&& (wsub w p.max 1) = p.ifc.rpos then
    (none, p)
  else
    (some p.ifc.wpos, p)

/-- The method `Producer::next`: advance `wpos`, then `up()` the semaphore inside a
`try` whose `catch(...)` is empty. -/
def Producer.next (w : Nat) (p : Producer T) : Except ErrorCode Unit × Producer T :=
  let p1 : Producer T :=
    { p with ifc := { p.ifc with wpos := (wadd w p.ifc.wpos 1) &&& (wsub w p.max 1) } }
  match Sm.up p1.sm with
  | (Except.ok _, s) => (Except.ok (), { p1 with sm := s })
  | (Except.error _, s) => (Except.ok (), { p1 with sm := s })

/-- The method `Producer::produce`. -/
def Producer.produce (w : Nat) (p : Producer T) (value : T) :
    Except ErrorCode Bool × Producer T :=
  match Producer.current w p with
  | (some slot, p0) =>
    let p1 : Producer T :=
      { p0 with ifc := { p0.ifc with buffer := Function.update p0.ifc.buffer slot value } }
    match Producer.next w p1 with
    | (Except.ok _, p2) => (Except.ok true, p2)
    | (Except.error e, p2) => (Except.error e, p2)
  | (none, p0) => (Except.ok false, p0)

/-! ## Consumer (its side of the ring) -/

/-- Modelled from the spec: `Consumer::has_data` (ipc/Consumer.h is not among the
sources): `rpos ≠ wpos`. -/
def Consumer.has_data (p : Producer T) : Bool := p.ifc.rpos != p.ifc.wpos

/-- Modelled from the spec: `Consumer::get` (ipc/Consumer.h is not among the sources)
once it returns: the slot `buffer[rpos]` when there is data, `none` on an empty ring
(the "no block" answer; a blocking consumer waits instead). -/
def Consumer.get (p : Producer T) : Option Nat :=
  if Consumer.has_data p then some p.ifc.rpos else none

/-- Modelled from the spec: `Consumer::next` (ipc/Consumer.h is not among the
sources): advance `rpos` by one modulo N. -/
def Consumer.next (p : Producer T) : Producer T :=
  { p with ifc := { p.ifc with rpos := (p.ifc.rpos + 1) % p.max } }

/-- The body of `Keyboard::receive` / `Console::receive` up to the exception: `get()`,
and when it hands out a slot, copy the item and call `next()`. Returns the item. -/
def Consumer.receive (p : Producer T) : Option T × Producer T :=
  match Consumer.get p with
  | some slot => (some (p.ifc.buffer slot), Consumer.next p)
  | none => (none, p)

/-! ## Traces of ring operations -/

/-- The operations the two parties apply to the ring. -/
inductive RingOp (T : Type) where
  | produce (v : T)
  | next
  | consNext
  | receive

/-- The ring together with the history of the items: `sent` are the items the producer
has published (the values for which `produce` returned true, and the content of the
slot that a bare `next()` publishes), `read` are the items the consumer has taken. -/
structure RingSys (T : Type) where
  prod : Producer T
  sent : List T
  read : List T

/-- One operation applied to the ring. -/
def RingSys.step (w : Nat) (s : RingSys T) : RingOp T → RingSys T
  | RingOp.produce v =>
    match Producer.produce w s.prod v with
    | (Except.ok true, p) => { s with prod := p, sent := s.sent ++ [v] }
    | (_, p) => { s with prod := p }
  | RingOp.next =>
    { s with prod := (Producer.next w s.prod).2,
             sent := s.sent ++ [s.prod.ifc.buffer s.prod.ifc.wpos] }
  | RingOp.consNext =>
    { s with prod := Consumer.next s.prod,
             read := s.read ++ [s.prod.ifc.buffer s.prod.ifc.rpos] }
  | RingOp.receive =>
    match Consumer.receive s.prod with
    | (some v, p) => { s with prod := p, read := s.read ++ [v] }
    | (none, p) => { s with prod := p }

/-- The ring of producer `p` before any traffic: nothing sent, nothing read. -/
def RingSys.start (p : Producer T) : RingSys T :=
  { prod := p, sent := [], read := [] }

/-- A sequence of operations applied to the ring, first operation first. -/
def RingSys.run (w : Nat) (s : RingSys T) (ops : List (RingOp T)) : RingSys T :=
  ops.foldl (RingSys.step w) s

/-- Every operation of the trace is taken in a state in which `g` admits it. -/
def RingSys.admits (w : Nat) (g : RingSys T → RingOp T → Bool) :
    RingSys T → List (RingOp T) → Bool
  | _, [] => true
  | s, op :: ops => g s op && RingSys.admits w g (RingSys.step w s op) ops

/-- The consumer calls `next()` only when `has_data()` holds. -/
def consumerGuard (s : RingSys T) : RingOp T → Bool
  | RingOp.consNext => Consumer.has_data s.prod
  | _ => true

/-- The consumer calls `next()` only when `has_data()` holds, and the producer calls
a bare `next()` only when `current()` has handed out a slot. -/
def slotGuard (w : Nat) (s : RingSys T) : RingOp T → Bool
  | RingOp.consNext => Consumer.has_data s.prod
  | RingOp.next => (Producer.current w s.prod).1.isSome
  | _ => true

/-- The items in the slots `r`, `r + 1`, ... up to but excluding `wp`, in ring order,
of a ring of `N` slots. -/
def ringItems (N r wp : Nat) (buf : Nat → T) : List T :=
  (List.range ((wp + N - r) % N)).map (fun i => buf ((r + i) % N))

/-- The items in `buffer[rpos .. wpos)`, in ring order. -/
def Producer.pending (p : Producer T) : List T :=
  ringItems p.max p.ifc.rpos p.ifc.wpos p.ifc.buffer

/-- The ring is well formed and its history is consistent: both positions lie in
`[0, N)` and the items read so far followed by the pending ones are the items sent. -/
def RingSys.Inv (N : Nat) (s : RingSys T) : Prop :=
  s.prod.max = N ∧ s.prod.ifc.rpos < N ∧ s.prod.ifc.wpos < N ∧
    s.read ++ s.prod.pending = s.sent

/-- The calls of the two parties at operation granularity: `produce(v)` by the
producer, `get()` and `next()` by the consumer, each a call of its own. -/
inductive Call (T : Type) where
  | produce (v : T)
  | get
  | next

/-- The ring with its history, together with the pointer the consumer holds: `held`
is the slot that the last `get()` has handed out and that no `next()` has released
since. The consumer reads its item through this pointer until it calls `next()`. -/
structure RingView (T : Type) where
  sys : RingSys T
  held : Option Nat

/-- One call applied to the ring: `produce(v)` is the step of the producer, `get()`
hands out the slot `buffer[rpos]` when there is data and changes nothing in the ring,
`next()` takes the item in `buffer[rpos]` as read and advances `rpos`. -/
def RingView.step (w : Nat) (s : RingView T) : Call T → RingView T
  | Call.produce v => { s with sys := RingSys.step w s.sys (RingOp.produce v) }
  | Call.get => { s with held := Consumer.get s.sys.prod }
  | Call.next => { sys := RingSys.step w s.sys RingOp.consNext, held := none }

/-- The ring of producer `p` before any call: nothing sent, nothing read, no slot
handed out. -/
def RingView.start (p : Producer T) : RingView T :=
  { sys := RingSys.start p, held := none }

/-- A sequence of calls of the two parties applied to the ring, first call first. -/
def RingView.run (w : Nat) (s : RingView T) (calls : List (Call T)) : RingView T :=
  calls.foldl (RingView.step w) s

/-- The consumer calls `next()` only when there is an item to release: for a slot
that `get()` has handed out, or when `has_data()` holds. Calls of `produce` and `get`
may come at any point, also between a `get()` and its `next()`. -/
def RingView.conforms (w : Nat) : RingView T → List (Call T) → Bool
  | _, [] => true
  | s, Call.produce v :: cs => RingView.conforms w (RingView.step w s (Call.produce v)) cs
  | s, Call.get :: cs => RingView.conforms w (RingView.step w s Call.get) cs
  | s, Call.next :: cs =>
    (s.held.isSome || Consumer.has_data s.sys.prod) &&
      RingView.conforms w (RingView.step w s Call.next) cs

/-- The ring is well formed with a consistent history, and a slot that the consumer
holds is the slot at `rpos` of a ring that is not empty. -/
def RingView.Inv (N : Nat) (s : RingView T) : Prop :=
  RingSys.Inv N s.sys ∧
    ∀ slot, s.held = some slot →
      slot = s.sys.prod.ifc.rpos ∧ s.sys.prod.ifc.rpos ≠ s.sys.prod.ifc.wpos

/-- Repeated `produce`: the list of answers and the final state. -/
def Producer.produceAll (w : Nat) :
    Producer T → List T → List (Except ErrorCode Bool) × Producer T
  | p, [] => ([], p)
  | p, v :: vs =>
    let r := Producer.produce w p v
    let rest := Producer.produceAll w r.2 vs
    (r.1 :: rest.1, rest.2)

/-! ## Service: the session table -/

/-- The constant `Service::MAX_SESSIONS`. -/
def MAX_SESSIONS : Nat := 32

/-- The fields of `Service` the session table works on: `_regcaps`, `_caps` and the
array `_sessions` (`none` is the null pointer). -/
structure Service (S : Type) where
  regcaps : Nat
  caps : Nat
  sessions : List (Option S)

variable {S : Type}

/-- The loop of `Service::new_session`, from index `i` with `fuel` iterations left.
`cpus` is `Hip::MAX_CPUS`; `create` is the virtual hook `create_session(pts, func)`,
which may raise. -/
def Service.new_session_loop (w cpus : Nat) (create : Nat → Except ErrorCode S)
    (s : Service S) : Nat → Nat → Except ErrorCode S × Service S
  | 0, _ => (Except.error ErrorCode.E_CAPACITY, s)
  | fuel + 1, i =>
    match s.sessions[i]? with
    | some none =>
      match create (wadd w s.caps (wmul w i cpus)) with
      | Except.ok sess => (Except.ok sess, { s with sessions := s.sessions.set i (some sess) })
      | Except.error e => (Except.error e, s)
    | _ => Service.new_session_loop w cpus create s fuel (i + 1)

/-- The method `Service::new_session`. -/
def Service.new_session (w cpus : Nat) (create : Nat → Except ErrorCode S)
    (s : Service S) : Except ErrorCode S × Service S :=
  Service.new_session_loop w cpus create s MAX_SESSIONS 0

/-- The method `Service::get_session`. The outer `none` is an access outside the
array `_sessions` (undefined in the source); inside, the result is the returned
pointer or the raised error. -/
def Service.get_session (w cpus : Nat) (s : Service S) (pid : Nat) :
    Option (Except ErrorCode (Option S)) :=
  match s.sessions[wsub w pid s.caps / cpus]? with
  | none => none
  | some sess =>
    if sess.isNone then some (Except.error ErrorCode.E_ARGS_INVALID)
    else some (Except.ok sess)

/-- Repeated `new_session`: `n` opens in a row, the answers and the final table. -/
def Service.open_n (w cpus : Nat) (create : Nat → Except ErrorCode S) :
    Nat → Service S → List (Except ErrorCode S) × Service S
  | 0, s => ([], s)
  | n + 1, s =>
    let r := Service.new_session w cpus create s
    let rest := Service.open_n w cpus create n r.2
    (r.1 :: rest.1, rest.2)

/-- A session slot is vacated: the pointer is set to null. -/
def Service.vacate (s : Service S) (i : Nat) : Service S :=
  { s with sessions := s.sessions.set i none }

/-! ## Service: the selector ranges of the constructor and of reg -/

/-- A request to `CapSpace::allocate(count, align)`. -/
structure CapRequest where
  count : Nat
  align : Nat
  deriving DecidableEq, Repr

/-- The request for the registration selectors `_regcaps` in the constructor
`Service::Service`; `cpus` is `Hip::MAX_CPUS`. -/
def Service.regcaps_request (cpus : Nat) : CapRequest :=
  { count := cpus, align := cpus }

/-- The request for the session selectors `_caps` in the constructor
`Service::Service`. -/
def Service.caps_request (w cpus : Nat) : CapRequest :=
  { count := wmul w MAX_SESSIONS cpus, align := wmul w MAX_SESSIONS cpus }

/-- The constructor `Service::Service`: `regcaps` and `caps` are the bases that
`CapSpace::allocate` returned for the two requests; the session table starts with
null pointers only. -/
def Service.new (regcaps caps : Nat) : Service S :=
  { regcaps := regcaps, caps := caps, sessions := List.replicate MAX_SESSIONS none }

/-- Modelled from the spec: `Util::nextpow2` (its header is not among the sources),
the loop that doubles `p` until it reaches `x`. -/
def nextpow2_loop : Nat → Nat → Nat → Nat
  | 0, p, _ => p
  | fuel + 1, p, x => if x ≤ p then p else nextpow2_loop fuel (2 * p) x

/-- Modelled from the spec: `Util::nextpow2` (its header is not among the sources):
the next power of two that is at least `x`. -/
def nextpow2 (x : Nat) : Nat := nextpow2_loop x 1 x

/-- The selector range `CapRange(_regcaps, nextpow2(MAX_CPUS), ...)` that
`Service::reg` delegates, as base and count. -/
def Service.reg_range (cpus : Nat) (s : Service S) : Nat × Nat :=
  (s.regcaps, nextpow2 cpus)

/-- The selector base `_caps + i * MAX_CPUS` that `new_session` hands to
`create_session` for slot `i`. -/
def Service.portal_base (w cpus : Nat) (s : Service S) (i : Nat) : Nat :=
  wadd w s.caps (wmul w i cpus)

/-- The index `(pid - _caps) / MAX_CPUS` at which `get_session` reads `_sessions`. -/
def Service.slot_of (w cpus : Nat) (s : Service S) (pid : Nat) : Nat :=
  wsub w pid s.caps / cpus

/-! ## Service: the session iterator -/

/-- The class `SessionIterator`: the position `_pos` in the session table of its
service `_s` (the service is passed to the operations). -/
structure SessionIterator where
  pos : Nat
  deriving DecidableEq, Repr

/-- The method `Service::sessions_begin`. -/
def Service.sessions_begin : SessionIterator := { pos := 0 }

/-- The method `Service::sessions_end`. -/
def Service.sessions_end : SessionIterator := { pos := MAX_SESSIONS }

/-- The operator `SessionIterator::operator*`: the pointer `_sessions[_pos]` that is
dereferenced (`some none` is the null pointer; the outer `none` is a read outside the
array). -/
def SessionIterator.deref (s : Service S) (it : SessionIterator) : Option (Option S) :=
  s.sessions[it.pos]?

/-- The loop `while(_pos < MAX_SESSIONS - 1 && !_sessions[++_pos]);` of
`SessionIterator::operator++`, with `fuel` iterations left. -/
def SessionIterator.inc_loop (s : Service S) : Nat → Nat → Nat
  | 0, pos => pos
  | fuel + 1, pos =>
    if pos < MAX_SESSIONS - 1 then
      match s.sessions[pos + 1]? with
      | some (some _) => pos + 1
      | _ => SessionIterator.inc_loop s fuel (pos + 1)
    else pos

/-- The operator `SessionIterator::operator++`. Every round of its loop advances
`_pos`, which stays below `MAX_SESSIONS`, so `MAX_SESSIONS` rounds are enough. -/
def SessionIterator.inc (s : Service S) (it : SessionIterator) : SessionIterator :=
  { pos := SessionIterator.inc_loop s MAX_SESSIONS it.pos }

/-- The operator `SessionIterator::operator!=`. -/
def SessionIterator.ne (a b : SessionIterator) : Bool := a.pos != b.pos

/-- The loop `for(it = sessions_begin(); it != sessions_end(); ++it) use(*it)`, started
at `it` and cut off after `fuel` rounds: the positions and pointers it dereferenced,
and whether it has left the loop. -/
def Service.for_each (s : Service S) : Nat → SessionIterator →
    List (Nat × Option (Option S)) × Bool
  | 0, it => ([], !(SessionIterator.ne it Service.sessions_end))
  | fuel + 1, it =>
    if SessionIterator.ne it Service.sessions_end then
      let r := Service.for_each s fuel (SessionIterator.inc s it)
      ((it.pos, SessionIterator.deref s it) :: r.1, r.2)
    else ([], true)

/-! ## Portal handlers: the calls on the UTCB frame -/

/-- The calls a portal handler makes on its frame `uf`. -/
inductive FrameCall where
  | read
  | get_delegated
  | finish_input
  | accept_delegates
  | revoke_window
  | clear
  | put_code (e : ErrorCode)
  | put_value
  deriving DecidableEq, Repr

/-- The results of the calls a handler makes: `cmd` is what `uf >> cmd` yields, `arg k`
what the `k`-th further `uf >> x` yields, `delegated k` what the `k`-th
`uf.get_delegated(0)` yields, `action k` what the `k`-th call into the service (session
lookup, session setup, device access) yields. Each of them may raise an `Exception`. -/
structure PortalEnv where
  cmd : Except ErrorCode Nat
  arg : Nat → Except ErrorCode Unit
  delegated : Nat → Except ErrorCode Unit
  action : Nat → Except ErrorCode Unit

/-- A handler run: it extends the list of frame calls made so far and ends normally
or with a raised `Exception`. -/
def Handler (α : Type) : Type := List FrameCall → Except ErrorCode α × List FrameCall

/-- A statement that ends normally. -/
def Handler.pure {α : Type} (a : α) : Handler α := fun log => (Except.ok a, log)

/-- Sequencing of statements: a raised `Exception` skips the rest. -/
def Handler.bind {α β : Type} (h : Handler α) (f : α → Handler β) : Handler β :=
  fun log =>
    match h log with
    | (Except.ok a, log1) => f a log1
    | (Except.error e, log1) => (Except.error e, log1)

instance : Monad Handler where
  pure := Handler.pure
  bind := Handler.bind

/-- A call on the frame. -/
def Handler.frame (c : FrameCall) : Handler Unit := fun log => (Except.ok (), log ++ [c])

/-- The result of a call, as the environment gives it. -/
def Handler.outcome {α : Type} (r : Except ErrorCode α) : Handler α := fun log => (r, log)

/-- The statement `try { body } catch(const Exception &e) { handler }`. -/
def Handler.try_catch (body : Handler Unit) (handler : ErrorCode → Handler Unit) :
    Handler Unit :=
  fun log =>
    match body log with
    | (Except.ok a, log1) => (Except.ok a, log1)
    | (Except.error e, log1) => handler e log1

/-- The frame calls of a whole handler run. -/
def Handler.log (h : Handler Unit) : List FrameCall := (h []).2

/-- The function `ConsoleSessionData::portal`; the commands are `CREATE = 0`,
`GET_REGS = 1`, `SET_REGS = 2`. -/
def ConsoleSessionData.portal (env : PortalEnv) : Handler Unit :=
  Handler.try_catch
    (do
      Handler.frame FrameCall.read
      let cmd ← Handler.outcome env.cmd
      match cmd with
      | 0 => do
        Handler.frame FrameCall.get_delegated
        Handler.outcome (env.delegated 0)
        Handler.frame FrameCall.get_delegated
        Handler.outcome (env.delegated 1)
        Handler.frame FrameCall.get_delegated
        Handler.outcome (env.delegated 2)
        Handler.frame FrameCall.finish_input
        Handler.outcome (env.action 0)
        Handler.frame FrameCall.accept_delegates
        Handler.frame (FrameCall.put_code ErrorCode.E_SUCCESS)
      | 1 => do
        Handler.frame FrameCall.finish_input
        Handler.frame (FrameCall.put_code ErrorCode.E_SUCCESS)
        Handler.frame FrameCall.put_value
      | 2 => do
        Handler.frame FrameCall.read
        Handler.outcome (env.arg 0)
        Handler.frame FrameCall.finish_input
        Handler.outcome (env.action 0)
        Handler.frame (FrameCall.put_code ErrorCode.E_SUCCESS)
      | _ => pure ())
    (fun e => do
      Handler.frame FrameCall.revoke_window
      Handler.frame FrameCall.clear
      Handler.frame (FrameCall.put_code e))

/-- The function `handle_share` of the keyboard service. -/
def handle_share (env : PortalEnv) : Handler Unit := do
  Handler.outcome (env.action 0)
  Handler.frame FrameCall.get_delegated
  Handler.outcome (env.delegated 0)
  Handler.frame FrameCall.get_delegated
  Handler.outcome (env.delegated 1)
  Handler.frame FrameCall.finish_input
  Handler.outcome (env.action 1)

/-- The function `portal_keyboard`; the commands are `REBOOT = 0`, `SHARE_DS = 1`. -/
def portal_keyboard (env : PortalEnv) : Handler Unit :=
  Handler.try_catch
    (do
      Handler.frame FrameCall.read
      let cmd ← Handler.outcome env.cmd
      match cmd with
      | 0 => do
        Handler.frame FrameCall.finish_input
        Handler.outcome (env.action 0)
      | 1 => handle_share env
      | _ => pure ()
      Handler.frame (FrameCall.put_code ErrorCode.E_SUCCESS))
    (fun e => do
      Handler.frame FrameCall.clear
      Handler.frame (FrameCall.put_code e))

/-- The function `portal_mouse`. -/
def portal_mouse (env : PortalEnv) : Handler Unit :=
  Handler.try_catch
    (do
      handle_share env
      Handler.frame (FrameCall.put_code ErrorCode.E_SUCCESS))
    (fun e => do
      Handler.frame FrameCall.clear
      Handler.frame (FrameCall.put_code e))

/-- The function `portal_pcicfg`; the commands are `READ = 0`, `WRITE = 1`, `ADDR = 2`,
`REBOOT = 3`, `SEARCH_DEVICE = 4`, `SEARCH_BRIDGE = 5`. -/
def portal_pcicfg (env : PortalEnv) : Handler Unit :=
  Handler.try_catch
    (do
      Handler.frame FrameCall.read
      let cmd ← Handler.outcome env.cmd
      if cmd = 0 ∨ cmd = 1 ∨ cmd = 2 then do
        Handler.frame FrameCall.read
        Handler.outcome (env.arg 0)
        Handler.frame FrameCall.read
        Handler.outcome (env.arg 1)
        Handler.outcome (env.action 0)
      else pure ()
      match cmd with
      | 0 => do
        Handler.frame FrameCall.finish_input
        Handler.outcome (env.action 1)
        Handler.frame (FrameCall.put_code ErrorCode.E_SUCCESS)
        Handler.frame FrameCall.put_value
      | 1 => do
        Handler.frame FrameCall.read
        Handler.outcome (env.arg 2)
        Handler.frame FrameCall.finish_input
        Handler.outcome (env.action 1)
        Handler.frame (FrameCall.put_code ErrorCode.E_SUCCESS)
      | 2 => do
        Handler.frame FrameCall.finish_input
        Handler.outcome (env.action 1)
        Handler.frame (FrameCall.put_code ErrorCode.E_SUCCESS)
        Handler.frame FrameCall.put_value
      | 4 => do
        Handler.frame FrameCall.read
        Handler.outcome (env.arg 0)
        Handler.frame FrameCall.read
        Handler.outcome (env.arg 1)
        Handler.frame FrameCall.read
        Handler.outcome (env.arg 2)
        Handler.frame FrameCall.finish_input
        Handler.outcome (env.action 0)
        Handler.frame (FrameCall.put_code ErrorCode.E_SUCCESS)
        Handler.frame FrameCall.put_value
      | 5 => do
        Handler.frame FrameCall.read
        Handler.outcome (env.arg 0)
        Handler.frame FrameCall.finish_input
        Handler.outcome (env.action 0)
        Handler.frame (FrameCall.put_code ErrorCode.E_SUCCESS)
        Handler.frame FrameCall.put_value
      | 3 => do
        Handler.frame FrameCall.finish_input
        Handler.outcome (env.action 0)
        Handler.frame (FrameCall.put_code ErrorCode.E_SUCCESS)
      | _ => pure ())
    (fun e => do
      Handler.frame FrameCall.clear
      Handler.frame (FrameCall.put_code e))

/-- A handler that, started after calls none of which is `c`, ends without a
call `c`. -/
def Handler.Avoids {α : Type} (c : FrameCall) (h : Handler α) : Prop :=
  ∀ log, c ∉ log → c ∉ (h log).2

/-- The call writes an error code into the frame. -/
def FrameCall.is_code : FrameCall → Bool
  | FrameCall.put_code _ => true
  | _ => false

/-! ## ChildMemory: the dataspaces of a child -/

/-- Modelled from the spec: the descriptor `DataSpaceDesc` (mem/DataSpaceDesc.h is not
among the sources) with its size, type, permission flags, physical and virtual address
and origin. -/
structure DataSpaceDesc where
  size : Nat
  type : Nat
  flags : Nat
  phys : Nat
  virt : Nat
  origin : Nat
  deriving DecidableEq, Repr

/-- The class `ChildMemory::DS`: the descriptor `_desc`, the capability `_cap` and the
permission masks `_perms`, one 4-bit mask per page. -/
structure ChildMemory.DS where
  desc : DataSpaceDesc
  cap : Nat
  perms : List Nat
  deriving DecidableEq, Repr

/-- Modelled from the spec: `MaskField::set_all` (its header is not among the
sources): every mask of the field gets the given value. -/
def MaskField.set_all (masks : List Nat) (value : Nat) : List Nat :=
  masks.map (fun _ => value)

/-- The method `ChildMemory::DS::all_perms`. -/
def ChildMemory.DS.all_perms (ds : ChildMemory.DS) (perms : Nat) : ChildMemory.DS :=
  { ds with perms := MaskField.set_all ds.perms perms }

/-- The method `ChildMemory::DS::switch_to`. -/
def ChildMemory.DS.switch_to (ds : ChildMemory.DS) (origin : Nat) : ChildMemory.DS :=
  ChildMemory.DS.all_perms { ds with desc := { ds.desc with origin := origin } } 0

/-- The method `ChildMemory::DS::swap_backend`, called on the object at address `this`
with the pointer `ds`; `mem` maps the addresses to the objects. -/
def ChildMemory.DS.swap_backend (mem : Nat → ChildMemory.DS) (this ds : Nat) :
    Nat → ChildMemory.DS :=
  let org := (mem this).desc.origin
  let mem1 := Function.update mem this
    (ChildMemory.DS.switch_to (mem this) (mem ds).desc.origin)
  Function.update mem1 ds (ChildMemory.DS.switch_to (mem1 ds) org)

/-! ## DList: the intrusive doubly linked list -/

/-- The class `DListItem`: the pointers `_prev` and `_next` (`none` is the null
pointer, `some a` the item at address `a`). -/
structure DListItem where
  prev : Option Nat
  next : Option Nat
  deriving DecidableEq, Repr

/-- The fields of the class `DList`: `_head`, `_tail` and `_len`. -/
structure DList where
  head : Option Nat
  tail : Option Nat
  len : Nat
  deriving DecidableEq, Repr

/-- The class `DListIteratorBase`: the pointers `_p` and `_n`. -/
structure DListIterator where
  p : Option Nat
  n : Option Nat
  deriving DecidableEq, Repr

/-- The method `DList::begin`. -/
def DList.begin (d : DList) : DListIterator := { p := none, n := d.head }

/-- The method `DList::end`. -/
def DList.end_it (d : DList) : DListIterator := { p := d.tail, n := none }

/-- The method `DList::length`. -/
def DList.length (d : DList) : Nat := d.len

/-- The operator `DListIteratorBase::operator++`; `heap` maps the addresses to the
items. With `_n` null the source dereferences the null pointer; the model leaves `_n`
null then. -/
def DListIterator.inc (heap : Nat → DListItem) (it : DListIterator) : DListIterator :=
  { p := it.n
    n := match it.n with
      | some a => (heap a).next
      | none => none }

/-- The operator `DListIteratorBase::operator--`. -/
def DListIterator.dec (heap : Nat → DListItem) (it : DListIterator) : DListIterator :=
  { n := it.p
    p := match it.p with
      | some a => (heap a).prev
      | none => none }

/-- The operator `DListIterator::operator*`: the pointer `_n` that is dereferenced. -/
def DListIterator.deref (it : DListIterator) : Option Nat := it.n

/-- The operator `DListIteratorBase::operator==`. -/
def DListIterator.eq (a b : DListIterator) : Bool := a.n == b.n

/-- The method `DList::append`: the returned iterator, the items and the list after
the call. With `_head` set and `_tail` null the source dereferences the null pointer;
the model writes no `next` pointer then. -/
def DList.append (w : Nat) (heap : Nat → DListItem) (d : DList) (e : Nat) :
    DListIterator × (Nat → DListItem) × DList :=
  let head1 := if d.head = none then some e else d.head
  let heap1 :=
    if d.head = none then heap
    else match d.tail with
      | some t => Function.update heap t { heap t with next := some e }
      | none => heap
  let heap2 := Function.update heap1 e { heap1 e with prev := d.tail }
  let heap3 := Function.update heap2 e { heap2 e with next := none }
  ({ p := (heap3 e).prev, n := some e }, heap3,
    { head := head1, tail := some e, len := wadd w d.len 1 })

/-- The method `DList::remove`: the items and the list after the call. -/
def DList.remove (w : Nat) (heap : Nat → DListItem) (d : DList) (e : Nat) :
    (Nat → DListItem) × DList :=
  let heap1 :=
    match (heap e).prev with
    | some a => Function.update heap a { heap a with next := (heap e).next }
    | none => heap
  let heap2 :=
    match (heap1 e).next with
    | some b => Function.update heap1 b { heap1 b with prev := (heap1 e).prev }
    | none => heap1
  let head1 := if some e = d.head then (heap2 e).next else d.head
  let tail1 := if some e = d.tail then (heap2 e).prev else d.tail
  (heap2, { head := head1, tail := tail1, len := wsub w d.len 1 })

/-- The loop `for(it = ...; it != end(); ++it) visit(*it)` from the iterator `it`, cut
off after `fuel` rounds: the items visited, and whether the loop has ended. -/
def DList.forward_from (heap : Nat → DListItem) (d : DList) :
    Nat → DListIterator → List (Option Nat) × Bool
  | 0, it => ([], DListIterator.eq it (DList.end_it d))
  | fuel + 1, it =>
    if DListIterator.eq it (DList.end_it d) then ([], true)
    else
      let r := DList.forward_from heap d fuel (DListIterator.inc heap it)
      (DListIterator.deref it :: r.1, r.2)

/-- The forward traversal from `begin()` to `end()`. -/
def DList.forward (heap : Nat → DListItem) (d : DList) (fuel : Nat) :
    List (Option Nat) × Bool :=
  DList.forward_from heap d fuel (DList.begin d)

/-- The loop `for(it = ...; it != begin(); ) { --it; visit(*it); }` from the iterator
`it`, cut off after `fuel` rounds: the items visited, and whether the loop has
ended. -/
def DList.backward_from (heap : Nat → DListItem) (d : DList) :
    Nat → DListIterator → List (Option Nat) × Bool
  | 0, it => ([], DListIterator.eq it (DList.begin d))
  | fuel + 1, it =>
    if DListIterator.eq it (DList.begin d) then ([], true)
    else
      let r := DList.backward_from heap d fuel (DListIterator.dec heap it)
      (DListIterator.deref (DListIterator.dec heap it) :: r.1, r.2)

/-- The backward traversal from `end()` to `begin()`. -/
def DList.backward (heap : Nat → DListItem) (d : DList) (fuel : Nat) :
    List (Option Nat) × Bool :=
  DList.backward_from heap d fuel (DList.end_it d)

/-- The `next` pointer of the last item of a segment that is followed by `rest`. -/
def DList.nextOf (rest : List Nat) (nxt : Option Nat) : Option Nat :=
  match rest with
  | [] => nxt
  | y :: _ => some y

/-- The last item of the segment `L`, or `pv` when the segment is empty. -/
def DList.lastOf : Option Nat → List Nat → Option Nat
  | pv, [] => pv
  | _, x :: rest => DList.lastOf (some x) rest

/-- The items `L` are linked in both directions: the first one has `prev = pv`, every
one points to its successor, the last one has `next = nxt`. -/
def DList.Seg (heap : Nat → DListItem) : Option Nat → List Nat → Option Nat → Prop
  | _, [], _ => True
  | pv, x :: rest, nxt =>
    (heap x).prev = pv ∧ (heap x).next = DList.nextOf rest nxt ∧
      DList.Seg heap (some x) rest nxt

/-- The list `d` is well formed and holds the item sequence `L`: the items are
distinct and linked in both directions from `_head` to `_tail`, and `_len` is their
number. -/
def DList.WellFormed (heap : Nat → DListItem) (d : DList) (L : List Nat) : Prop :=
  L.Nodup ∧ d.head = L.head? ∧ d.tail = L.getLast? ∧ d.len = L.length ∧
    DList.Seg heap none L none

/-! ## Treap -/

/-- The value of a 32-bit word read as the `int` it stores (two's complement). -/
def toInt32 (u : Nat) : Int :=
  if u % 2 ^ 32 < 2 ^ 31 then ((u % 2 ^ 32 : Nat) : Int)
  else ((u % 2 ^ 32 : Nat) : Int) - 2 ^ 32

/-- The nodes of a treap linked below a pointer: `nil` is the null pointer, `node`
is a `TreapNode` at address `addr` with `_key`, the 32 bits of `_prio`, and the
subtrees below `_left` and `_right`. -/
inductive TreapTree where
  | nil
  | node (left : TreapTree) (addr key prio : Nat) (right : TreapTree)
  deriving DecidableEq, Repr

/-- The fields of the class `Treap`: the 32 bits of `_prio` and the tree below
`_root`. -/
structure Treap where
  prio : Nat
  root : TreapTree
  deriving DecidableEq, Repr

/-- The constructor `Treap::Treap`. -/
def Treap.empty : Treap := { prio := 314159265, root := TreapTree.nil }

/-- The loop of `Treap::find` from the pointer `p`: the address of the node found, or
`none` for the null pointer. -/
def TreapTree.find (key : Nat) : TreapTree → Option Nat
  | TreapTree.nil => none
  | TreapTree.node l a k _ r =>
    if k = key then some a
    else if key < k then TreapTree.find key l
    else TreapTree.find key r

/-- The method `Treap::find`. -/
def Treap.find (t : Treap) (key : Nat) : Option Nat := TreapTree.find key t.root

/-- The second loop of `Treap::insert`: the tree below `p` is split by `key` into the
part that is hung below `*l` and the part that is hung below `*r`. -/
def TreapTree.split (key : Nat) : TreapTree → TreapTree × TreapTree
  | TreapTree.nil => (TreapTree.nil, TreapTree.nil)
  | TreapTree.node l a k p r =>
    if key < k then
      ((TreapTree.split key l).1, TreapTree.node (TreapTree.split key l).2 a k p r)
    else
      (TreapTree.node l a k p (TreapTree.split key r).1, (TreapTree.split key r).2)

/-- The method `Treap::insert` below the pointer `*q`: the first loop descends while
the priority of `p` is smaller than `prio` (a comparison of `int`s); there the node
at `addr` is linked in with priority `prio` and the tree below `p` is split into
its two subtrees. -/
def TreapTree.insert_at (prio addr key : Nat) : TreapTree → TreapTree
  | TreapTree.nil => TreapTree.node TreapTree.nil addr key prio TreapTree.nil
  | TreapTree.node l a k p r =>
    if toInt32 p < toInt32 prio then
      if key < k then TreapTree.node (TreapTree.insert_at prio addr key l) a k p r
      else TreapTree.node l a k p (TreapTree.insert_at prio addr key r)
    else
      TreapTree.node (TreapTree.split key (TreapTree.node l a k p r)).1 addr key prio
        (TreapTree.split key (TreapTree.node l a k p r)).2

/-- The method `Treap::insert` for the node at `addr` with key `key`. -/
def Treap.insert (t : Treap) (addr key : Nat) : Treap :=
  { root := TreapTree.insert_at t.prio addr key t.root
    prio := (t.prio + 0x9e3779b9) % 2 ^ 32 }

/-- The number of nodes of a tree. -/
def TreapTree.size : TreapTree → Nat
  | TreapTree.nil => 0
  | TreapTree.node l _ _ _ r => l.size + r.size + 1

/-- The method `Treap::remove_from`, applied to the tree whose root is the node to
remove: the tree that is left below `*p`. With two children the node is rotated with
the child of smaller priority and removed below it; `fuel` bounds the rotations. -/
def TreapTree.remove_from : Nat → TreapTree → TreapTree
  | _, TreapTree.nil => TreapTree.nil
  | _, TreapTree.node TreapTree.nil _ _ _ TreapTree.nil => TreapTree.nil
  | _, TreapTree.node (TreapTree.node ll la lk lp lr) _ _ _ TreapTree.nil =>
    TreapTree.node ll la lk lp lr
  | _, TreapTree.node TreapTree.nil _ _ _ (TreapTree.node rl ra rk rp rr) =>
    TreapTree.node rl ra rk rp rr
  | 0, TreapTree.node (TreapTree.node ll la lk lp lr) a k p (TreapTree.node rl ra rk rp rr) =>
    TreapTree.node (TreapTree.node ll la lk lp lr) a k p (TreapTree.node rl ra rk rp rr)
  | fuel + 1,
      TreapTree.node (TreapTree.node ll la lk lp lr) a k p (TreapTree.node rl ra rk rp rr) =>
    if toInt32 lp < toInt32 rp then
      TreapTree.node ll la lk lp
        (TreapTree.remove_from fuel
          (TreapTree.node lr a k p (TreapTree.node rl ra rk rp rr)))
    else
      TreapTree.node
        (TreapTree.remove_from fuel
          (TreapTree.node (TreapTree.node ll la lk lp lr) a k p rl)) ra rk rp rr

/-- The loop of `Treap::remove` below the pointer `*p`, followed by `remove_from`:
the search compares the node pointers and descends by the key. The result is `none`
when the search ends at a null pointer: the node is not in the tree, and the source
then works on pointers that the tree does not hold. Every rotation moves the node
one level down, so the number of nodes bounds the rotations. -/
def TreapTree.remove (addr key : Nat) : TreapTree → Option TreapTree
  | TreapTree.nil => none
  | TreapTree.node l a k p r =>
    if a = addr then
      some (TreapTree.remove_from (TreapTree.node l a k p r).size (TreapTree.node l a k p r))
    else if key < k then
      (TreapTree.remove addr key l).map (fun l1 => TreapTree.node l1 a k p r)
    else
      (TreapTree.remove addr key r).map (fun r1 => TreapTree.node l a k p r1)

/-- The method `Treap::remove` for the node at `addr` with key `key`. -/
def Treap.remove (t : Treap) (addr key : Nat) : Option Treap :=
  (TreapTree.remove addr key t.root).map (fun r => { t with root := r })

/-- A call on the treap: `insert` or `remove` of the node at `addr` with key `key`. -/
inductive TreapOp where
  | insert (addr key : Nat)
  | remove (addr key : Nat)
  deriving DecidableEq, Repr

/-- One call applied to a treap; `none` when `remove` does not find its node. -/
def Treap.step (t : Treap) : TreapOp → Option Treap
  | TreapOp.insert a k => some (Treap.insert t a k)
  | TreapOp.remove a k => Treap.remove t a k

/-- A sequence of calls applied to a treap, first call first. -/
def Treap.run : Treap → List TreapOp → Option Treap
  | t, [] => some t
  | t, op :: ops => (Treap.step t op).bind (fun t1 => Treap.run t1 ops)

/-- The nodes, as address and key, that have been inserted and not removed since,
after the calls `ops` on a treap holding the nodes `live`. -/
def TreapOp.live : List (Nat × Nat) → List TreapOp → List (Nat × Nat)
  | live, [] => live
  | live, TreapOp.insert a k :: ops => TreapOp.live (live ++ [(a, k)]) ops
  | live, TreapOp.remove a k :: ops => TreapOp.live (live.erase (a, k)) ops

/-- The calls are admissible: `insert` gets a node that is not in the tree and whose
key differs from all keys in the tree, `remove` gets a node that is in the tree. -/
def TreapOp.admissible : List (Nat × Nat) → List TreapOp → Bool
  | _, [] => true
  | live, TreapOp.insert a k :: ops =>
    live.all (fun n => decide (n.1 ≠ a) && decide (n.2 ≠ k)) &&
      TreapOp.admissible (live ++ [(a, k)]) ops
  | live, TreapOp.remove a k :: ops =>
    live.contains (a, k) && TreapOp.admissible (live.erase (a, k)) ops

/-- The address of the node with key `key` among the nodes `live`. -/
def TreapOp.lookup (live : List (Nat × Nat)) (key : Nat) : Option Nat :=
  (live.find? (fun n => n.2 == key)).map (fun n => n.1)

/-- The node at `n.1` with key `n.2` is in the tree. -/
def TreapTree.Has (n : Nat × Nat) : TreapTree → Prop
  | TreapTree.nil => False
  | TreapTree.node l a k _ r => TreapTree.Has n l ∨ n = (a, k) ∨ TreapTree.Has n r

/-- The search tree property: all keys in the left subtree of a node are smaller and
all keys in its right subtree are bigger than its key. -/
def TreapTree.BST : TreapTree → Prop
  | TreapTree.nil => True
  | TreapTree.node l _ k _ r =>
    TreapTree.BST l ∧ TreapTree.BST r ∧
      (∀ n, TreapTree.Has n l → n.2 < k) ∧ (∀ n, TreapTree.Has n r → k < n.2)

/-- The tree below `_root` is a search tree holding exactly the nodes `live`, which
have pairwise distinct addresses and pairwise distinct keys. -/
def Treap.Holds (t : Treap) (live : List (Nat × Nat)) : Prop :=
  TreapTree.BST t.root ∧ (∀ n, TreapTree.Has n t.root ↔ n ∈ live) ∧
    live.Pairwise (fun m n => m.1 ≠ n.1 ∧ m.2 ≠ n.2)

/-- The priority of the root of the tree is at least `q`, as `int`s; the null pointer
has no node to compare. -/
def TreapTree.root_prio_ge (q : Int) : TreapTree → Prop
  | TreapTree.nil => True
  | TreapTree.node _ _ _ p _ => q ≤ toInt32 p

/-- Every node of the tree has a priority of at least `q`, as `int`s. -/
def TreapTree.PrioGe (q : Int) : TreapTree → Prop
  | TreapTree.nil => True
  | TreapTree.node l _ _ p r => q ≤ toInt32 p ∧ TreapTree.PrioGe q l ∧ TreapTree.PrioGe q r

/-- The heap property: no node has a smaller priority than its parent, the
priorities compared as the `int`s that `_prio` holds. -/
def TreapTree.Heap : TreapTree → Prop
  | TreapTree.nil => True
  | TreapTree.node l _ _ p r =>
    TreapTree.Heap l ∧ TreapTree.Heap r ∧
      TreapTree.root_prio_ge (toInt32 p) l ∧ TreapTree.root_prio_ge (toInt32 p) r

/-- The number of `insert` calls among the calls `ops`. -/
def TreapOp.inserts : List TreapOp → Nat
  | [] => 0
  | TreapOp.insert _ _ :: ops => TreapOp.inserts ops + 1
  | TreapOp.remove _ _ :: ops => TreapOp.inserts ops

/-- The priority of the node at the address `addr` in the tree, `none` when no node
of the tree is at that address. -/
def TreapTree.prio_at (addr : Nat) : TreapTree → Option Nat
  | TreapTree.nil => none
  | TreapTree.node l a _ p r =>
    if a = addr then some p
    else (TreapTree.prio_at addr l).orElse (fun _ => TreapTree.prio_at addr r)

/-! ## VGAStream -/

/-- The constant `VGAStream::COLS`. -/
def VGAStream.COLS : Nat := 80

/-- The constant `VGAStream::ROWS`. -/
def VGAStream.ROWS : Nat := 25

/-- The field `_pos` of the class `VGAStream`, an `uint`; the session, the page, the
colour and the echo flag take no part in the cursor position. -/
structure VGAStream where
  _pos : Nat
  deriving DecidableEq, Repr

/-- The accessor `VGAStream::x()`. -/
def VGAStream.x (s : VGAStream) : Nat := s._pos % VGAStream.COLS

/-- The accessor `VGAStream::y()`. -/
def VGAStream.y (s : VGAStream) : Nat := s._pos / VGAStream.ROWS

/-- The method `VGAStream::pos(x, y)`, in `uint` arithmetic. -/
def VGAStream.pos (_s : VGAStream) (x y : Nat) : VGAStream :=
  { _pos := wadd 32 (wmul 32 y VGAStream.COLS) x }

/-! ## The string functions of libstdc++ -/

/-- The value of a machine word of `w` bits read as a signed integer (two's
complement), as in the conversion of a `size_t` to `ssize_t`. -/
def toSigned (w u : Nat) : Int :=
  if u % 2 ^ w < 2 ^ (w - 1) then ((u % 2 ^ w : Nat) : Int)
  else ((u % 2 ^ w : Nat) : Int) - 2 ^ w

/-- The memory with the bytes `bytes` followed by a NUL stored from the address `p`
on: a NUL-terminated string at `p`. -/
def store_string (mem : Nat → Nat) (p : Nat) (bytes : List Nat) : Nat → Nat :=
  fun a => if p ≤ a ∧ a ≤ p + bytes.length then bytes.getD (a - p) 0 else mem a

/-- The loop `while(*src) *dst++ = *src++;` of `strcpy`: the memory after the loop,
`none` when `fuel` rounds do not reach the end of the loop. -/
def strcpy_loop (w : Nat) : Nat → (Nat → Nat) → Nat → Nat → Option (Nat → Nat)
  | 0, _, _, _ => none
  | fuel + 1, mem, dst, src =>
    if mem src ≠ 0 then
      strcpy_loop w fuel (Function.update mem dst (mem src)) (wadd w dst 1) (wadd w src 1)
    else some mem

/-- The function `strcpy`: the memory after the call and the pointer returned. -/
def strcpy (w fuel : Nat) (mem : Nat → Nat) (dst src : Nat) : Option ((Nat → Nat) × Nat) :=
  (strcpy_loop w fuel mem dst src).map (fun m => (m, dst))

/-- The function `strlen`: the loop `while(*src++) len++;`. -/
def strlen (w : Nat) : Nat → (Nat → Nat) → Nat → Option Nat
  | 0, _, _ => none
  | fuel + 1, mem, src =>
    if mem src ≠ 0 then (strlen w fuel mem (wadd w src 1)).map (fun n => wadd w n 1)
    else some 0

/-- The statements of `strncmp` after its loop. -/
def strncmp_tail (w : Nat) (mem : Nat → Nat) (str1 str2 rem : Nat) : Int :=
  if toSigned w rem ≤ 0 then 0
  else if mem str1 ≠ 0 ∧ mem str2 = 0 then 1
  else -1

/-- The function `strncmp` from its loop on, with `rem` the bits of the `ssize_t`
counter: the loop condition `*str1 && *str2 && rem-- > 0` decrements `rem` only when
both characters are not NUL; the characters are compared as `char`s. -/
def strncmp_loop (w : Nat) : Nat → (Nat → Nat) → Nat → Nat → Nat → Option Int
  | 0, _, _, _, _ => none
  | fuel + 1, mem, str1, str2, rem =>
    if mem str1 ≠ 0 ∧ mem str2 ≠ 0 then
      if 0 < toSigned w rem then
        if mem str1 ≠ mem str2 then
          some (if toSigned 8 (mem str1) < toSigned 8 (mem str2) then -1 else 1)
        else strncmp_loop w fuel mem (wadd w str1 1) (wadd w str2 1) (wsub w rem 1)
      else some (strncmp_tail w mem str1 str2 (wsub w rem 1))
    else some (strncmp_tail w mem str1 str2 rem)

/-- The function `strncmp`. -/
def strncmp (w fuel : Nat) (mem : Nat → Nat) (str1 str2 count : Nat) : Option Int :=
  strncmp_loop w fuel mem str1 str2 count

/-- The inner loop `while(*sub && *str1 == *sub)` of `strstr`: the pointers `str1`
and `sub` after the loop. -/
def strstr_match (w : Nat) : Nat → (Nat → Nat) → Nat → Nat → Option (Nat × Nat)
  | 0, _, _, _ => none
  | fuel + 1, mem, str1, sub =>
    if mem sub ≠ 0 ∧ mem str1 = mem sub then
      strstr_match w fuel mem (wadd w str1 1) (wadd w sub 1)
    else some (str1, sub)

/-- The outer loop `while(*str1)` of `strstr`: the pointer returned, `none` for
`nullptr`. After an incomplete match the loop goes on at the position where the match
stopped. -/
def strstr_loop (w : Nat) : Nat → (Nat → Nat) → Nat → Nat → Option (Option Nat)
  | 0, _, _, _ => none
  | fuel + 1, mem, str1, str2 =>
    if mem str1 ≠ 0 then
      if mem str1 = mem str2 then
        match strstr_match w fuel mem (wsub w (wadd w str1 1) 1) str2 with
        | none => none
        | some (s1, sub) =>
          if mem sub = 0 then some (some (wsub w (wadd w str1 1) 1))
          else strstr_loop w fuel mem s1 str2
      else strstr_loop w fuel mem (wadd w str1 1) str2
    else some none

/-- The function `strstr`. -/
def strstr (w fuel : Nat) (mem : Nat → Nat) (str1 str2 : Nat) : Option (Option Nat) :=
  if mem str2 = 0 then some none else strstr_loop w fuel mem str1 str2

/-! ## ChildMemory: a free range of addresses -/

/-- The class `ChildMemory`: the list `_list` of its dataspaces, sorted by their
virtual address. -/
structure ChildMemory where
  list : List ChildMemory.DS
  deriving DecidableEq, Repr

/-- The complement `~x` of a machine word of `w` bits. -/
def wnot (w x : Nat) : Nat := 2 ^ w - 1 - x % 2 ^ w

/-- The first statement of `ChildMemory::find_free`: the end of the last dataspace of
the sorted list, 0 for the empty list. -/
def ChildMemory.list_end (w : Nat) (cm : ChildMemory) : Nat :=
  match cm.list.getLast? with
  | some ds => wadd w ds.desc.virt ds.desc.size
  | none => 0

/-- The method `ChildMemory::find_free` on a machine of `w`-bit words with the
constants `ExecEnv::PAGE_SIZE` and `ExecEnv::KERNEL_START`: the end of the last
dataspace of the list, one page of space, alignment, and the check against the start
of the kernel. -/
def ChildMemory.find_free (w PAGE_SIZE KERNEL_START : Nat) (cm : ChildMemory)
    (size align : Nat) : Except ErrorCode Nat :=
  let e1 := (wsub w (wadd w (ChildMemory.list_end w cm) (wmul w PAGE_SIZE 2)) 1) &&&
    (wnot w (wsub w PAGE_SIZE 1))
  let e := (wsub w (wadd w e1 align) 1) &&& (wnot w (wsub w align 1))
  if wadd w e size < e ∨ wadd w e size > KERNEL_START then Except.error ErrorCode.E_CAPACITY
  else Except.ok e

/-! ## memcpy and memmove -/

/-- The assignment `*d = *s` between two objects of `n` bytes at the addresses `d`
and `s`, an `uchar` for `n = 1` and a `word_t` for `n = sizeof(word_t)`: the bytes of
the object at `s` are loaded and then stored from `d` on. -/
def copy_obj (n : Nat) (mem : Nat → Nat) (d s : Nat) : Nat → Nat :=
  fun a => if d ≤ a ∧ a < d + n then mem (s + (a - d)) else mem a

/-- The variables of a copy loop: the memory, the destination and source pointers and
the number of bytes left. -/
structure CopyState where
  mem : Nat → Nat
  dest : Nat
  src : Nat
  len : Nat

/-- The first loop of `memcpy`, `while(len > 0 && (uintptr_t)bdest % sizeof(word_t))`:
single bytes until the destination is word-aligned. `W` is `sizeof(word_t)`; the
result is `none` when `fuel` rounds do not reach the end of the loop. -/
def memcpy_align (w W : Nat) : Nat → CopyState → Option CopyState
  | 0, _ => none
  | fuel + 1, st =>
    if 0 < st.len ∧ st.dest % W ≠ 0 then
      memcpy_align w W fuel
        { mem := copy_obj 1 st.mem st.dest st.src
          dest := wadd w st.dest 1
          src := wadd w st.src 1
          len := wsub w st.len 1 }
    else some st

/-- The eight assignments `*ddest = *dsrc; ...; *(ddest + 7) = *(dsrc + 7);` of
`memcpy`, in their order. -/
def copy_words8 (w W : Nat) (mem : Nat → Nat) (d s : Nat) : Nat → Nat :=
  (List.range 8).foldl
    (fun m i => copy_obj W m (wadd w d (wmul w i W)) (wadd w s (wmul w i W))) mem

/-- The second loop of `memcpy`, `while(len >= sizeof(word_t) * 8)`: eight words per
round. -/
def memcpy_words8 (w W : Nat) : Nat → CopyState → Option CopyState
  | 0, _ => none
  | fuel + 1, st =>
    if wmul w W 8 ≤ st.len then
      memcpy_words8 w W fuel
        { mem := copy_words8 w W st.mem st.dest st.src
          dest := wadd w st.dest (wmul w 8 W)
          src := wadd w st.src (wmul w 8 W)
          len := wsub w st.len (wmul w W 8) }
    else some st

/-- The third loop of `memcpy`, `while(len >= sizeof(word_t))`: one word per round. -/
def memcpy_words (w W : Nat) : Nat → CopyState → Option CopyState
  | 0, _ => none
  | fuel + 1, st =>
    if W ≤ st.len then
      memcpy_words w W fuel
        { mem := copy_obj W st.mem st.dest st.src
          dest := wadd w st.dest W
          src := wadd w st.src W
          len := wsub w st.len W }
    else some st

/-- The last loop of `memcpy`, `while(len-- > 0) *bdest++ = *bsrc++;`: the memory
after the loop. -/
def memcpy_bytes (w : Nat) : Nat → CopyState → Option (Nat → Nat)
  | 0, _ => none
  | fuel + 1, st =>
    if 0 < st.len then
      memcpy_bytes w fuel
        { mem := copy_obj 1 st.mem st.dest st.src
          dest := wadd w st.dest 1
          src := wadd w st.src 1
          len := wsub w st.len 1 }
    else some st.mem

/-- The function `memcpy` on a machine of `w`-bit words with `sizeof(word_t) = W`:
the memory after the call and the pointer returned. The bytes up to the alignment of
the destination are copied only if source and destination are aligned alike. -/
def memcpy (w W fuel : Nat) (mem : Nat → Nat) (dest src len : Nat) :
    Option ((Nat → Nat) × Nat) :=
  ((if dest % W = src % W then
      memcpy_align w W fuel { mem := mem, dest := dest, src := src, len := len }
    else some { mem := mem, dest := dest, src := src, len := len }).bind
    (fun st1 => (memcpy_words8 w W fuel st1).bind
      (fun st2 => (memcpy_words w W fuel st2).bind
        (fun st3 => memcpy_bytes w fuel st3)))).map (fun m => (m, dest))

/-- The first loop of the backward branch of `memmove`,
`while(count >= sizeof(word_t)) { *ddest-- = *dsrc--; count -= sizeof(word_t); }`. -/
def memmove_words (w W : Nat) : Nat → CopyState → Option CopyState
  | 0, _ => none
  | fuel + 1, st =>
    if W ≤ st.len then
      memmove_words w W fuel
        { mem := copy_obj W st.mem st.dest st.src
          dest := wsub w st.dest W
          src := wsub w st.src W
          len := wsub w st.len W }
    else some st

/-- The second loop of the backward branch of `memmove`,
`while(count-- > 0) *d-- = *s--;`: the memory after the loop. -/
def memmove_bytes (w : Nat) : Nat → CopyState → Option (Nat → Nat)
  | 0, _ => none
  | fuel + 1, st =>
    if 0 < st.len then
      memmove_bytes w fuel
        { mem := copy_obj 1 st.mem st.dest st.src
          dest := wsub w st.dest 1
          src := wsub w st.src 1
          len := wsub w st.len 1 }
    else some st.mem

/-- The function `memmove` on a machine of `w`-bit words with `sizeof(word_t) = W`:
the memory after the call and the pointer returned. With `dest > src` the words are
copied from the end of the regions downwards, then the bytes that are left; otherwise
`memcpy` copies upwards. Every loop takes at most `count` rounds. -/
def memmove (w W : Nat) (mem : Nat → Nat) (dest src count : Nat) :
    Option ((Nat → Nat) × Nat) :=
  if dest = src ∨ count = 0 then some (mem, dest)
  else if dest > src then
    ((memmove_words w W (count + 1)
        { mem := mem
          dest := wsub w (wadd w dest count) W
          src := wsub w (wadd w src count) W
          len := count }).bind
      (fun st => memmove_bytes w (count + 1)
        { mem := st.mem
          dest := wadd w st.dest (wsub w W 1)
          src := wadd w st.src (wsub w W 1)
          len := st.len })).map (fun m => (m, dest))
  else (memcpy w W (count + 1) mem dest src count).map (fun r => (r.1, dest))

/-- The variables of a copy of `count` bytes from `src` upwards to `dest`, after the
first `k` bytes have been copied. -/
def CopyState.up (mem : Nat → Nat) (dest src count k : Nat) : CopyState :=
  { mem := copy_obj k mem dest src, dest := dest + k, src := src + k, len := count - k }

/-- The variables of the word loop of a copy of `count` bytes from `src` downwards to
`dest`, with `c` bytes left to copy. -/
def CopyState.down (w W : Nat) (mem : Nat → Nat) (dest src count c : Nat) : CopyState :=
  { mem := copy_obj (count - c) mem (dest + c) (src + c)
    dest := wsub w (dest + c) W
    src := wsub w (src + c) W
    len := c }

/-! ## Example states -/

/-- A ring of four slots holding one item, with a live semaphore. -/
def ringExample : Producer Nat :=
  { ds_size := 4096
    ifc := { rpos := 1, wpos := 2, buffer := fun _ => 0 }
    max := 4
    sm := { value := 1, fault := none, ups := 1 } }

/-- A ring of four slots holding one item, whose peer has closed the session. -/
def ringClosed : Producer Nat :=
  { ds_size := 4096
    ifc := { rpos := 1, wpos := 2, buffer := fun _ => 0 }
    max := 4
    sm := { value := 1, fault := some ErrorCode.E_ABORT, ups := 1 } }

/-- An initialised ring of two slots. -/
def ringTwo : Producer Nat :=
  { ds_size := 4096
    ifc := { rpos := 0, wpos := 0, buffer := fun _ => 0 }
    max := 2
    sm := { value := 0, fault := none, ups := 0 } }

/-- An initialised ring of four slots. -/
def ringFour : Producer Nat :=
  { ds_size := 4096
    ifc := { rpos := 0, wpos := 0, buffer := fun _ => 0 }
    max := 4
    sm := { value := 0, fault := none, ups := 0 } }

/-- Calls of the two parties in which the producer runs between a `get()` of the
consumer and its `next()`. -/
def callsInterleaved : List (Call Nat) :=
  [Call.produce 5, Call.get, Call.produce 6, Call.next, Call.get, Call.produce 7]

/-- A service with an empty session table whose session selectors start at 64. -/
def serviceEmpty : Service Nat :=
  { regcaps := 0, caps := 64, sessions := List.replicate 32 none }

/-- A service with sessions 100, 101, 102 in the slots 0, 1, 2. -/
def serviceThree : Service Nat :=
  { regcaps := 0, caps := 64,
    sessions := [some 100, some 101, some 102] ++ List.replicate 29 none }

/-- A `create_session` hook that always succeeds: the session is named by the
selector base it was given. -/
def createByBase (pts : Nat) : Except ErrorCode Nat := Except.ok pts

/-- A service with one session, 101, in slot 1; slot 0 and the slots from 2 on are
empty. -/
def serviceGap : Service Nat :=
  { regcaps := 0, caps := 64,
    sessions := [none, some 101] ++ List.replicate 30 none }

/-- A request `SHARE_DS` (command 1) whose frame calls all succeed and whose session
setup, the second call into the service, raises `E_EXISTS`: the session is
initialised already. -/
def envShareTwice : PortalEnv :=
  { cmd := Except.ok 1
    arg := fun _ => Except.ok ()
    delegated := fun _ => Except.ok ()
    action := fun k => if k = 1 then Except.error ErrorCode.E_EXISTS else Except.ok () }

/-- A request `CREATE` (command 0) on a console session that is initialised already:
the session setup raises `E_EXISTS`. -/
def envCreateTwice : PortalEnv :=
  { cmd := Except.ok 0
    arg := fun _ => Except.ok ()
    delegated := fun _ => Except.ok ()
    action := fun _ => Except.error ErrorCode.E_EXISTS }

/-- A request whose command word `c` is whatever the client wrote, with all calls
succeeding. -/
def envCommand (c : Nat) : PortalEnv :=
  { cmd := Except.ok c
    arg := fun _ => Except.ok ()
    delegated := fun _ => Except.ok ()
    action := fun _ => Except.ok () }

/-- Three unlinked items at the addresses 10, 20 and 30. -/
def heapEmpty : Nat → DListItem := fun _ => { prev := none, next := none }

/-- The empty list. -/
def dlistEmpty : DList := { head := none, tail := none, len := 0 }

/-- The items 10 and 20 linked as the list `[10, 20]`. -/
def heapTwo : Nat → DListItem :=
  (DList.append 64 (DList.append 64 heapEmpty dlistEmpty 10).2.1
    (DList.append 64 heapEmpty dlistEmpty 10).2.2 20).2.1

/-- The list `[10, 20]`. -/
def dlistTwo : DList :=
  (DList.append 64 (DList.append 64 heapEmpty dlistEmpty 10).2.1
    (DList.append 64 heapEmpty dlistEmpty 10).2.2 20).2.2

/-- Six inserts and two removes on a treap. -/
def treapCalls : List TreapOp :=
  [TreapOp.insert 100 5, TreapOp.insert 101 3, TreapOp.insert 102 8, TreapOp.insert 103 1,
    TreapOp.remove 100 5, TreapOp.insert 106 7, TreapOp.remove 103 1]

/-- The strings "aaab" at the address 100 and "aab" at the address 200. -/
def memStrstr : Nat → Nat :=
  store_string (store_string (fun _ => 0) 100 [97, 97, 97, 98]) 200 [97, 97, 98]

/-- The string "ab" at the address 100 and again at the address 200. -/
def memEqual : Nat → Nat :=
  store_string (store_string (fun _ => 0) 100 [97, 98]) 200 [97, 98]

/-- The string "ab" at the address 200 and a buffer of four bytes `'X'` at the
address 100, followed by a NUL. -/
def memStrcpy : Nat → Nat :=
  fun a => if 100 ≤ a ∧ a < 104 then 88 else store_string (fun _ => 0) 200 [97, 98] a

/-- A stream as its constructor leaves it, with the cursor at position 0. -/
def vgaStart : VGAStream := { _pos := 0 }

/-- A memory in which every byte holds the low bits of its address. -/
def memCounting : Nat → Nat := fun a => a % 256

/-- Two dataspaces of one page each, at the addresses 0 and 0x80000000. -/
def childMemoryTwo : ChildMemory :=
  { list := [
      { desc := { size := 0x1000, type := 0, flags := 0, phys := 0, virt := 0, origin := 0 },
        cap := 0, perms := [] },
      { desc := { size := 0x1000, type := 0, flags := 0, phys := 0, virt := 0x80000000,
                  origin := 0 },
        cap := 0, perms := [] }] }

/-! ## Word arithmetic -/

theorem two_pow_pos_nat (k : Nat) : 0 < 2 ^ k := Nat.pos_pow_of_pos k (by decide)

theorem wadd_of_lt {w a b : Nat} (h : a + b < 2 ^ w) : wadd w a b = a + b :=
  Nat.mod_eq_of_lt h

theorem wsub_of_le {w a b : Nat} (hb : b ≤ a) (ha : a < 2 ^ w) : wsub w a b = a - b := by
  unfold wsub
  have hb1 : b % 2 ^ w = b := Nat.mod_eq_of_lt (by omega)
  have ha1 : a % 2 ^ w = a := Nat.mod_eq_of_lt ha
  have hsum : a + 2 ^ w - b = (a - b) + 2 ^ w := by omega
  rw [ha1, hb1, hsum, Nat.add_mod_right, Nat.mod_eq_of_lt]
  omega

theorem wmul_of_lt {w a b : Nat} (h : a * b < 2 ^ w) : wmul w a b = a * b :=
  Nat.mod_eq_of_lt h

/-- The mask of the source, `(x + 1) & (N - 1)`, is `(x + 1) mod N` for `N = 2 ^ k`. -/
theorem ring_mask {w k x : Nat} (hk : k < w) (hx : x < 2 ^ k) :
    wadd w x 1 &&& wsub w (2 ^ k) 1 = (x + 1) % 2 ^ k := by
  have h1 : 2 ^ k < 2 ^ w := Nat.pow_lt_pow_right (by decide) hk
  have hpos : 0 < 2 ^ k := two_pow_pos_nat k
  rw [wadd_of_lt (by omega), wsub_of_le (by omega) h1, Nat.and_pow_two_sub_one_eq_mod]

/-! ## Producer: the three methods in closed form -/

theorem Producer.current_eq (w k : Nat) (p : Producer T) (hk : k < w)
    (hN : p.max = 2 ^ k) (hw : p.ifc.wpos < p.max) :
    Producer.current w p =
      (if (p.ifc.wpos + 1) % p.max = p.ifc.rpos then none else some p.ifc.wpos, p) := by
  unfold Producer.current
  rw [hN] at hw
  rw [hN, ring_mask hk hw]
  split <;> rfl

theorem Producer.next_eq (w k : Nat) (p : Producer T) (hk : k < w)
    (hN : p.max = 2 ^ k) (hw : p.ifc.wpos < p.max) :
    Producer.next w p =
      (Except.ok (),
        { p with ifc := { p.ifc with wpos := (p.ifc.wpos + 1) % p.max },
                 sm := (Sm.up p.sm).2 }) := by
  unfold Producer.next
  rw [hN] at hw
  simp only [hN, ring_mask hk hw]
  cases hf : p.sm.fault <;> simp [Sm.up, hf]

theorem Producer.next_ok (w : Nat) (p : Producer T) : (Producer.next w p).1 = Except.ok () := by
  unfold Producer.next
  cases hf : p.sm.fault <;> simp [Sm.up, hf]

theorem Producer.produce_eq (w k : Nat) (p : Producer T) (v : T) (hk : k < w)
    (hN : p.max = 2 ^ k) (hw : p.ifc.wpos < p.max) :
    Producer.produce w p v =
      if (p.ifc.wpos + 1) % p.max = p.ifc.rpos then (Except.ok false, p)
      else (Except.ok true,
        { p with ifc := { p.ifc with wpos := (p.ifc.wpos + 1) % p.max,
                                     buffer := Function.update p.ifc.buffer p.ifc.wpos v },
                 sm := (Sm.up p.sm).2 }) := by
  unfold Producer.produce
  rw [Producer.current_eq w k p hk hN hw]
  by_cases hfull : (p.ifc.wpos + 1) % p.max = p.ifc.rpos
  · simp [hfull]
  · simp only [hfull, if_false]
    have hnext := Producer.next_eq w k
      { p with ifc := { p.ifc with buffer := Function.update p.ifc.buffer p.ifc.wpos v } }
      hk hN hw
    simp only [] at hnext
    rw [hnext]

theorem Sm.up_ups (s : Sm) : (Sm.up s).2.ups = s.ups + 1 := by
  unfold Sm.up
  cases s.fault <;> rfl

theorem Sm.up_value (s : Sm) (h : s.fault = none) : (Sm.up s).2.value = s.value + 1 := by
  unfold Sm.up
  rw [h]

/-! ## C1 - C3: the producer methods -/

/-- C1: on a ring whose length is a power of two and whose positions lie in `[0, N)`,
`current()` returns the null pointer exactly when `(wpos + 1) mod N = rpos`, otherwise
the slot `buffer[wpos]`, and the state after the call (positions, buffer, semaphore)
is the state before it. -/
theorem Producer.current_contract (w k : Nat) (p : Producer T) (hk : k < w)
    (hN : p.max = 2 ^ k) (hr : p.ifc.rpos < p.max) (hw : p.ifc.wpos < p.max) :
    ((Producer.current w p).1 = none ↔ (p.ifc.wpos + 1) % p.max = p.ifc.rpos) ∧
    ((p.ifc.wpos + 1) % p.max ≠ p.ifc.rpos →
      (Producer.current w p).1 = some p.ifc.wpos) ∧
    (Producer.current w p).2 = p := by
  have _ := hr
  rw [Producer.current_eq w k p hk hN hw]
  by_cases hfull : (p.ifc.wpos + 1) % p.max = p.ifc.rpos <;> simp [hfull]

theorem Producer.current_contract_witness :
    (2 < 64 ∧ ringExample.max = 2 ^ 2 ∧ ringExample.ifc.rpos < ringExample.max ∧
      ringExample.ifc.wpos < ringExample.max) ∧
    ((Producer.current 64 ringExample).1 = none ↔
      (ringExample.ifc.wpos + 1) % ringExample.max = ringExample.ifc.rpos) ∧
    ((ringExample.ifc.wpos + 1) % ringExample.max ≠ ringExample.ifc.rpos →
      (Producer.current 64 ringExample).1 = some ringExample.ifc.wpos) ∧
    (Producer.current 64 ringExample).2 = ringExample :=
  ⟨⟨by decide, by decide, by decide, by decide⟩,
    Producer.current_contract 64 2 ringExample (by decide) (by decide) (by decide)
      (by decide)⟩

/-- C2: `produce(v)` always returns (it never waits): on a full ring it returns false
and the state is unchanged; otherwise it returns true, the slot at the old `wpos`
holds `v`, every other slot, `rpos` and the ring length are unchanged, `wpos` is
advanced by one modulo N, and the semaphore got exactly one `up()`. -/
theorem Producer.produce_contract (w k : Nat) (p : Producer T) (v : T) (hk : k < w)
    (hN : p.max = 2 ^ k) (hr : p.ifc.rpos < p.max) (hw : p.ifc.wpos < p.max) :
    ((p.ifc.wpos + 1) % p.max = p.ifc.rpos →
      Producer.produce w p v = (Except.ok false, p)) ∧
    ((p.ifc.wpos + 1) % p.max ≠ p.ifc.rpos →
      (Producer.produce w p v).1 = Except.ok true ∧
      (Producer.produce w p v).2.ifc.buffer p.ifc.wpos = v ∧
      (∀ i, i ≠ p.ifc.wpos →
        (Producer.produce w p v).2.ifc.buffer i = p.ifc.buffer i) ∧
      (Producer.produce w p v).2.ifc.wpos = (p.ifc.wpos + 1) % p.max ∧
      (Producer.produce w p v).2.ifc.rpos = p.ifc.rpos ∧
      (Producer.produce w p v).2.max = p.max ∧
      (Producer.produce w p v).2.sm.ups = p.sm.ups + 1 ∧
      (Producer.produce w p v).2.sm.fault = p.sm.fault ∧
      (p.sm.fault = none → (Producer.produce w p v).2.sm.value = p.sm.value + 1)) := by
  have _ := hr
  rw [Producer.produce_eq w k p v hk hN hw]
  constructor
  · intro hfull
    simp [hfull]
  · intro hfree
    rw [if_neg hfree]
    refine ⟨rfl, ?_, ?_, rfl, rfl, rfl, Sm.up_ups _, ?_, Sm.up_value _⟩
    · simp
    · intro i hi
      simp [Function.update, hi]
    · unfold Sm.up
      cases hf : p.sm.fault <;> simp

theorem Producer.produce_contract_witness :
    (2 < 64 ∧ ringExample.max = 2 ^ 2 ∧ ringExample.ifc.rpos < ringExample.max ∧
      ringExample.ifc.wpos < ringExample.max) ∧
    (Producer.produce 64 ringExample 7).1 = Except.ok true ∧
    (Producer.produce 64 ringExample 7).2.ifc.buffer 2 = 7 ∧
    (Producer.produce 64 ringExample 7).2.ifc.wpos = 3 ∧
    (Producer.produce 64 ringExample 7).2.sm.ups = 2 :=
  have h := Producer.produce_contract 64 2 ringExample 7 (by decide) (by decide)
    (by decide) (by decide)
  have h2 := h.2 (by decide)
  ⟨⟨by decide, by decide, by decide, by decide⟩, h2.1, h2.2.1, h2.2.2.2.1, h2.2.2.2.2.2.2.1⟩

/-- C3: `next()` never raises. On a ring it sets `wpos` to `(wpos + 1) mod N`, leaves
`rpos`, the buffer and the ring length alone and issues exactly one `up()`. When that
`up()` raises (the peer closed the session) the error is swallowed, the semaphore
counter stays, the advanced `wpos` is kept, and a following `current()` still answers
from the ring header alone: a slot whenever the ring is not full. -/
theorem Producer.next_contract (w : Nat) (p : Producer T) :
    (Producer.next w p).1 = Except.ok () ∧
    (∀ k, k < w → p.max = 2 ^ k → p.ifc.wpos < p.max →
      (Producer.next w p).2.ifc.wpos = (p.ifc.wpos + 1) % p.max ∧
      (Producer.next w p).2.ifc.rpos = p.ifc.rpos ∧
      (Producer.next w p).2.ifc.buffer = p.ifc.buffer ∧
      (Producer.next w p).2.max = p.max ∧
      (Producer.next w p).2.sm.ups = p.sm.ups + 1 ∧
      (p.sm.fault = none → (Producer.next w p).2.sm.value = p.sm.value + 1) ∧
      (p.sm.fault ≠ none → (Producer.next w p).2.sm.value = p.sm.value) ∧
      (Producer.current w (Producer.next w p).2).1 =
        if ((p.ifc.wpos + 1) % p.max + 1) % p.max = p.ifc.rpos then none
        else some ((p.ifc.wpos + 1) % p.max)) := by
  refine ⟨Producer.next_ok w p, ?_⟩
  intro k hk hN hw
  have hpos : 0 < p.max := by rw [hN]; exact two_pow_pos_nat k
  have hnext := Producer.next_eq w k p hk hN hw
  have hcur := Producer.current_eq w k (Producer.next w p).2 hk
    (by rw [hnext]; exact hN) (by rw [hnext]; exact Nat.mod_lt _ hpos)
  rw [hcur, hnext]
  refine ⟨rfl, rfl, rfl, rfl, Sm.up_ups _, Sm.up_value _, ?_, rfl⟩
  intro hf
  unfold Sm.up
  cases hfault : p.sm.fault
  · exact absurd hfault hf
  · rfl

theorem Producer.next_contract_witness :
    (2 < 64 ∧ ringClosed.max = 2 ^ 2 ∧ ringClosed.ifc.wpos < ringClosed.max) ∧
    (Producer.next 64 ringClosed).1 = Except.ok () ∧
    (Producer.next 64 ringClosed).2.ifc.wpos = 3 ∧
    (Producer.next 64 ringClosed).2.sm.ups = 2 ∧
    (Producer.next 64 ringClosed).2.sm.value = 1 ∧
    (Producer.current 64 (Producer.next 64 ringClosed).2).1 = some 3 :=
  have h := Producer.next_contract 64 ringClosed
  have h2 := h.2 2 (by decide) (by decide) (by decide)
  ⟨⟨by decide, by decide, by decide⟩, h.1, h2.1, h2.2.2.2.2.1,
    h2.2.2.2.2.2.2.1 (by decide), h2.2.2.2.2.2.2.2⟩

/-! ## C4: the ring length -/

theorem prev_pow2_loop_spec : ∀ (fuel p x j : Nat), p = 2 ^ j → p ≤ x →
    x < 2 * p * 2 ^ fuel →
    ∃ i, prev_pow2_loop fuel p x = 2 ^ i ∧ 2 ^ i ≤ x ∧ x < 2 * 2 ^ i := by
  intro fuel
  induction fuel with
  | zero =>
    intro p x j hp hle hlt
    refine ⟨j, ?_, ?_, ?_⟩
    · simpa [prev_pow2_loop] using hp
    · rw [← hp]; exact hle
    · rw [← hp]; simpa using hlt
  | succ n ih =>
    intro p x j hp hle hlt
    unfold prev_pow2_loop
    by_cases hdbl : 2 * p ≤ x
    · rw [if_pos hdbl]
      refine ih (2 * p) x (j + 1) ?_ hdbl ?_
      · rw [hp, Nat.pow_succ]; omega
      · have hpow : 2 ^ (n + 1) = 2 * 2 ^ n := by rw [Nat.pow_succ]; omega
        rw [hpow] at hlt
        calc x < 2 * p * (2 * 2 ^ n) := hlt
          _ = 2 * (2 * p) * 2 ^ n := by ring
    · rw [if_neg hdbl]
      refine ⟨j, hp, ?_, ?_⟩
      · rw [← hp]; exact hle
      · rw [← hp]; omega

/-- The model of `prev_pow2` rounds every `x ≥ 1` down to a power of two. -/
theorem prev_pow2_spec (x : Nat) (hx : 1 ≤ x) :
    ∃ i, prev_pow2 x = 2 ^ i ∧ 2 ^ i ≤ x ∧ x < 2 * 2 ^ i := by
  unfold prev_pow2
  rw [if_neg (by omega)]
  refine prev_pow2_loop_spec x 1 x 0 rfl hx ?_
  have h := Nat.lt_two_pow x
  omega

/-- No power of two lies strictly between `prev_pow2 x` and `x`. -/
theorem prev_pow2_largest (x M : Nat) (hx : 1 ≤ x) (hM : IsPow2 M) (hle : M ≤ x) :
    M ≤ prev_pow2 x := by
  obtain ⟨i, hi, _, hlt⟩ := prev_pow2_spec x hx
  obtain ⟨m, rfl⟩ := hM
  rw [hi]
  have hlt2 : 2 ^ m < 2 ^ (i + 1) := by
    rw [Nat.pow_succ]; omega
  have hmi : m < i + 1 := (Nat.pow_lt_pow_iff_right (by decide)).mp hlt2
  exact Nat.pow_le_pow_right (by decide) (by omega)

/-- C4: for a dataspace of `s` bytes with `s ≥ sizeof(header) + sizeof(T)`, the
constructor yields a producer whose `rblength()` is a power of two `N` with
`sizeof(header) + N * sizeof(T) ≤ s`, and no power of two with that property is
larger; equivalently it is the largest power of two that is at most
`(s - sizeof(header)) / sizeof(T)`. -/
theorem Producer.rblength_largest_pow2 (w hdr szT s : Nat) (mem : Interface T) (sm : Sm)
    (init : Bool) (hs : s < 2 ^ w) (hT : 0 < szT) (hfit : hdr + szT ≤ s) :
    ∃ p, Producer.new w hdr szT s mem sm init = Except.ok p ∧
      IsPow2 p.rblength ∧
      hdr + p.rblength * szT ≤ s ∧
      (∀ M, IsPow2 M → hdr + M * szT ≤ s → M ≤ p.rblength) ∧
      p.rblength ≤ (s - hdr) / szT ∧
      (∀ M, IsPow2 M → M ≤ (s - hdr) / szT → M ≤ p.rblength) := by
  have hq : 1 ≤ (s - hdr) / szT := (Nat.le_div_iff_mul_le hT).mpr (by omega)
  obtain ⟨i, hi, hile, _⟩ := prev_pow2_spec ((s - hdr) / szT) hq
  refine ⟨_, rfl, ?_⟩
  simp only [Producer.rblength, wsub_of_le (show hdr ≤ s by omega) hs]
  have hdm : (s - hdr) / szT * szT ≤ s - hdr := Nat.div_mul_le_self _ _
  refine ⟨⟨i, hi⟩, ?_, ?_, ?_, ?_⟩
  · have hmul : prev_pow2 ((s - hdr) / szT) * szT ≤ (s - hdr) / szT * szT :=
      Nat.mul_le_mul_right _ (by rw [hi]; exact hile)
    omega
  · intro M hM hMfit
    refine prev_pow2_largest _ M hq hM ?_
    exact (Nat.le_div_iff_mul_le hT).mpr (by omega)
  · rw [hi]; exact hile
  · intro M hM hMle
    exact prev_pow2_largest _ M hq hM hMle

theorem Producer.rblength_largest_pow2_witness :
    ((4096 : Nat) < 2 ^ 64 ∧ 0 < 16 ∧ 16 + 16 ≤ 4096) ∧
    ∃ p, Producer.new 64 16 16 4096 ringExample.ifc ringExample.sm true = Except.ok p ∧
      IsPow2 p.rblength ∧
      16 + p.rblength * 16 ≤ 4096 ∧
      (∀ M, IsPow2 M → 16 + M * 16 ≤ 4096 → M ≤ p.rblength) ∧
      p.rblength ≤ (4096 - 16) / 16 ∧
      (∀ M, IsPow2 M → M ≤ (4096 - 16) / 16 → M ≤ p.rblength) :=
  ⟨⟨by decide, by decide, by decide⟩,
    Producer.rblength_largest_pow2 64 16 16 4096 ringExample.ifc ringExample.sm true
      (by decide) (by decide) (by decide)⟩

/-! ## The content of the ring under push and pop -/

theorem mod_of_lt_two_mul {a N : Nat} (h : a < 2 * N) :
    a % N = if a < N then a else a - N := by
  by_cases hlt : a < N
  · rw [if_pos hlt]; exact Nat.mod_eq_of_lt hlt
  · rw [if_neg hlt, Nat.mod_eq_sub_mod (by omega), Nat.mod_eq_of_lt (by omega)]

theorem ringItems_length (N r wp : Nat) (buf : Nat → T) :
    (ringItems N r wp buf).length = (wp + N - r) % N := by
  simp [ringItems]

theorem ring_count_push {N r wp : Nat} (hr : r < N) (hw : wp < N)
    (hfree : (wp + 1) % N ≠ r) :
    ((wp + 1) % N + N - r) % N = (wp + N - r) % N + 1 := by
  have hpos : 0 < N := by omega
  have hlt := Nat.mod_lt (wp + 1) hpos
  have h1 := mod_of_lt_two_mul (show wp + 1 < 2 * N by omega)
  have h2 := mod_of_lt_two_mul (show wp + N - r < 2 * N by omega)
  have h3 := mod_of_lt_two_mul (show (wp + 1) % N + N - r < 2 * N by omega)
  split_ifs at h1 h2 h3 <;> omega

theorem ring_index_last {N r wp : Nat} (hr : r < N) (hw : wp < N) :
    (r + (wp + N - r) % N) % N = wp := by
  have h2 := mod_of_lt_two_mul (show wp + N - r < 2 * N by omega)
  have hlt := Nat.mod_lt (wp + N - r) (show 0 < N by omega)
  have h3 := mod_of_lt_two_mul (show r + (wp + N - r) % N < 2 * N by omega)
  split_ifs at h2 h3 <;> omega

theorem ring_index_before {N r wp i : Nat} (hr : r < N) (hw : wp < N)
    (hi : i < (wp + N - r) % N) : (r + i) % N ≠ wp := by
  have h2 := mod_of_lt_two_mul (show wp + N - r < 2 * N by omega)
  have hlt := Nat.mod_lt (wp + N - r) (show 0 < N by omega)
  have h3 := mod_of_lt_two_mul (show r + i < 2 * N by omega)
  split_ifs at h2 h3 <;> omega

theorem ring_count_pop {N r wp : Nat} (hr : r < N) (hw : wp < N) (hne : r ≠ wp) :
    (wp + N - r) % N = (wp + N - (r + 1) % N) % N + 1 := by
  have hpos : 0 < N := by omega
  have hlt := Nat.mod_lt (r + 1) hpos
  have h1 := mod_of_lt_two_mul (show r + 1 < 2 * N by omega)
  have h2 := mod_of_lt_two_mul (show wp + N - r < 2 * N by omega)
  by_cases hz : (r + 1) % N = 0
  · have hr1 : r + 1 = N := by
      split_ifs at h1 <;> omega
    rw [hz, Nat.sub_zero, Nat.add_mod_right, Nat.mod_eq_of_lt hw]
    split_ifs at h2 <;> omega
  · have h3 := mod_of_lt_two_mul (show wp + N - (r + 1) % N < 2 * N by omega)
    split_ifs at h1 h2 h3 <;> omega

/-- Writing the slot at `wp` and advancing `wp` appends the item to the content. -/
theorem ringItems_push {N r wp : Nat} (buf : Nat → T) (v : T) (hr : r < N) (hw : wp < N)
    (hfree : (wp + 1) % N ≠ r) :
    ringItems N r ((wp + 1) % N) (Function.update buf wp v) = ringItems N r wp buf ++ [v] := by
  unfold ringItems
  rw [ring_count_push hr hw hfree, List.range_succ, List.map_append]
  congr 1
  · apply List.map_congr_left
    intro i hi
    rw [List.mem_range] at hi
    exact Function.update_noteq (ring_index_before hr hw hi) v buf
  · rw [List.map_singleton, ring_index_last hr hw, Function.update_same]

/-- Advancing `r` removes the first item of the content. -/
theorem ringItems_pop {N r wp : Nat} (buf : Nat → T) (hr : r < N) (hw : wp < N)
    (hne : r ≠ wp) :
    ringItems N r wp buf = buf r :: ringItems N ((r + 1) % N) wp buf := by
  unfold ringItems
  rw [ring_count_pop hr hw hne, List.range_succ_eq_map, List.map_cons, List.map_map]
  congr 1
  · simp [Nat.mod_eq_of_lt hr]
  · apply List.map_congr_left
    intro i _
    simp only [Function.comp, Nat.mod_add_mod]
    congr 2
    omega

/-! ## The ring invariant along a trace -/

theorem RingSys.Inv_start (k : Nat) (p : Producer T) (hN : p.max = 2 ^ k)
    (hr0 : p.ifc.rpos = 0) (hw0 : p.ifc.wpos = 0) : RingSys.Inv (2 ^ k) (RingSys.start p) := by
  refine ⟨hN, ?_, ?_, ?_⟩
  · show p.ifc.rpos < 2 ^ k
    rw [hr0]; exact two_pow_pos_nat k
  · show p.ifc.wpos < 2 ^ k
    rw [hw0]; exact two_pow_pos_nat k
  · show [] ++ ringItems p.max p.ifc.rpos p.ifc.wpos p.ifc.buffer = []
    simp [ringItems, hr0, hw0]

theorem RingSys.Inv_step (w k : Nat) (s : RingSys T) (op : RingOp T) (hk : k < w)
    (hinv : RingSys.Inv (2 ^ k) s) (hg : slotGuard w s op = true) :
    RingSys.Inv (2 ^ k) (RingSys.step w s op) := by
  obtain ⟨hmax, hr, hw, hhist⟩ := hinv
  have hw1 : s.prod.ifc.wpos < s.prod.max := by rw [hmax]; exact hw
  have hr1 : s.prod.ifc.rpos < s.prod.max := by rw [hmax]; exact hr
  have hpos : 0 < s.prod.max := by omega
  have hmodlt : ∀ x, x % s.prod.max < 2 ^ k := by
    intro x
    have := Nat.mod_lt x hpos
    omega
  cases op with
  | produce v =>
    simp only [RingSys.step]
    rw [Producer.produce_eq w k s.prod v hk hmax hw1]
    by_cases hfull : (s.prod.ifc.wpos + 1) % s.prod.max = s.prod.ifc.rpos
    · rw [if_pos hfull]
      exact ⟨hmax, hr, hw, hhist⟩
    · rw [if_neg hfull]
      refine ⟨hmax, hr, hmodlt _, ?_⟩
      show s.read ++ ringItems s.prod.max s.prod.ifc.rpos ((s.prod.ifc.wpos + 1) % s.prod.max)
        (Function.update s.prod.ifc.buffer s.prod.ifc.wpos v) = s.sent ++ [v]
      rw [ringItems_push _ v hr1 hw1 hfull, ← List.append_assoc, ← hhist]
      rfl
  | next =>
    have hfree : (s.prod.ifc.wpos + 1) % s.prod.max ≠ s.prod.ifc.rpos := by
      intro hfull
      simp [slotGuard, Producer.current_eq w k s.prod hk hmax hw1, hfull] at hg
    simp only [RingSys.step]
    rw [Producer.next_eq w k s.prod hk hmax hw1]
    refine ⟨hmax, hr, hmodlt _, ?_⟩
    show s.read ++ ringItems s.prod.max s.prod.ifc.rpos ((s.prod.ifc.wpos + 1) % s.prod.max)
      s.prod.ifc.buffer = s.sent ++ [s.prod.ifc.buffer s.prod.ifc.wpos]
    have hpush := ringItems_push s.prod.ifc.buffer (s.prod.ifc.buffer s.prod.ifc.wpos)
      hr1 hw1 hfree
    rw [Function.update_eq_self] at hpush
    rw [hpush, ← List.append_assoc, ← hhist]
    rfl
  | consNext =>
    have hne : s.prod.ifc.rpos ≠ s.prod.ifc.wpos := by
      simpa [slotGuard, Consumer.has_data] using hg
    refine ⟨hmax, hmodlt _, hw, ?_⟩
    show (s.read ++ [s.prod.ifc.buffer s.prod.ifc.rpos]) ++
      ringItems s.prod.max ((s.prod.ifc.rpos + 1) % s.prod.max) s.prod.ifc.wpos
        s.prod.ifc.buffer = s.sent
    rw [← hhist, List.append_assoc]
    show _ = s.read ++ ringItems s.prod.max s.prod.ifc.rpos s.prod.ifc.wpos s.prod.ifc.buffer
    rw [ringItems_pop s.prod.ifc.buffer hr1 hw1 hne]
    rfl
  | receive =>
    simp only [RingSys.step, Consumer.receive, Consumer.get, Consumer.has_data]
    by_cases hne : s.prod.ifc.rpos = s.prod.ifc.wpos
    · simp only [hne, bne_self_eq_false, Bool.false_eq_true, if_false]
      exact ⟨hmax, hr, hw, hhist⟩
    · have hb : (s.prod.ifc.rpos != s.prod.ifc.wpos) = true := by simpa using hne
      simp only [hb, if_true]
      refine ⟨hmax, hmodlt _, hw, ?_⟩
      show (s.read ++ [s.prod.ifc.buffer s.prod.ifc.rpos]) ++
        ringItems s.prod.max ((s.prod.ifc.rpos + 1) % s.prod.max) s.prod.ifc.wpos
          s.prod.ifc.buffer = s.sent
      rw [← hhist, List.append_assoc]
      show _ = s.read ++ ringItems s.prod.max s.prod.ifc.rpos s.prod.ifc.wpos s.prod.ifc.buffer
      rw [ringItems_pop s.prod.ifc.buffer hr1 hw1 hne]
      rfl

theorem RingSys.Inv_run (w k : Nat) (hk : k < w) : ∀ (ops : List (RingOp T)) (s : RingSys T),
    RingSys.Inv (2 ^ k) s → RingSys.admits w (slotGuard w) s ops = true →
    RingSys.Inv (2 ^ k) (RingSys.run w s ops) := by
  intro ops
  induction ops with
  | nil => intro s hinv _; exact hinv
  | cons op ops ih =>
    intro s hinv hadm
    simp only [RingSys.admits, Bool.and_eq_true] at hadm
    exact ih _ (RingSys.Inv_step w k s op hk hinv hadm.1) hadm.2

/-! ## C5: positions and the number of outstanding items -/

/-- C5, as stated, fails: on an initialised ring of two slots two bare `next()` calls
of the producer (no consumer step at all) publish two items, while
`(wpos - rpos) mod N` is 0 and `N - 1` is 1. -/
theorem RingSys.outstanding_bare_next_counterexample :
    (1 < 64 ∧ ringTwo.max = 2 ^ 1 ∧ ringTwo.ifc.rpos = 0 ∧ ringTwo.ifc.wpos = 0 ∧
      RingSys.admits 64 consumerGuard (RingSys.start ringTwo)
        [RingOp.next, RingOp.next] = true) ∧
    (RingSys.run 64 (RingSys.start ringTwo) [RingOp.next, RingOp.next]).sent.length -
      (RingSys.run 64 (RingSys.start ringTwo) [RingOp.next, RingOp.next]).read.length = 2 ∧
    ((RingSys.run 64 (RingSys.start ringTwo) [RingOp.next, RingOp.next]).prod.ifc.wpos +
      ringTwo.max -
      (RingSys.run 64 (RingSys.start ringTwo) [RingOp.next, RingOp.next]).prod.ifc.rpos) %
        ringTwo.max = 0 ∧
    ¬ ((RingSys.run 64 (RingSys.start ringTwo) [RingOp.next, RingOp.next]).sent.length -
      (RingSys.run 64 (RingSys.start ringTwo) [RingOp.next, RingOp.next]).read.length ≤
        ringTwo.max - 1) := by
  decide

/-- C5, amended: in every state reached from an initialised ring (`rpos = wpos = 0`,
N a power of two) by `produce` steps, by producer `next()` steps taken only when
`current()` has handed out a slot, and by consumer `next()` steps taken only when
`has_data()` holds, `rpos` and `wpos` lie in `[0, N)` and the number of items
produced but not yet consumed is `(wpos - rpos) mod N`, which is at most `N - 1`. -/
theorem RingSys.outstanding_bound (w k : Nat) (p : Producer T) (ops : List (RingOp T))
    (hk : k < w) (hN : p.max = 2 ^ k) (hr0 : p.ifc.rpos = 0) (hw0 : p.ifc.wpos = 0)
    (hadm : RingSys.admits w (slotGuard w) (RingSys.start p) ops = true) :
    (RingSys.run w (RingSys.start p) ops).prod.max = p.max ∧
    (RingSys.run w (RingSys.start p) ops).prod.ifc.rpos < p.max ∧
    (RingSys.run w (RingSys.start p) ops).prod.ifc.wpos < p.max ∧
    (RingSys.run w (RingSys.start p) ops).read.length ≤
      (RingSys.run w (RingSys.start p) ops).sent.length ∧
    (RingSys.run w (RingSys.start p) ops).sent.length -
      (RingSys.run w (RingSys.start p) ops).read.length =
      ((RingSys.run w (RingSys.start p) ops).prod.ifc.wpos + p.max -
        (RingSys.run w (RingSys.start p) ops).prod.ifc.rpos) % p.max ∧
    (((RingSys.run w (RingSys.start p) ops).sent.length -
      (RingSys.run w (RingSys.start p) ops).read.length : Nat) : Int) =
      (((RingSys.run w (RingSys.start p) ops).prod.ifc.wpos : Int) -
        ((RingSys.run w (RingSys.start p) ops).prod.ifc.rpos : Int)) % (p.max : Int) ∧
    (RingSys.run w (RingSys.start p) ops).sent.length -
      (RingSys.run w (RingSys.start p) ops).read.length ≤ p.max - 1 := by
  obtain ⟨hmax, hr, hw, hhist⟩ :=
    RingSys.Inv_run w k hk ops _ (RingSys.Inv_start k p hN hr0 hw0) hadm
  generalize RingSys.run w (RingSys.start p) ops = s at hmax hr hw hhist ⊢
  rw [← hN] at hmax hr hw
  have hlen : s.sent.length = s.read.length +
      (s.prod.ifc.wpos + p.max - s.prod.ifc.rpos) % p.max := by
    rw [← hhist, List.length_append, Producer.pending, ringItems_length, hmax]
  have hcnt := Nat.mod_lt (s.prod.ifc.wpos + p.max - s.prod.ifc.rpos)
    (show 0 < p.max by omega)
  refine ⟨hmax, hr, hw, by omega, by omega, ?_, by omega⟩
  have hnat : s.sent.length - s.read.length =
      (s.prod.ifc.wpos + p.max - s.prod.ifc.rpos) % p.max := by omega
  rw [hnat, Int.natCast_mod, Nat.cast_sub (by omega), Nat.cast_add]
  rw [show ((s.prod.ifc.wpos : Int) + (p.max : Int) - (s.prod.ifc.rpos : Int)) =
    ((s.prod.ifc.wpos : Int) - (s.prod.ifc.rpos : Int)) + (p.max : Int) by ring]
  exact Int.add_emod_self

theorem RingSys.outstanding_bound_witness :
    (1 < 64 ∧ ringTwo.max = 2 ^ 1 ∧ ringTwo.ifc.rpos = 0 ∧ ringTwo.ifc.wpos = 0 ∧
      RingSys.admits 64 (slotGuard 64) (RingSys.start ringTwo)
        [RingOp.next, RingOp.produce 5, RingOp.consNext, RingOp.produce 6] = true) ∧
    (RingSys.run 64 (RingSys.start ringTwo)
      [RingOp.next, RingOp.produce 5, RingOp.consNext, RingOp.produce 6]).prod.ifc.wpos
        < ringTwo.max ∧
    (RingSys.run 64 (RingSys.start ringTwo)
      [RingOp.next, RingOp.produce 5, RingOp.consNext, RingOp.produce 6]).sent.length -
    (RingSys.run 64 (RingSys.start ringTwo)
      [RingOp.next, RingOp.produce 5, RingOp.consNext, RingOp.produce 6]).read.length
        ≤ ringTwo.max - 1 :=
  have h := RingSys.outstanding_bound 64 1 ringTwo
    [RingOp.next, RingOp.produce 5, RingOp.consNext, RingOp.produce 6]
    (by decide) (by decide) (by decide) (by decide) (by decide)
  ⟨⟨by decide, by decide, by decide, by decide, by decide⟩, h.2.2.1, h.2.2.2.2.2.2⟩

/-! ## C6: no message is lost, duplicated or reordered -/

theorem RingView.inv_at_start (k : Nat) (p : Producer T) (hN : p.max = 2 ^ k)
    (hr0 : p.ifc.rpos = 0) (hw0 : p.ifc.wpos = 0) :
    RingView.Inv (2 ^ k) (RingView.start p) :=
  ⟨RingSys.Inv_start k p hN hr0 hw0, fun _ h => Option.noConfusion h⟩

theorem RingView.Inv_produce (w k : Nat) (s : RingView T) (v : T) (hk : k < w)
    (hinv : RingView.Inv (2 ^ k) s) :
    RingView.Inv (2 ^ k) (RingView.step w s (Call.produce v)) := by
  obtain ⟨hsys, hheld⟩ := hinv
  refine ⟨RingSys.Inv_step w k s.sys (RingOp.produce v) hk hsys rfl, ?_⟩
  obtain ⟨hmax, _, hw, _⟩ := hsys
  have hw1 : s.sys.prod.ifc.wpos < s.sys.prod.max := by rw [hmax]; exact hw
  intro slot hslot
  obtain ⟨hs, hne⟩ := hheld slot hslot
  show slot = (RingSys.step w s.sys (RingOp.produce v)).prod.ifc.rpos ∧
    (RingSys.step w s.sys (RingOp.produce v)).prod.ifc.rpos ≠
      (RingSys.step w s.sys (RingOp.produce v)).prod.ifc.wpos
  simp only [RingSys.step]
  rw [Producer.produce_eq w k s.sys.prod v hk hmax hw1]
  by_cases hfull : (s.sys.prod.ifc.wpos + 1) % s.sys.prod.max = s.sys.prod.ifc.rpos
  · rw [if_pos hfull]
    exact ⟨hs, hne⟩
  · rw [if_neg hfull]
    exact ⟨hs, fun h => hfull h.symm⟩

theorem RingView.Inv_get (w k : Nat) (s : RingView T) (hinv : RingView.Inv (2 ^ k) s) :
    RingView.Inv (2 ^ k) (RingView.step w s Call.get) := by
  refine ⟨hinv.1, ?_⟩
  intro slot hslot
  have hget : Consumer.get s.sys.prod = some slot := hslot
  unfold Consumer.get Consumer.has_data at hget
  by_cases hne : s.sys.prod.ifc.rpos = s.sys.prod.ifc.wpos
  · simp [hne] at hget
  · have hb : (s.sys.prod.ifc.rpos != s.sys.prod.ifc.wpos) = true := by simpa using hne
    rw [hb, if_pos rfl] at hget
    exact ⟨(Option.some.inj hget).symm, hne⟩

theorem RingView.Inv_next (w k : Nat) (s : RingView T) (hk : k < w)
    (hinv : RingView.Inv (2 ^ k) s)
    (hheld : (s.held.isSome || Consumer.has_data s.sys.prod) = true) :
    RingView.Inv (2 ^ k) (RingView.step w s Call.next) := by
  have hg : slotGuard w s.sys RingOp.consNext = true := by
    rcases Bool.or_eq_true_iff.mp hheld with h | h
    · obtain ⟨slot, hslot⟩ := Option.isSome_iff_exists.mp h
      have hne := (hinv.2 slot hslot).2
      simpa [slotGuard, Consumer.has_data] using hne
    · exact h
  exact ⟨RingSys.Inv_step w k s.sys RingOp.consNext hk hinv.1 hg,
    fun _ h => Option.noConfusion h⟩

theorem RingView.inv_along_run (w k : Nat) (hk : k < w) :
    ∀ (calls : List (Call T)) (s : RingView T),
    RingView.Inv (2 ^ k) s → RingView.conforms w s calls = true →
    RingView.Inv (2 ^ k) (RingView.run w s calls) := by
  intro calls
  induction calls with
  | nil => intro s hinv _; exact hinv
  | cons c cs ih =>
    intro s hinv hconf
    cases c with
    | produce v =>
      rw [RingView.conforms] at hconf
      exact ih _ (RingView.Inv_produce w k s v hk hinv) hconf
    | get =>
      rw [RingView.conforms] at hconf
      exact ih _ (RingView.Inv_get w k s hinv) hconf
    | next =>
      rw [RingView.conforms, Bool.and_eq_true] at hconf
      exact ih _ (RingView.Inv_next w k s hk hinv hconf.1) hconf.2

/-- C6: for every ring length N that is a power of two and every sequence of
`produce(v)` calls of the producer and of `get()` and `next()` calls of the consumer
on an initialised ring, in any order, also with `produce` between a `get()` and its
`next()`, where `next()` is called for a slot that `get()` has handed out (or at
least when `has_data()` holds): at every point the values the consumer has read, followed by the values stored in
`buffer[rpos .. wpos)` in ring order, are exactly the values for which `produce`
returned true, in the order of the calls; and the slot the consumer holds between
`get()` and `next()` is `buffer[rpos]` and holds the oldest value not yet read. -/
theorem RingView.no_loss_dup_reorder (w k : Nat) (p : Producer T) (calls : List (Call T))
    (hk : k < w) (hN : p.max = 2 ^ k) (hr0 : p.ifc.rpos = 0) (hw0 : p.ifc.wpos = 0)
    (hconf : RingView.conforms w (RingView.start p) calls = true) :
    (RingView.run w (RingView.start p) calls).sys.read ++
      (RingView.run w (RingView.start p) calls).sys.prod.pending =
      (RingView.run w (RingView.start p) calls).sys.sent ∧
    ∀ slot, (RingView.run w (RingView.start p) calls).held = some slot →
      slot = (RingView.run w (RingView.start p) calls).sys.prod.ifc.rpos ∧
      Consumer.has_data (RingView.run w (RingView.start p) calls).sys.prod = true ∧
      (RingView.run w (RingView.start p) calls).sys.sent[
          (RingView.run w (RingView.start p) calls).sys.read.length]? =
        some ((RingView.run w (RingView.start p) calls).sys.prod.ifc.buffer slot) := by
  obtain ⟨⟨hmax, hr, hw, hhist⟩, hheld⟩ :=
    RingView.inv_along_run w k hk calls _ (RingView.inv_at_start k p hN hr0 hw0) hconf
  generalize RingView.run w (RingView.start p) calls = s at hmax hr hw hhist hheld ⊢
  refine ⟨hhist, ?_⟩
  intro slot hslot
  obtain ⟨hs, hne⟩ := hheld slot hslot
  refine ⟨hs, by simpa [Consumer.has_data] using hne, ?_⟩
  have hpop : s.sys.prod.pending = s.sys.prod.ifc.buffer s.sys.prod.ifc.rpos ::
      ringItems s.sys.prod.max ((s.sys.prod.ifc.rpos + 1) % s.sys.prod.max)
        s.sys.prod.ifc.wpos s.sys.prod.ifc.buffer :=
    ringItems_pop s.sys.prod.ifc.buffer (by rw [hmax]; exact hr) (by rw [hmax]; exact hw) hne
  rw [← hhist, hpop, hs, List.getElem?_append_right (Nat.le_refl _), Nat.sub_self,
    List.getElem?_cons_zero]

theorem RingView.no_loss_dup_reorder_witness :
    (2 < 64 ∧ ringFour.max = 2 ^ 2 ∧ ringFour.ifc.rpos = 0 ∧ ringFour.ifc.wpos = 0 ∧
      RingView.conforms 64 (RingView.start ringFour) callsInterleaved = true) ∧
    (RingView.run 64 (RingView.start ringFour) callsInterleaved).held = some 1 ∧
    (RingView.run 64 (RingView.start ringFour) callsInterleaved).sys.read ++
      (RingView.run 64 (RingView.start ringFour) callsInterleaved).sys.prod.pending =
      (RingView.run 64 (RingView.start ringFour) callsInterleaved).sys.sent ∧
    ∀ slot, (RingView.run 64 (RingView.start ringFour) callsInterleaved).held = some slot →
      slot = (RingView.run 64 (RingView.start ringFour) callsInterleaved).sys.prod.ifc.rpos ∧
      Consumer.has_data (RingView.run 64 (RingView.start ringFour) callsInterleaved).sys.prod
        = true ∧
      (RingView.run 64 (RingView.start ringFour) callsInterleaved).sys.sent[
          (RingView.run 64 (RingView.start ringFour) callsInterleaved).sys.read.length]? =
        some ((RingView.run 64 (RingView.start ringFour)
          callsInterleaved).sys.prod.ifc.buffer slot) :=
  ⟨⟨by decide, by decide, by decide, by decide, by decide⟩, by decide,
    RingView.no_loss_dup_reorder 64 2 ringFour callsInterleaved
      (by decide) (by decide) (by decide) (by decide) (by decide)⟩

/-! ## C7: filling and draining the ring -/

/-- As long as the ring of an idle consumer (`rpos = 0`) has room, every `produce`
of a batch succeeds and advances `wpos` by one. -/
theorem Producer.produceAll_fill (w k : Nat) (hk : k < w) : ∀ (vs : List T) (p : Producer T),
    p.max = 2 ^ k → p.ifc.rpos = 0 → p.ifc.wpos + vs.length < 2 ^ k →
    (Producer.produceAll w p vs).1 = List.replicate vs.length (Except.ok true) ∧
    (Producer.produceAll w p vs).2.max = 2 ^ k ∧
    (Producer.produceAll w p vs).2.ifc.rpos = 0 ∧
    (Producer.produceAll w p vs).2.ifc.wpos = p.ifc.wpos + vs.length := by
  intro vs
  induction vs with
  | nil =>
    intro p hN hr _
    exact ⟨rfl, hN, hr, rfl⟩
  | cons v vs ih =>
    intro p hN hr hlen
    rw [List.length_cons] at hlen
    have hw : p.ifc.wpos < p.max := by omega
    have hmod : (p.ifc.wpos + 1) % p.max = p.ifc.wpos + 1 :=
      Nat.mod_eq_of_lt (by omega)
    have hfree : (p.ifc.wpos + 1) % p.max ≠ p.ifc.rpos := by omega
    have hprod := Producer.produce_eq w k p v hk hN hw
    rw [if_neg hfree] at hprod
    have hstep := ih (Producer.produce w p v).2 (by rw [hprod]; exact hN)
      (by rw [hprod]; exact hr) (by rw [hprod]; show (p.ifc.wpos + 1) % p.max + _ < _; omega)
    simp only [Producer.produceAll, List.length_cons, List.replicate_succ]
    refine ⟨?_, hstep.2.1, hstep.2.2.1, ?_⟩
    · rw [hstep.1, hprod]
    · rw [hstep.2.2.2, hprod]
      show (p.ifc.wpos + 1) % p.max + _ = _
      omega

/-- C7: a dataspace of 4096 bytes with `sizeof(T) = 16` and a 16-byte header gives
`rblength() = 128`. On every initialised ring of length `N = 2 ^ k ≥ 2` without
consumption the first `N - 1` `produce` calls return true, then `current()` returns
the null pointer and `produce` returns false; once the consumer has advanced `rpos`
by one, one further `produce` succeeds and the one after it fails again. -/
theorem Producer.fill_drain (w k : Nat) (p : Producer T) (vs : List T) (v1 v2 v3 : T)
    (mem : Interface T) (sm : Sm) (init : Bool)
    (hw12 : 12 < w) (hk1 : 1 ≤ k) (hk : k < w) (hN : p.max = 2 ^ k)
    (hr0 : p.ifc.rpos = 0) (hw0 : p.ifc.wpos = 0) (hlen : vs.length = p.max - 1) :
    (∃ q, Producer.new w 16 16 4096 mem sm init = Except.ok q ∧ q.rblength = 128) ∧
    (Producer.produceAll w p vs).1 = List.replicate (p.max - 1) (Except.ok true) ∧
    (Producer.current w (Producer.produceAll w p vs).2).1 = none ∧
    (Producer.produce w (Producer.produceAll w p vs).2 v1).1 = Except.ok false ∧
    (Producer.produce w
      (Consumer.next (Producer.produce w (Producer.produceAll w p vs).2 v1).2) v2).1 =
        Except.ok true ∧
    (Producer.produce w (Producer.produce w
      (Consumer.next (Producer.produce w (Producer.produceAll w p vs).2 v1).2) v2).2 v3).1 =
        Except.ok false := by
  have hpos : 0 < 2 ^ k := two_pow_pos_nat k
  have h2 : 2 ≤ 2 ^ k := by
    calc 2 = 2 ^ 1 := rfl
      _ ≤ 2 ^ k := Nat.pow_le_pow_right (by decide) hk1
  have hfill := Producer.produceAll_fill w k hk vs p hN hr0 (by omega)
  obtain ⟨hres, hmax, hr, hwp⟩ := hfill
  generalize Producer.produceAll w p vs = r at hres hmax hr hwp ⊢
  have hwlast : r.2.ifc.wpos = 2 ^ k - 1 := by omega
  have hwlt : r.2.ifc.wpos < r.2.max := by omega
  have hfull : (r.2.ifc.wpos + 1) % r.2.max = r.2.ifc.rpos := by
    rw [hwlast, hmax, hr, Nat.sub_add_cancel (by omega), Nat.mod_self]
  have hcur := Producer.current_eq w k r.2 hk hmax hwlt
  rw [if_pos hfull] at hcur
  have hp1 := Producer.produce_eq w k r.2 v1 hk hmax hwlt
  rw [if_pos hfull] at hp1
  have hone : (0 + 1) % 2 ^ k = 1 := Nat.mod_eq_of_lt (by omega)
  have hwrap : (2 ^ k - 1 + 1) % 2 ^ k = 0 := by
    rw [Nat.sub_add_cancel (by omega), Nat.mod_self]
  have hp2 := Producer.produce_eq w k (Consumer.next r.2) v2 hk hmax hwlt
  have hfree2 : ((Consumer.next r.2).ifc.wpos + 1) % (Consumer.next r.2).max ≠
      (Consumer.next r.2).ifc.rpos := by
    show (r.2.ifc.wpos + 1) % r.2.max ≠ (r.2.ifc.rpos + 1) % r.2.max
    rw [hwlast, hmax, hr, hone, hwrap]
    decide
  rw [if_neg hfree2] at hp2
  have hp3 := Producer.produce_eq w k (Producer.produce w (Consumer.next r.2) v2).2 v3 hk
    (by rw [hp2]; exact hmax)
    (by rw [hp2]; show (r.2.ifc.wpos + 1) % r.2.max < r.2.max
        rw [hwlast, hmax, hwrap]; exact hpos)
  have hfull3 : ((Producer.produce w (Consumer.next r.2) v2).2.ifc.wpos + 1) %
      (Producer.produce w (Consumer.next r.2) v2).2.max =
      (Producer.produce w (Consumer.next r.2) v2).2.ifc.rpos := by
    rw [hp2]
    show ((r.2.ifc.wpos + 1) % r.2.max + 1) % r.2.max = (r.2.ifc.rpos + 1) % r.2.max
    rw [hwlast, hmax, hr, hwrap, hone]
  rw [if_pos hfull3] at hp3
  refine ⟨⟨_, rfl, ?_⟩, ?_, ?_, ?_, ?_, ?_⟩
  · have h4096 : (4096 : Nat) < 2 ^ w :=
      calc (4096 : Nat) = 2 ^ 12 := by decide
        _ < 2 ^ w := Nat.pow_lt_pow_right (by decide) hw12
    show prev_pow2 (wsub w 4096 16 / 16) = 128
    rw [wsub_of_le (by decide) h4096]
    decide
  · rw [hres, hlen]
  · rw [hcur]
  · rw [hp1]
  · rw [hp1, hp2]
  · rw [hp1, hp3]

theorem Producer.fill_drain_witness :
    ((12 < 64 ∧ 1 ≤ 1 ∧ 1 < 64 ∧ ringTwo.max = 2 ^ 1 ∧ ringTwo.ifc.rpos = 0 ∧
      ringTwo.ifc.wpos = 0 ∧ [5].length = ringTwo.max - 1)) ∧
    (∃ q, Producer.new 64 16 16 4096 ringTwo.ifc ringTwo.sm true = Except.ok q ∧
      q.rblength = 128) ∧
    (Producer.produceAll 64 ringTwo [5]).1 =
      List.replicate (ringTwo.max - 1) (Except.ok true) ∧
    (Producer.current 64 (Producer.produceAll 64 ringTwo [5]).2).1 = none ∧
    (Producer.produce 64 (Producer.produceAll 64 ringTwo [5]).2 6).1 = Except.ok false ∧
    (Producer.produce 64
      (Consumer.next (Producer.produce 64 (Producer.produceAll 64 ringTwo [5]).2 6).2) 7).1 =
        Except.ok true ∧
    (Producer.produce 64 (Producer.produce 64
      (Consumer.next (Producer.produce 64 (Producer.produceAll 64 ringTwo [5]).2 6).2) 7).2
        8).1 = Except.ok false :=
  ⟨⟨by decide, by decide, by decide, by decide, by decide, by decide, by decide⟩,
    Producer.fill_drain 64 1 ringTwo [5] 6 7 8 ringTwo.ifc ringTwo.sm true
      (by decide) (by decide) (by decide) (by decide) (by decide) (by decide) (by decide)⟩

/-! ## C8: a dataspace that is too small -/

/-- The loop skips occupied slots and stops at the first empty one. -/
theorem Service.new_session_loop_found (w cpus : Nat) (create : Nat → Except ErrorCode S)
    (s : Service S) : ∀ (fuel i j : Nat), i ≤ j → j < i + fuel →
    s.sessions[j]? = some none → (∀ m, i ≤ m → m < j → s.sessions[m]? ≠ some none) →
    Service.new_session_loop w cpus create s fuel i =
      match create (wadd w s.caps (wmul w j cpus)) with
      | Except.ok sess =>
        (Except.ok sess, { s with sessions := s.sessions.set j (some sess) })
      | Except.error e => (Except.error e, s) := by
  intro fuel
  induction fuel with
  | zero => intro i j hij hlt; omega
  | succ n ih =>
    intro i j hij hlt hj hbefore
    unfold Service.new_session_loop
    by_cases heq : i = j
    · subst heq
      rw [hj]
    · have hocc := hbefore i (Nat.le_refl i) (by omega)
      have hrest := ih (i + 1) j (by omega) (by omega) hj
        (fun m hm hmj => hbefore m (by omega) hmj)
      cases hx : s.sessions[i]? with
      | none => simpa using hrest
      | some o =>
        cases o with
        | none => exact absurd hx hocc
        | some sess => simpa using hrest

/-- Without an empty slot the loop runs to its end and raises `E_CAPACITY`. -/
theorem Service.new_session_loop_full (w cpus : Nat) (create : Nat → Except ErrorCode S)
    (s : Service S) : ∀ (fuel i : Nat),
    (∀ m, i ≤ m → m < i + fuel → s.sessions[m]? ≠ some none) →
    Service.new_session_loop w cpus create s fuel i =
      (Except.error ErrorCode.E_CAPACITY, s) := by
  intro fuel
  induction fuel with
  | zero => intro i _; rfl
  | succ n ih =>
    intro i hocc
    unfold Service.new_session_loop
    have hi := hocc i (Nat.le_refl i) (by omega)
    have hrest := ih (i + 1) (fun m hm hlt => hocc m (by omega) (by omega))
    cases hx : s.sessions[i]? with
    | none => simpa using hrest
    | some o =>
      cases o with
      | none => exact absurd hx hi
      | some sess => simpa using hrest

theorem Service.new_session_found (w cpus : Nat) (create : Nat → Except ErrorCode S)
    (s : Service S) (i : Nat) (sess : S) (hi : i < MAX_SESSIONS)
    (hempty : s.sessions[i]? = some none)
    (hbefore : ∀ j, j < i → s.sessions[j]? ≠ some none)
    (hcreate : create (wadd w s.caps (wmul w i cpus)) = Except.ok sess) :
    Service.new_session w cpus create s =
      (Except.ok sess, { s with sessions := s.sessions.set i (some sess) }) := by
  unfold Service.new_session
  rw [Service.new_session_loop_found w cpus create s MAX_SESSIONS 0 i (Nat.zero_le i)
    (by omega) hempty (fun m _ hm => hbefore m hm), hcreate]

theorem Service.new_session_full (w cpus : Nat) (create : Nat → Except ErrorCode S)
    (s : Service S) (hfull : ∀ i, i < MAX_SESSIONS → s.sessions[i]? ≠ some none) :
    Service.new_session w cpus create s = (Except.error ErrorCode.E_CAPACITY, s) :=
  Service.new_session_loop_full w cpus create s MAX_SESSIONS 0
    (fun m _ hm => hfull m (by omega))

/-- A table with an empty slot has a lowest empty slot. -/
theorem Service.lowest_empty (s : Service S) (i : Nat) (hempty : s.sessions[i]? = some none) :
    ∃ j, j ≤ i ∧ s.sessions[j]? = some none ∧ ∀ m, m < j → s.sessions[m]? ≠ some none := by
  classical
  have hex : ∃ j, s.sessions[j]? = some none := ⟨i, hempty⟩
  refine ⟨Nat.find hex, Nat.find_min' hex hempty, Nat.find_spec hex, ?_⟩
  intro m hm
  exact Nat.find_min hex hm

/-- From a table whose slots below `m` are occupied and whose slots from `m` on are
empty, `n` opens in a row succeed and occupy the slots `m`, ..., `m + n - 1`. -/
theorem Service.open_n_fill (w cpus : Nat) (create : Nat → Except ErrorCode S)
    (hcreate : ∀ pts, ∃ sess, create pts = Except.ok sess) :
    ∀ (n m : Nat) (s : Service S), m + n ≤ MAX_SESSIONS →
    (∀ j, j < m → s.sessions[j]? ≠ some none) →
    (∀ j, m ≤ j → j < MAX_SESSIONS → s.sessions[j]? = some none) →
    (Service.open_n w cpus create n s).1.length = n ∧
    (∀ r ∈ (Service.open_n w cpus create n s).1, ∃ sess, r = Except.ok sess) ∧
    (∀ j, j < m + n → (Service.open_n w cpus create n s).2.sessions[j]? ≠ some none) ∧
    (∀ j, m + n ≤ j → j < MAX_SESSIONS →
      (Service.open_n w cpus create n s).2.sessions[j]? = some none) ∧
    (Service.open_n w cpus create n s).2.sessions.length = s.sessions.length ∧
    (Service.open_n w cpus create n s).2.caps = s.caps := by
  intro n
  induction n with
  | zero =>
    intro m s _ hocc hfree
    refine ⟨rfl, ?_, hocc, hfree, rfl, rfl⟩
    intro r hr
    simp [Service.open_n] at hr
  | succ n ih =>
    intro m s hmn hocc hfree
    obtain ⟨sess, hsess⟩ := hcreate (wadd w s.caps (wmul w m cpus))
    have hnew := Service.new_session_found w cpus create s m sess (by omega)
      (hfree m (Nat.le_refl m) (by omega)) hocc hsess
    have hlt : m < s.sessions.length := by
      have h := hfree m (Nat.le_refl m) (by omega)
      by_contra hge
      rw [List.getElem?_eq_none (by omega)] at h
      exact Option.noConfusion h
    have hrest := ih (m + 1) (Service.new_session w cpus create s).2 (by omega)
      (by
        intro j hj
        rw [hnew]
        show (s.sessions.set m (some sess))[j]? ≠ some none
        by_cases hjm : j = m
        · subst hjm
          rw [List.getElem?_set_self hlt]
          simp
        · rw [List.getElem?_set_ne (Ne.symm hjm)]
          exact hocc j (by omega))
      (by
        intro j hj hjmax
        rw [hnew]
        show (s.sessions.set m (some sess))[j]? = some none
        rw [List.getElem?_set_ne (by omega)]
        exact hfree j (by omega) hjmax)
    simp only [Service.open_n]
    refine ⟨by simp [hrest.1], ?_, ?_, ?_, ?_, ?_⟩
    · intro r hr
      rcases List.mem_cons.mp hr with h | h
      · exact ⟨sess, by rw [h, hnew]⟩
      · exact hrest.2.1 r h
    · intro j hj
      exact hrest.2.2.1 j (by omega)
    · intro j hj hjmax
      exact hrest.2.2.2.1 j (by omega) hjmax
    · rw [hrest.2.2.2.2.1, hnew]
      exact List.length_set _ _ _
    · rw [hrest.2.2.2.2.2, hnew]

/-! ## C9: opening sessions -/

/-- C9: `new_session` stores the new session in the lowest-indexed empty slot and
leaves the other slots alone; with every slot occupied it raises `E_CAPACITY` and
leaves the table as it is, and (the hook `create_session` not raising) that is the
only case in which it raises `E_CAPACITY`. From an empty table `MAX_SESSIONS` opens in
a row succeed and the next one fails; once a slot of the full table is vacated, the
next open succeeds and stores its session in that slot. -/
theorem Service.new_session_contract (w cpus : Nat) (create : Nat → Except ErrorCode S)
    (s : Service S) (hlen : s.sessions.length = MAX_SESSIONS) :
    (∀ i sess, i < MAX_SESSIONS → s.sessions[i]? = some none →
      (∀ j, j < i → s.sessions[j]? ≠ some none) →
      create (wadd w s.caps (wmul w i cpus)) = Except.ok sess →
      Service.new_session w cpus create s =
        (Except.ok sess, { s with sessions := s.sessions.set i (some sess) }) ∧
      (∀ j, j ≠ i →
        (Service.new_session w cpus create s).2.sessions[j]? = s.sessions[j]?)) ∧
    ((∀ i, i < MAX_SESSIONS → s.sessions[i]? ≠ some none) →
      Service.new_session w cpus create s = (Except.error ErrorCode.E_CAPACITY, s)) ∧
    ((∀ pts, ∃ sess, create pts = Except.ok sess) →
      ((Service.new_session w cpus create s).1 = Except.error ErrorCode.E_CAPACITY ↔
        ∀ i, i < MAX_SESSIONS → s.sessions[i]? ≠ some none)) ∧
    ((∀ pts, ∃ sess, create pts = Except.ok sess) →
      s.sessions = List.replicate MAX_SESSIONS none →
      (Service.open_n w cpus create MAX_SESSIONS s).1.length = MAX_SESSIONS ∧
      (∀ r ∈ (Service.open_n w cpus create MAX_SESSIONS s).1, ∃ sess, r = Except.ok sess) ∧
      Service.new_session w cpus create (Service.open_n w cpus create MAX_SESSIONS s).2 =
        (Except.error ErrorCode.E_CAPACITY,
          (Service.open_n w cpus create MAX_SESSIONS s).2) ∧
      (∀ j, j < MAX_SESSIONS → ∃ sess,
        Service.new_session w cpus create
          (Service.vacate (Service.open_n w cpus create MAX_SESSIONS s).2 j) =
        (Except.ok sess,
          { Service.vacate (Service.open_n w cpus create MAX_SESSIONS s).2 j with
            sessions := (Service.vacate
              (Service.open_n w cpus create MAX_SESSIONS s).2 j).sessions.set j
                (some sess) }))) := by
  refine ⟨?_, Service.new_session_full w cpus create s, ?_, ?_⟩
  · intro i sess hi hempty hbefore hcreate
    have hnew := Service.new_session_found w cpus create s i sess hi hempty hbefore hcreate
    refine ⟨hnew, ?_⟩
    intro j hj
    rw [hnew]
    exact List.getElem?_set_ne (Ne.symm hj)
  · intro hcreate
    constructor
    · intro herr i hi hempty
      obtain ⟨j, hji, hj, hbefore⟩ := Service.lowest_empty s i hempty
      obtain ⟨sess, hsess⟩ := hcreate (wadd w s.caps (wmul w j cpus))
      rw [Service.new_session_found w cpus create s j sess (by omega) hj hbefore hsess]
        at herr
      exact Except.noConfusion herr
    · intro hfull
      rw [Service.new_session_full w cpus create s hfull]
  · intro hcreate hnil
    have hfill := Service.open_n_fill w cpus create hcreate MAX_SESSIONS 0 s (by omega)
      (fun j hj => absurd hj (Nat.not_lt_zero j))
      (fun j _ hj => by rw [hnil]; exact List.getElem?_replicate_of_lt hj)
    obtain ⟨hcount, hok, hocc, _, hlen2, _⟩ := hfill
    rw [Nat.zero_add] at hocc
    generalize Service.open_n w cpus create MAX_SESSIONS s = r at hcount hok hocc hlen2 ⊢
    refine ⟨hcount, hok, Service.new_session_full w cpus create _ hocc, ?_⟩
    intro j hj
    obtain ⟨sess, hsess⟩ := hcreate (wadd w (Service.vacate r.2 j).caps (wmul w j cpus))
    refine ⟨sess, Service.new_session_found w cpus create _ j sess hj ?_ ?_ hsess⟩
    · show (r.2.sessions.set j none)[j]? = some none
      exact List.getElem?_set_self (by rw [hlen2, hlen]; exact hj)
    · intro m hm
      show (r.2.sessions.set j none)[m]? ≠ some none
      rw [List.getElem?_set_ne (by omega)]
      exact hocc m (by omega)

theorem Service.new_session_contract_witness :
    serviceThree.sessions.length = MAX_SESSIONS ∧
    Service.new_session 64 4 createByBase serviceThree =
      (Except.ok 76, { serviceThree with sessions := serviceThree.sessions.set 3 (some 76) }) ∧
    (Service.new_session 64 4 createByBase
      (Service.open_n 64 4 createByBase MAX_SESSIONS serviceEmpty).2).1 =
        Except.error ErrorCode.E_CAPACITY :=
  have h3 := Service.new_session_contract 64 4 createByBase serviceThree (by decide)
  have h0 := Service.new_session_contract 64 4 createByBase serviceEmpty (by decide)
  ⟨by decide,
    (h3.1 3 76 (by decide) (by decide) (by decide) rfl).1,
    by rw [(h0.2.2.2 (fun pts => ⟨pts, rfl⟩) rfl).2.2.1]⟩

/-! ## C10: looking a session up by its portal selector -/

/-- C10: for every occupied slot `i < MAX_SESSIONS` and every CPU index `c < CPUs`,
`get_session(caps_base + i * CPUs + c)` returns the session stored in slot `i`, and so
it does for the slot `new_session` has just filled with a session created for the
selector base `caps_base + i * CPUs`; when the addressed slot is empty `get_session`
raises `E_ARGS_INVALID`; it never returns a null session. -/
theorem Service.get_session_contract (w cpus : Nat) (s : Service S)
    (hlen : s.sessions.length = MAX_SESSIONS) (hcpus : 0 < cpus)
    (hrange : s.caps + MAX_SESSIONS * cpus ≤ 2 ^ w) :
    (∀ i c sess, i < MAX_SESSIONS → c < cpus → s.sessions[i]? = some (some sess) →
      Service.get_session w cpus s (s.caps + i * cpus + c) = some (Except.ok (some sess))) ∧
    (∀ (create : Nat → Except ErrorCode S) i c sess, i < MAX_SESSIONS → c < cpus →
      s.sessions[i]? = some none → (∀ j, j < i → s.sessions[j]? ≠ some none) →
      create (s.caps + i * cpus) = Except.ok sess →
      (Service.new_session w cpus create s).1 = Except.ok sess ∧
      Service.get_session w cpus (Service.new_session w cpus create s).2
        (s.caps + i * cpus + c) = some (Except.ok (some sess))) ∧
    (∀ pid, s.sessions[wsub w pid s.caps / cpus]? = some none →
      Service.get_session w cpus s pid = some (Except.error ErrorCode.E_ARGS_INVALID)) ∧
    (∀ pid, Service.get_session w cpus s pid ≠ some (Except.ok none)) := by
  have hidx : ∀ i c, i < MAX_SESSIONS → c < cpus →
      wsub w (s.caps + i * cpus + c) s.caps / cpus = i := by
    intro i c hi hc
    have hmul : (i + 1) * cpus ≤ MAX_SESSIONS * cpus := Nat.mul_le_mul_right _ (by omega)
    rw [Nat.add_mul] at hmul
    rw [wsub_of_le (by omega) (by omega)]
    have hsub : s.caps + i * cpus + c - s.caps = cpus * i + c := by
      rw [Nat.mul_comm cpus i]; omega
    rw [hsub, Nat.mul_add_div hcpus, Nat.div_eq_of_lt hc, Nat.add_zero]
  have hbase : ∀ i, i < MAX_SESSIONS → wadd w s.caps (wmul w i cpus) = s.caps + i * cpus := by
    intro i hi
    have hmul : (i + 1) * cpus ≤ MAX_SESSIONS * cpus := Nat.mul_le_mul_right _ (by omega)
    rw [Nat.add_mul] at hmul
    rw [wmul_of_lt (by omega), wadd_of_lt (by omega)]
  refine ⟨?_, ?_, ?_, ?_⟩
  · intro i c sess hi hc hslot
    unfold Service.get_session
    rw [hidx i c hi hc, hslot]
    rfl
  · intro create i c sess hi hc hempty hbefore hcreate
    have hnew := Service.new_session_found w cpus create s i sess hi hempty hbefore
      (by rw [hbase i hi]; exact hcreate)
    rw [hnew]
    refine ⟨rfl, ?_⟩
    unfold Service.get_session
    show (match (s.sessions.set i (some sess))[wsub w (s.caps + i * cpus + c) s.caps / cpus]?
      with
      | none => none
      | some sess =>
        if sess.isNone then some (Except.error ErrorCode.E_ARGS_INVALID)
        else some (Except.ok sess)) = _
    rw [hidx i c hi hc, List.getElem?_set_self (by rw [hlen]; exact hi)]
    rfl
  · intro pid hslot
    unfold Service.get_session
    rw [hslot]
    rfl
  · intro pid
    unfold Service.get_session
    cases hx : s.sessions[wsub w pid s.caps / cpus]? with
    | none => simp
    | some o =>
      cases o with
      | none => simp
      | some sess => simp

theorem Service.get_session_contract_witness :
    (serviceThree.sessions.length = MAX_SESSIONS ∧ 0 < 4 ∧
      serviceThree.caps + MAX_SESSIONS * 4 ≤ 2 ^ 64) ∧
    Service.get_session 64 4 serviceThree (serviceThree.caps + 2 * 4 + 3) =
      some (Except.ok (some 102)) ∧
    Service.get_session 64 4 serviceThree 77 = some (Except.error ErrorCode.E_ARGS_INVALID) ∧
    Service.get_session 64 4 serviceThree 77 ≠ some (Except.ok none) :=
  have h := Service.get_session_contract 64 4 serviceThree (by decide) (by decide)
    (by decide)
  ⟨⟨by decide, by decide, by decide⟩,
    h.1 2 3 102 (by decide) (by decide) (by decide),
    h.2.2.1 77 (by decide),
    h.2.2.2 77⟩

/-! ## C11: the session selector block -/

theorem Service.portal_base_eq (w cpus : Nat) (s : Service S) (i : Nat)
    (hi : i < MAX_SESSIONS) (hrange : s.caps + MAX_SESSIONS * cpus ≤ 2 ^ w) (hcpus : 0 < cpus) :
    Service.portal_base w cpus s i = s.caps + i * cpus := by
  have hmul : (i + 1) * cpus ≤ MAX_SESSIONS * cpus := Nat.mul_le_mul_right _ (by omega)
  rw [Nat.add_mul] at hmul
  unfold Service.portal_base
  rw [wmul_of_lt (by omega), wadd_of_lt (by omega)]

theorem Service.caps_request_count (w cpus : Nat) (hcount : MAX_SESSIONS * cpus < 2 ^ w) :
    (Service.caps_request w cpus).count = MAX_SESSIONS * cpus :=
  wmul_of_lt hcount

theorem Service.slot_of_eq (w cpus : Nat) (s : Service S) (i c : Nat)
    (hi : i < MAX_SESSIONS) (hc : c < cpus) (hrange : s.caps + MAX_SESSIONS * cpus ≤ 2 ^ w) :
    Service.slot_of w cpus s (s.caps + i * cpus + c) = i := by
  have hcpus : 0 < cpus := by omega
  have hmul : (i + 1) * cpus ≤ MAX_SESSIONS * cpus := Nat.mul_le_mul_right _ (by omega)
  rw [Nat.add_mul] at hmul
  unfold Service.slot_of
  rw [wsub_of_le (by omega) (by omega)]
  have hsub : s.caps + i * cpus + c - s.caps = cpus * i + c := by
    rw [Nat.mul_comm cpus i]; omega
  rw [hsub, Nat.mul_add_div hcpus, Nat.div_eq_of_lt hc, Nat.add_zero]

/-- C11: the selector range `[caps + i * CPUs, caps + (i + 1) * CPUs)` that
`new_session` hands to the session of slot `i < MAX_SESSIONS` lies inside the block of
`MAX_SESSIONS * CPUs` selectors the constructor reserved at `caps`, the ranges of two
distinct slots are disjoint, and every selector of the block is mapped by
`(sel - caps) / CPUs` to a slot below `MAX_SESSIONS`, so `get_session` reads inside
the session table. -/
theorem Service.session_ranges (w cpus : Nat) (s : Service S) (hcpus : 0 < cpus)
    (hlen : s.sessions.length = MAX_SESSIONS)
    (hcount : MAX_SESSIONS * cpus < 2 ^ w)
    (hrange : s.caps + MAX_SESSIONS * cpus ≤ 2 ^ w) :
    (Service.caps_request w cpus).count = MAX_SESSIONS * cpus ∧
    (∀ i, i < MAX_SESSIONS →
      Service.portal_base w cpus s i = s.caps + i * cpus ∧
      s.caps ≤ Service.portal_base w cpus s i ∧
      Service.portal_base w cpus s i + cpus ≤
        s.caps + (Service.caps_request w cpus).count) ∧
    (∀ i j, i < MAX_SESSIONS → j < MAX_SESSIONS → i ≠ j →
      Service.portal_base w cpus s i + cpus ≤ Service.portal_base w cpus s j ∨
      Service.portal_base w cpus s j + cpus ≤ Service.portal_base w cpus s i) ∧
    (∀ sel, s.caps ≤ sel → sel < s.caps + (Service.caps_request w cpus).count →
      Service.slot_of w cpus s sel < MAX_SESSIONS ∧
      sel - Service.portal_base w cpus s (Service.slot_of w cpus s sel) < cpus ∧
      Service.portal_base w cpus s (Service.slot_of w cpus s sel) ≤ sel ∧
      Service.get_session w cpus s sel ≠ none) := by
  have hcnt := Service.caps_request_count w cpus hcount
  have hbase : ∀ i, i < MAX_SESSIONS → Service.portal_base w cpus s i = s.caps + i * cpus :=
    fun i hi => Service.portal_base_eq w cpus s i hi hrange hcpus
  have hstep : ∀ i, i < MAX_SESSIONS → s.caps + i * cpus + cpus ≤ s.caps + MAX_SESSIONS * cpus := by
    intro i hi
    have hmul : (i + 1) * cpus ≤ MAX_SESSIONS * cpus := Nat.mul_le_mul_right _ (by omega)
    rw [Nat.add_mul] at hmul
    omega
  refine ⟨hcnt, ?_, ?_, ?_⟩
  · intro i hi
    rw [hbase i hi, hcnt]
    exact ⟨rfl, by omega, hstep i hi⟩
  · intro i j hi hj hij
    rw [hbase i hi, hbase j hj]
    rcases Nat.lt_or_gt_of_ne hij with hlt | hgt
    · left
      have hmul : (i + 1) * cpus ≤ j * cpus := Nat.mul_le_mul_right _ (by omega)
      rw [Nat.add_mul] at hmul
      omega
    · right
      have hmul : (j + 1) * cpus ≤ i * cpus := Nat.mul_le_mul_right _ (by omega)
      rw [Nat.add_mul] at hmul
      omega
  · intro sel hlo hhi
    rw [hcnt] at hhi
    have hslot : Service.slot_of w cpus s sel = (sel - s.caps) / cpus := by
      unfold Service.slot_of
      rw [wsub_of_le hlo (by omega)]
    have hlt : (sel - s.caps) / cpus < MAX_SESSIONS :=
      (Nat.div_lt_iff_lt_mul hcpus).mpr (by omega)
    have hdm := Nat.div_add_mod (sel - s.caps) cpus
    have hmod := Nat.mod_lt (sel - s.caps) hcpus
    rw [Nat.mul_comm] at hdm
    rw [hslot, hbase _ hlt]
    refine ⟨hlt, by omega, by omega, ?_⟩
    unfold Service.get_session
    have hin : wsub w sel s.caps / cpus < s.sessions.length := by
      rw [hlen]
      rw [← hslot] at hlt
      exact hlt
    rw [List.getElem?_eq_getElem hin]
    simp only
    split <;> simp

theorem Service.session_ranges_witness :
    (0 < 4 ∧ serviceThree.sessions.length = MAX_SESSIONS ∧ MAX_SESSIONS * 4 < 2 ^ 64 ∧
      serviceThree.caps + MAX_SESSIONS * 4 ≤ 2 ^ 64) ∧
    (Service.caps_request 64 4).count = MAX_SESSIONS * 4 ∧
    Service.portal_base 64 4 serviceThree 31 + 4 ≤
      serviceThree.caps + (Service.caps_request 64 4).count ∧
    Service.slot_of 64 4 serviceThree 191 < MAX_SESSIONS :=
  have h := Service.session_ranges 64 4 serviceThree (by decide) (by decide) (by decide)
    (by decide)
  ⟨⟨by decide, by decide, by decide, by decide⟩, h.1, (h.2.1 31 (by decide)).2.2,
    (h.2.2.2 191 (by decide) (by decide)).1⟩

/-! ## C12: the registration selector range -/

theorem nextpow2_loop_pow2 : ∀ (fuel j k : Nat), j ≤ k → k - j ≤ fuel →
    nextpow2_loop fuel (2 ^ j) (2 ^ k) = 2 ^ k := by
  intro fuel
  induction fuel with
  | zero =>
    intro j k hjk hfuel
    have hj : j = k := by omega
    simp [nextpow2_loop, hj]
  | succ n ih =>
    intro j k hjk hfuel
    unfold nextpow2_loop
    by_cases hle : 2 ^ k ≤ 2 ^ j
    · rw [if_pos hle]
      have hkj : k ≤ j := (Nat.pow_le_pow_iff_right (by decide)).mp hle
      have hj : j = k := by omega
      rw [hj]
    · rw [if_neg hle]
      have hlt : j < k := by
        by_contra hge
        have hj : j = k := by omega
        exact hle (by rw [hj])
      have hpow : 2 * 2 ^ j = 2 ^ (j + 1) := by rw [Nat.pow_succ]; omega
      rw [hpow]
      exact ih (j + 1) k (by omega) (by omega)

/-- The model of `nextpow2` leaves a power of two as it is. -/
theorem nextpow2_pow2 (k : Nat) : nextpow2 (2 ^ k) = 2 ^ k := by
  unfold nextpow2
  have h := nextpow2_loop_pow2 (2 ^ k) 0 k (Nat.zero_le k)
    (by have := Nat.lt_two_pow k; omega)
  simpa using h

theorem nextpow2_loop_spec : ∀ (fuel p x j : Nat), p = 2 ^ j → p < 2 * x →
    x ≤ p * 2 ^ fuel →
    IsPow2 (nextpow2_loop fuel p x) ∧ x ≤ nextpow2_loop fuel p x ∧
      nextpow2_loop fuel p x < 2 * x := by
  intro fuel
  induction fuel with
  | zero =>
    intro p x j hp hlt hle
    simp only [nextpow2_loop]
    exact ⟨⟨j, hp⟩, by simpa using hle, hlt⟩
  | succ n ih =>
    intro p x j hp hlt hle
    unfold nextpow2_loop
    by_cases hxp : x ≤ p
    · rw [if_pos hxp]
      exact ⟨⟨j, hp⟩, hxp, hlt⟩
    · rw [if_neg hxp]
      refine ih (2 * p) x (j + 1) ?_ (by omega) ?_
      · rw [hp, Nat.pow_succ]; omega
      · have hpow : 2 ^ (n + 1) = 2 * 2 ^ n := by rw [Nat.pow_succ]; omega
        rw [hpow] at hle
        calc x ≤ p * (2 * 2 ^ n) := hle
          _ = 2 * p * 2 ^ n := by ring

/-- The model of `nextpow2` is the next power of two that is at least `x`. -/
theorem nextpow2_spec (x : Nat) (hx : 1 ≤ x) :
    IsPow2 (nextpow2 x) ∧ x ≤ nextpow2 x ∧ nextpow2 x < 2 * x := by
  unfold nextpow2
  refine nextpow2_loop_spec x 1 x 0 rfl (by omega) ?_
  have h := Nat.lt_two_pow x
  omega

/-- For a CPU count that is a power of two the constructor's request of `CPUs`
registration selectors has the size `nextpow2(CPUs)`, and the range that `reg()`
delegates lies inside it. -/
theorem Service.regcaps_pow2 (cpus : Nat) (s : Service S) (hpow : IsPow2 cpus) :
    (Service.regcaps_request cpus).count = nextpow2 cpus ∧
    (Service.regcaps_request cpus).align = nextpow2 cpus ∧
    (Service.reg_range cpus s).1 = s.regcaps ∧
    (Service.reg_range cpus s).1 + (Service.reg_range cpus s).2 ≤
      s.regcaps + (Service.regcaps_request cpus).count := by
  obtain ⟨k, rfl⟩ := hpow
  have h := nextpow2_pow2 k
  refine ⟨h.symm, h.symm, rfl, ?_⟩
  show s.regcaps + nextpow2 (2 ^ k) ≤ s.regcaps + 2 ^ k
  rw [h]

/-- C12: for `Hip::MAX_CPUS = 3` the constructor requests three registration
selectors, not the next power of two, which is four; `reg()` delegates
`nextpow2(3) = 4` selectors from the registration base, so the delegated range ends
one selector beyond the reserved range. -/
theorem Service.reg_beyond_reserved :
    1 ≤ 3 ∧
    (Service.regcaps_request 3).count = 3 ∧
    nextpow2 3 = 4 ∧
    ¬ ((Service.regcaps_request 3).count = nextpow2 3) ∧
    (Service.reg_range 3 serviceThree).1 = serviceThree.regcaps ∧
    (Service.reg_range 3 serviceThree).1 + (Service.reg_range 3 serviceThree).2 =
      serviceThree.regcaps + (Service.regcaps_request 3).count + 1 ∧
    ¬ ((Service.reg_range 3 serviceThree).1 + (Service.reg_range 3 serviceThree).2 ≤
      serviceThree.regcaps + (Service.regcaps_request 3).count) := by
  decide

/-! ## C13, C14: iterating over the sessions -/

/-- The loop of `operator++` never moves an iterator past `MAX_SESSIONS - 1`. -/
theorem SessionIterator.inc_loop_le (s : Service S) : ∀ (fuel pos : Nat),
    pos ≤ MAX_SESSIONS - 1 → SessionIterator.inc_loop s fuel pos ≤ MAX_SESSIONS - 1 := by
  intro fuel
  induction fuel with
  | zero => intro pos hpos; exact hpos
  | succ n ih =>
    intro pos hpos
    unfold SessionIterator.inc_loop
    by_cases hlt : pos < MAX_SESSIONS - 1
    · rw [if_pos hlt]
      have hnext : pos + 1 ≤ MAX_SESSIONS - 1 := by omega
      cases hx : s.sessions[pos + 1]? with
      | none => exact ih (pos + 1) hnext
      | some o =>
        cases o with
        | none => exact ih (pos + 1) hnext
        | some sess => exact hnext
    · rw [if_neg hlt]
      exact hpos

theorem SessionIterator.iterate_inc_le (s : Service S) (n : Nat) :
    (Nat.iterate (SessionIterator.inc s) n Service.sessions_begin).pos ≤ MAX_SESSIONS - 1 := by
  induction n with
  | zero => exact Nat.zero_le _
  | succ n ih =>
    rw [Function.iterate_succ_apply']
    exact SessionIterator.inc_loop_le s MAX_SESSIONS _ ih

/-- C13, on the code: in a table whose slot 0 is empty and whose slot 1 is occupied,
the loop starts by dereferencing the null pointer of slot 0, then visits slot 1, and
from then on stays at the empty last slot, which it dereferences in every further
round, without leaving the loop. -/
theorem Service.for_each_gap :
    SessionIterator.deref serviceGap Service.sessions_begin = some none ∧
    (Service.for_each serviceGap 5 Service.sessions_begin).1 =
      [(0, some none), (1, some (some 101)), (31, some none), (31, some none),
        (31, some none)] ∧
    (Service.for_each serviceGap 5 Service.sessions_begin).2 = false := by
  decide

/-- C14, on the code: whatever the session table holds, no number of `operator++`
steps takes `sessions_begin()` to an iterator equal to `sessions_end()`: the position
never exceeds `MAX_SESSIONS - 1`, so the loop
`for(it = sessions_begin(); it != sessions_end(); ++it)` does not leave. -/
theorem SessionIterator.never_reaches_end (s : Service S) (n : Nat) :
    SessionIterator.ne (Nat.iterate (SessionIterator.inc s) n Service.sessions_begin)
      Service.sessions_end = true ∧
    (Service.for_each s n Service.sessions_begin).1.length = n ∧
    (Service.for_each s n Service.sessions_begin).2 = false := by
  have hne : ∀ it : SessionIterator, it.pos ≤ MAX_SESSIONS - 1 →
      SessionIterator.ne it Service.sessions_end = true := by
    intro it hit
    have hpos : it.pos ≠ MAX_SESSIONS := by
      intro h
      rw [h] at hit
      exact absurd hit (by decide)
    simpa [SessionIterator.ne, Service.sessions_end] using hpos
  refine ⟨hne _ (SessionIterator.iterate_inc_le s n), ?_⟩
  have hrun : ∀ (fuel : Nat) (it : SessionIterator), it.pos ≤ MAX_SESSIONS - 1 →
      (Service.for_each s fuel it).1.length = fuel ∧ (Service.for_each s fuel it).2 = false := by
    intro fuel
    induction fuel with
    | zero =>
      intro it hit
      simp [Service.for_each, hne it hit]
    | succ m ih =>
      intro it hit
      have hstep := ih (SessionIterator.inc s it)
        (SessionIterator.inc_loop_le s MAX_SESSIONS it.pos hit)
      simp only [Service.for_each, hne it hit, if_true, List.length_cons]
      exact ⟨by rw [hstep.1], hstep.2⟩
  exact hrun n _ (Nat.zero_le _)

/-! ## C15, C16: the replies of the portal handlers -/

theorem Handler.avoids_pure {α : Type} (c : FrameCall) (a : α) :
    Handler.Avoids c (Pure.pure a : Handler α) := fun _ h => h

theorem Handler.avoids_outcome {α : Type} (c : FrameCall) (r : Except ErrorCode α) :
    Handler.Avoids c (Handler.outcome r) := fun _ h => h

theorem Handler.avoids_frame (c d : FrameCall) (hne : d ≠ c) :
    Handler.Avoids c (Handler.frame d) := by
  intro log h
  simp only [Handler.frame, List.mem_append, List.mem_singleton, not_or]
  exact ⟨h, fun heq => hne heq.symm⟩

theorem Handler.avoids_bind {α β : Type} (c : FrameCall) (h : Handler α) (f : α → Handler β)
    (hh : Handler.Avoids c h) (hf : ∀ a, Handler.Avoids c (f a)) :
    Handler.Avoids c (h >>= f) := by
  intro log hlog
  show c ∉ (Handler.bind h f log).2
  unfold Handler.bind
  have h1 := hh log hlog
  cases hr : h log with
  | mk r log1 =>
    rw [hr] at h1
    cases r with
    | ok a => exact hf a log1 h1
    | error e => exact h1

theorem Handler.avoids_try {c : FrameCall} (body : Handler Unit) (handler : ErrorCode → Handler Unit)
    (hb : Handler.Avoids c body) (hh : ∀ e, Handler.Avoids c (handler e)) :
    Handler.Avoids c (Handler.try_catch body handler) := by
  intro log hlog
  unfold Handler.try_catch
  have h1 := hb log hlog
  cases hr : body log with
  | mk r log1 =>
    rw [hr] at h1
    cases r with
    | ok a => exact h1
    | error e => exact hh e log1 h1

theorem handle_share_avoids (env : PortalEnv) :
    Handler.Avoids FrameCall.revoke_window (handle_share env) := by
  unfold handle_share
  repeat' first
    | apply Handler.avoids_bind
    | apply Handler.avoids_outcome
    | apply Handler.avoids_pure
    | exact Handler.avoids_frame _ _ (fun h => FrameCall.noConfusion h)
    | intro _

theorem portal_keyboard_avoids (env : PortalEnv) :
    Handler.Avoids FrameCall.revoke_window (portal_keyboard env) := by
  unfold portal_keyboard
  apply Handler.avoids_try
  · apply Handler.avoids_bind
    · exact Handler.avoids_frame _ _ (fun h => FrameCall.noConfusion h)
    · intro _
      apply Handler.avoids_bind
      · apply Handler.avoids_outcome
      · intro cmd
        simp only []
        split
        · repeat' first
            | apply Handler.avoids_bind
            | apply Handler.avoids_outcome
            | exact Handler.avoids_frame _ _ (fun h => FrameCall.noConfusion h)
            | intro _
        · apply Handler.avoids_bind
          · exact handle_share_avoids env
          · intro _
            exact Handler.avoids_frame _ _ (fun h => FrameCall.noConfusion h)
        · apply Handler.avoids_bind
          · apply Handler.avoids_pure
          · intro _
            exact Handler.avoids_frame _ _ (fun h => FrameCall.noConfusion h)
  · intro e
    apply Handler.avoids_bind
    · exact Handler.avoids_frame _ _ (fun h => FrameCall.noConfusion h)
    · intro _
      exact Handler.avoids_frame _ _ (fun h => FrameCall.noConfusion h)

theorem portal_mouse_avoids (env : PortalEnv) :
    Handler.Avoids FrameCall.revoke_window (portal_mouse env) := by
  unfold portal_mouse
  apply Handler.avoids_try
  · apply Handler.avoids_bind
    · exact handle_share_avoids env
    · intro _
      exact Handler.avoids_frame _ _ (fun h => FrameCall.noConfusion h)
  · intro e
    apply Handler.avoids_bind
    · exact Handler.avoids_frame _ _ (fun h => FrameCall.noConfusion h)
    · intro _
      exact Handler.avoids_frame _ _ (fun h => FrameCall.noConfusion h)

/-- C15, on the code: `portal_keyboard` and `portal_mouse` never revoke the delegation
window, whatever happens in the handler. For a `SHARE_DS` request on a session that
is initialised already the handler fetches the two delegated capabilities, and when
the session setup raises `E_EXISTS` it clears the frame and writes the error, so the
capabilities stay mapped. `ConsoleSessionData::portal` in the same situation revokes
the window, clears the frame and then writes the error. -/
theorem portal_keyboard_mouse_no_revoke :
    (∀ env, FrameCall.revoke_window ∉ (portal_keyboard env).log) ∧
    (∀ env, FrameCall.revoke_window ∉ (portal_mouse env).log) ∧
    (portal_keyboard envShareTwice).log =
      [FrameCall.read, FrameCall.get_delegated, FrameCall.get_delegated,
        FrameCall.finish_input, FrameCall.clear, FrameCall.put_code ErrorCode.E_EXISTS] ∧
    (portal_mouse envShareTwice).log =
      [FrameCall.get_delegated, FrameCall.get_delegated, FrameCall.finish_input,
        FrameCall.clear, FrameCall.put_code ErrorCode.E_EXISTS] ∧
    (ConsoleSessionData.portal envCreateTwice).log =
      [FrameCall.read, FrameCall.get_delegated, FrameCall.get_delegated,
        FrameCall.get_delegated, FrameCall.finish_input, FrameCall.revoke_window,
        FrameCall.clear, FrameCall.put_code ErrorCode.E_EXISTS] :=
  ⟨fun env => portal_keyboard_avoids env [] (List.not_mem_nil _),
    fun env => portal_mouse_avoids env [] (List.not_mem_nil _),
    by decide, by decide, by decide⟩

/-- C16, on the code: for a command word that is none of the defined commands
(3 or more for the console, 6 or more for the PCI configuration service) the handler
reads the command and makes no further call on the frame: it writes no error code,
neither `E_SUCCESS` nor another one. `portal_keyboard` writes `E_SUCCESS` for such a
word. -/
theorem portal_unknown_command_no_reply (c : Nat) (env : PortalEnv) :
    (ConsoleSessionData.portal { env with cmd := Except.ok (c + 3) }).log =
      [FrameCall.read] ∧
    (portal_pcicfg { env with cmd := Except.ok (c + 6) }).log = [FrameCall.read] ∧
    ((ConsoleSessionData.portal { env with cmd := Except.ok (c + 3) }).log.any
      FrameCall.is_code = false) ∧
    ((portal_pcicfg { env with cmd := Except.ok (c + 6) }).log.any
      FrameCall.is_code = false) ∧
    (portal_keyboard { env with cmd := Except.ok (c + 2) }).log =
      [FrameCall.read, FrameCall.put_code ErrorCode.E_SUCCESS] := by
  have hcons : (ConsoleSessionData.portal { env with cmd := Except.ok (c + 3) }).log =
      [FrameCall.read] := rfl
  have hpci : (portal_pcicfg { env with cmd := Except.ok (c + 6) }).log =
      [FrameCall.read] := by
    simp [portal_pcicfg, Handler.log, Handler.try_catch, Handler.frame, Handler.outcome,
      bind, Handler.bind, pure, Handler.pure]
  refine ⟨hcons, hpci, ?_, ?_, rfl⟩
  · rw [hcons]; rfl
  · rw [hpci]; rfl

/-! ## C17: swapping the backends of two dataspaces -/

theorem ChildMemory.DS.switch_to_frame (ds : ChildMemory.DS) (origin : Nat) :
    (ChildMemory.DS.switch_to ds origin).desc.origin = origin ∧
    (ChildMemory.DS.switch_to ds origin).desc.size = ds.desc.size ∧
    (ChildMemory.DS.switch_to ds origin).desc.virt = ds.desc.virt ∧
    (ChildMemory.DS.switch_to ds origin).desc.type = ds.desc.type ∧
    (ChildMemory.DS.switch_to ds origin).desc.flags = ds.desc.flags ∧
    (ChildMemory.DS.switch_to ds origin).desc.phys = ds.desc.phys ∧
    (ChildMemory.DS.switch_to ds origin).cap = ds.cap ∧
    (ChildMemory.DS.switch_to ds origin).perms.length = ds.perms.length ∧
    (∀ m ∈ (ChildMemory.DS.switch_to ds origin).perms, m = 0) := by
  refine ⟨rfl, rfl, rfl, rfl, rfl, rfl, rfl, ?_, ?_⟩
  · simp [ChildMemory.DS.switch_to, ChildMemory.DS.all_perms, MaskField.set_all]
  · intro m hm
    simp only [ChildMemory.DS.switch_to, ChildMemory.DS.all_perms, MaskField.set_all,
      List.mem_map] at hm
    obtain ⟨_, _, h⟩ := hm
    exact h.symm

/-- The two objects after `swap_backend`, whether or not the two pointers are the
same. -/
theorem ChildMemory.DS.swap_backend_eq (mem : Nat → ChildMemory.DS) (a b : Nat) :
    (∃ x, ChildMemory.DS.swap_backend mem a b a =
        ChildMemory.DS.switch_to x (mem b).desc.origin ∧
      x.desc.size = (mem a).desc.size ∧ x.desc.virt = (mem a).desc.virt ∧
      x.desc.type = (mem a).desc.type ∧ x.desc.flags = (mem a).desc.flags ∧
      x.desc.phys = (mem a).desc.phys ∧ x.cap = (mem a).cap ∧
      x.perms.length = (mem a).perms.length) ∧
    ChildMemory.DS.swap_backend mem a b b =
      ChildMemory.DS.switch_to
        (if b = a then ChildMemory.DS.switch_to (mem a) (mem b).desc.origin else mem b)
        (mem a).desc.origin ∧
    (∀ c, c ≠ a → c ≠ b → ChildMemory.DS.swap_backend mem a b c = mem c) := by
  have hframe := ChildMemory.DS.switch_to_frame
  refine ⟨?_, ?_, ?_⟩
  · by_cases hab : a = b
    · subst hab
      refine ⟨ChildMemory.DS.switch_to (mem a) (mem a).desc.origin, ?_,
        (hframe _ _).2.1, (hframe _ _).2.2.1, (hframe _ _).2.2.2.1, (hframe _ _).2.2.2.2.1,
        (hframe _ _).2.2.2.2.2.1, (hframe _ _).2.2.2.2.2.2.1, (hframe _ _).2.2.2.2.2.2.2.1⟩
      simp [ChildMemory.DS.swap_backend]
    · refine ⟨mem a, ?_, rfl, rfl, rfl, rfl, rfl, rfl, rfl⟩
      simp [ChildMemory.DS.swap_backend, Function.update_noteq hab]
  · by_cases hba : b = a
    · subst hba
      simp [ChildMemory.DS.swap_backend]
    · simp [ChildMemory.DS.swap_backend, Function.update_noteq hba, hba]
  · intro c hca hcb
    simp [ChildMemory.DS.swap_backend, Function.update_noteq hca, Function.update_noteq hcb]

/-- C17: after `A.swap_backend(B)` the origin of `A` is the former origin of `B` and
the origin of `B` is the former origin of `A`, every page permission mask of both is
0, and size, virtual address, type, flags, physical address, capability and the number
of pages of both are unchanged, as is every other object; a second `swap_backend`
restores both origins. -/
theorem ChildMemory.DS.swap_backend_contract (mem : Nat → ChildMemory.DS) (a b : Nat) :
    (ChildMemory.DS.swap_backend mem a b a).desc.origin = (mem b).desc.origin ∧
    (ChildMemory.DS.swap_backend mem a b b).desc.origin = (mem a).desc.origin ∧
    (∀ m ∈ (ChildMemory.DS.swap_backend mem a b a).perms, m = 0) ∧
    (∀ m ∈ (ChildMemory.DS.swap_backend mem a b b).perms, m = 0) ∧
    (∀ x, x = a ∨ x = b →
      (ChildMemory.DS.swap_backend mem a b x).desc.size = (mem x).desc.size ∧
      (ChildMemory.DS.swap_backend mem a b x).desc.virt = (mem x).desc.virt ∧
      (ChildMemory.DS.swap_backend mem a b x).desc.type = (mem x).desc.type ∧
      (ChildMemory.DS.swap_backend mem a b x).desc.flags = (mem x).desc.flags ∧
      (ChildMemory.DS.swap_backend mem a b x).desc.phys = (mem x).desc.phys ∧
      (ChildMemory.DS.swap_backend mem a b x).cap = (mem x).cap ∧
      (ChildMemory.DS.swap_backend mem a b x).perms.length = (mem x).perms.length) ∧
    (∀ c, c ≠ a → c ≠ b → ChildMemory.DS.swap_backend mem a b c = mem c) ∧
    (ChildMemory.DS.swap_backend (ChildMemory.DS.swap_backend mem a b) a b a).desc.origin =
      (mem a).desc.origin ∧
    (ChildMemory.DS.swap_backend (ChildMemory.DS.swap_backend mem a b) a b b).desc.origin =
      (mem b).desc.origin := by
  have hframe := ChildMemory.DS.switch_to_frame
  have horigin : ∀ (m : Nat → ChildMemory.DS),
      (ChildMemory.DS.swap_backend m a b a).desc.origin = (m b).desc.origin ∧
      (ChildMemory.DS.swap_backend m a b b).desc.origin = (m a).desc.origin := by
    intro m
    obtain ⟨⟨x, hx, _⟩, hb, _⟩ := ChildMemory.DS.swap_backend_eq m a b
    exact ⟨by rw [hx]; rfl, by rw [hb]; rfl⟩
  obtain ⟨⟨x, hx, hx1, hx2, hx3, hx4, hx5, hx6, hx7⟩, hb, hother⟩ :=
    ChildMemory.DS.swap_backend_eq mem a b
  have hkeep_a : (ChildMemory.DS.swap_backend mem a b a).desc.size = (mem a).desc.size ∧
      (ChildMemory.DS.swap_backend mem a b a).desc.virt = (mem a).desc.virt ∧
      (ChildMemory.DS.swap_backend mem a b a).desc.type = (mem a).desc.type ∧
      (ChildMemory.DS.swap_backend mem a b a).desc.flags = (mem a).desc.flags ∧
      (ChildMemory.DS.swap_backend mem a b a).desc.phys = (mem a).desc.phys ∧
      (ChildMemory.DS.swap_backend mem a b a).cap = (mem a).cap ∧
      (ChildMemory.DS.swap_backend mem a b a).perms.length = (mem a).perms.length := by
    rw [hx]
    have h := hframe x (mem b).desc.origin
    exact ⟨h.2.1.trans hx1, h.2.2.1.trans hx2, h.2.2.2.1.trans hx3, h.2.2.2.2.1.trans hx4,
      h.2.2.2.2.2.1.trans hx5, h.2.2.2.2.2.2.1.trans hx6, h.2.2.2.2.2.2.2.1.trans hx7⟩
  refine ⟨(horigin mem).1, (horigin mem).2, ?_, ?_, ?_, hother, ?_, ?_⟩
  · rw [hx]; exact (hframe _ _).2.2.2.2.2.2.2.2
  · rw [hb]; exact (hframe _ _).2.2.2.2.2.2.2.2
  · intro y hy
    rcases hy with rfl | rfl
    · exact hkeep_a
    · by_cases hba : y = a
      · subst hba; exact hkeep_a
      · rw [hb, if_neg hba]
        have h := hframe (mem y) (mem a).desc.origin
        exact ⟨h.2.1, h.2.2.1, h.2.2.2.1, h.2.2.2.2.1, h.2.2.2.2.2.1, h.2.2.2.2.2.2.1,
          h.2.2.2.2.2.2.2.1⟩
  · rw [(horigin _).1, (horigin mem).2]
  · rw [(horigin _).2, (horigin mem).1]

/-! ## DList: linked segments and the two traversals -/

theorem DList.nextOf_none_eq_head? (L : List Nat) : DList.nextOf L none = L.head? := by
  cases L <;> rfl

theorem DList.nextOf_append (A B : List Nat) (nxt : Option Nat) :
    DList.nextOf (A ++ B) nxt = DList.nextOf A (DList.nextOf B nxt) := by
  cases A <;> rfl

theorem DList.lastOf_append_singleton (A : List Nat) (t : Nat) :
    ∀ pv, DList.lastOf pv (A ++ [t]) = some t := by
  induction A with
  | nil => intro pv; rfl
  | cons x rest ih => intro pv; exact ih (some x)

theorem DList.lastOf_append (A B : List Nat) :
    ∀ pv, DList.lastOf pv (A ++ B) = DList.lastOf (DList.lastOf pv A) B := by
  induction A with
  | nil => intro pv; rfl
  | cons x rest ih => intro pv; exact ih (some x)

theorem DList.lastOf_none_eq_getLast? (L : List Nat) : DList.lastOf none L = L.getLast? := by
  induction L using List.reverseRecOn with
  | nil => rfl
  | append_singleton A t _ =>
    rw [DList.lastOf_append_singleton, List.getLast?_append]
    rfl

theorem DList.lastOf_mem (L : List Nat) : ∀ pv t, L ≠ [] → DList.lastOf pv L = some t → t ∈ L := by
  induction L using List.reverseRecOn with
  | nil => intro pv t h; exact absurd rfl h
  | append_singleton A x _ =>
    intro pv t _ ht
    rw [DList.lastOf_append_singleton] at ht
    cases ht
    simp

theorem DList.Seg_congr (heap heap1 : Nat → DListItem) :
    ∀ (L : List Nat) (pv nxt : Option Nat), (∀ x ∈ L, heap1 x = heap x) →
    DList.Seg heap pv L nxt → DList.Seg heap1 pv L nxt := by
  intro L
  induction L with
  | nil => intro pv nxt _ _; trivial
  | cons x rest ih =>
    intro pv nxt hsame hseg
    obtain ⟨hp, hn, hrest⟩ := hseg
    have hx := hsame x (List.mem_cons_self x rest)
    refine ⟨by rw [hx]; exact hp, by rw [hx]; exact hn, ?_⟩
    exact ih (some x) nxt (fun y hy => hsame y (List.mem_cons_of_mem x hy)) hrest

theorem DList.Seg_append (heap : Nat → DListItem) (A B : List Nat) (nxt : Option Nat) :
    ∀ pv, DList.Seg heap pv (A ++ B) nxt ↔
      DList.Seg heap pv A (DList.nextOf B nxt) ∧ DList.Seg heap (DList.lastOf pv A) B nxt := by
  induction A with
  | nil =>
    intro pv
    simp [DList.Seg, DList.lastOf]
  | cons x rest ih =>
    intro pv
    show (heap x).prev = pv ∧ (heap x).next = DList.nextOf (rest ++ B) nxt ∧
        DList.Seg heap (some x) (rest ++ B) nxt ↔
      ((heap x).prev = pv ∧ (heap x).next = DList.nextOf rest (DList.nextOf B nxt) ∧
        DList.Seg heap (some x) rest (DList.nextOf B nxt)) ∧
      DList.Seg heap (DList.lastOf (some x) rest) B nxt
    rw [DList.nextOf_append, ih (some x)]
    tauto

/-- Redirecting the `next` pointer of the last item of a segment. -/
theorem DList.Seg_set_next (heap : Nat → DListItem) (nxt1 : Option Nat) :
    ∀ (L : List Nat) (pv nxt : Option Nat) (t : Nat), L.Nodup →
    DList.lastOf none L = some t → DList.Seg heap pv L nxt →
    DList.Seg (Function.update heap t { heap t with next := nxt1 }) pv L nxt1 := by
  intro L
  induction L with
  | nil => intro pv nxt t _ _ _; trivial
  | cons x rest ih =>
    intro pv nxt t hnd hlast hseg
    obtain ⟨hp, hn, hrest⟩ := hseg
    cases rest with
    | nil =>
      have ht : x = t := by simpa [DList.lastOf] using hlast
      subst ht
      exact ⟨by simpa using hp, by simp [DList.nextOf], trivial⟩
    | cons y rest2 =>
      have hlast2 : DList.lastOf none (y :: rest2) = some t := hlast
      have htmem : t ∈ y :: rest2 := DList.lastOf_mem _ none t (List.cons_ne_nil _ _) hlast2
      have hxt : x ≠ t := by
        intro h
        rw [h] at hnd
        exact (List.nodup_cons.mp hnd).1 htmem
      refine ⟨?_, ?_, ih (some x) nxt t (List.nodup_cons.mp hnd).2 hlast2 hrest⟩
      · rw [Function.update_noteq hxt]; exact hp
      · rw [Function.update_noteq hxt]; exact hn

/-- Redirecting the `prev` pointer of the first item of a segment. -/
theorem DList.Seg_set_prev (heap : Nat → DListItem) (b : Nat) (B : List Nat)
    (pv pv1 nxt : Option Nat) (hnd : (b :: B).Nodup) (hseg : DList.Seg heap pv (b :: B) nxt) :
    DList.Seg (Function.update heap b { heap b with prev := pv1 }) pv1 (b :: B) nxt := by
  obtain ⟨_, hn, hrest⟩ := hseg
  refine ⟨by simp, by simpa using hn, ?_⟩
  refine DList.Seg_congr heap _ B (some b) nxt ?_ hrest
  intro x hx
  have hxb : x ≠ b := by
    intro h
    rw [h] at hx
    exact (List.nodup_cons.mp hnd).1 hx
  exact Function.update_noteq hxb _ _

theorem DList.forward_from_seg (heap : Nat → DListItem) (d : DList) :
    ∀ (L : List Nat) (fuel : Nat) (p pv : Option Nat), DList.Seg heap pv L none →
    L.length ≤ fuel →
    DList.forward_from heap d fuel { p := p, n := L.head? } = (L.map some, true) := by
  intro L
  induction L with
  | nil =>
    intro fuel p pv _ _
    cases fuel <;> simp [DList.forward_from, DListIterator.eq, DList.end_it]
  | cons x rest ih =>
    intro fuel p pv hseg hfuel
    obtain ⟨_, hn, hrest⟩ := hseg
    cases fuel with
    | zero => simp at hfuel
    | succ f =>
      have hstep := ih f (some x) (some x) hrest (by simpa using hfuel)
      have hinc : DListIterator.inc heap { p := p, n := (x :: rest).head? } =
          { p := some x, n := rest.head? } := by
        simp [DListIterator.inc, hn, DList.nextOf_none_eq_head?]
      simp only [DList.forward_from, hinc, hstep]
      simp [DListIterator.eq, DList.end_it, DListIterator.deref]

theorem DList.backward_from_seg (heap : Nat → DListItem) (d : DList) :
    ∀ (A B : List Nat) (fuel : Nat), (A ++ B).Nodup → DList.Seg heap none (A ++ B) none →
    d.head = (A ++ B).head? → A.length ≤ fuel →
    DList.backward_from heap d fuel
      { p := DList.lastOf none A, n := DList.nextOf B none } = (A.reverse.map some, true) := by
  intro A
  induction A using List.reverseRecOn with
  | nil =>
    intro B fuel _ _ hhead _
    have hn : DList.nextOf B none = d.head := by
      rw [hhead, DList.nextOf_none_eq_head?]; rfl
    cases fuel <;> simp [DList.backward_from, DListIterator.eq, DList.begin, hn]
  | append_singleton A t ih =>
    intro B fuel hnd hseg hhead hfuel
    cases fuel with
    | zero => simp at hfuel
    | succ f =>
      have hassoc : A ++ [t] ++ B = A ++ (t :: B) := by simp
      rw [hassoc] at hnd hseg hhead
      have hprev : (heap t).prev = DList.lastOf none A :=
        ((DList.Seg_append heap A (t :: B) none none).mp hseg).2.1
      have hstep := ih (t :: B) f hnd hseg hhead (by simpa using hfuel)
      have hne : DListIterator.eq
          { p := DList.lastOf none (A ++ [t]), n := DList.nextOf B none } (DList.begin d) =
          false := by
        simp only [DListIterator.eq, DList.begin, hhead, beq_eq_false_iff_ne, ne_eq]
        cases B with
        | nil =>
          cases A <;> simp [DList.nextOf]
        | cons b B2 =>
          have hb : b ∉ A ∧ b ≠ t := by
            have h1 := (List.nodup_append.mp hnd).2.2
            have h2 := (List.nodup_cons.mp (List.nodup_append.mp hnd).2.1).1
            refine ⟨fun hbA => h1 hbA (by simp), ?_⟩
            rintro rfl
            exact h2 (by simp)
          cases A with
          | nil =>
            simp only [DList.nextOf, List.nil_append, List.head?_cons, Option.some.injEq]
            exact hb.2
          | cons a A2 =>
            simp only [DList.nextOf, List.cons_append, List.head?_cons, Option.some.injEq]
            rintro rfl
            exact hb.1 (by simp)
      have hdec : DListIterator.dec heap
          { p := DList.lastOf none (A ++ [t]), n := DList.nextOf B none } =
          { p := DList.lastOf none A, n := DList.nextOf (t :: B) none } := by
        simp [DListIterator.dec, DList.lastOf_append_singleton, hprev, DList.nextOf]
      simp only [DList.backward_from, hne, hdec, hstep]
      simp [DListIterator.deref, DList.nextOf]

/-- On a well-formed list the forward traversal visits the items in order, the
backward traversal in reverse order, and both end. -/
theorem DList.traversal (heap : Nat → DListItem) (d : DList) (L : List Nat)
    (hwf : DList.WellFormed heap d L) (fuel : Nat) (hfuel : L.length ≤ fuel) :
    DList.forward heap d fuel = (L.map some, true) ∧
    DList.backward heap d fuel = (L.reverse.map some, true) := by
  obtain ⟨hnd, hhead, htail, _, hseg⟩ := hwf
  constructor
  · unfold DList.forward DList.begin
    rw [hhead]
    exact DList.forward_from_seg heap d L fuel none none hseg hfuel
  · unfold DList.backward DList.end_it
    have h := DList.backward_from_seg heap d L [] fuel (by simpa using hnd)
      (by simpa using hseg) (by simpa using hhead) hfuel
    rw [DList.lastOf_none_eq_getLast?] at h
    rw [htail]
    exact h

/-! ## C18: DList::append -/

theorem DList.append_wellFormed (w : Nat) (heap : Nat → DListItem) (d : DList)
    (L : List Nat) (e : Nat) (hwf : DList.WellFormed heap d L) (he : e ∉ L)
    (hlen : L.length + 1 < 2 ^ w) :
    DList.WellFormed (DList.append w heap d e).2.1 (DList.append w heap d e).2.2 (L ++ [e]) ∧
    (DList.append w heap d e).1 = { p := L.getLast?, n := some e } := by
  obtain ⟨hnd, hhead, htail, hcount, hseg⟩ := hwf
  have hlast : DList.lastOf none L = d.tail := by
    rw [DList.lastOf_none_eq_getLast?, htail]
  -- the items after the redirection of the old tail
  have hseg1 : ∃ heap1 : Nat → DListItem,
      (DList.append w heap d e).2.1 =
        Function.update heap1 e { prev := d.tail, next := none } ∧
      DList.Seg heap1 none L (some e) := by
    cases L with
    | nil =>
      refine ⟨heap, ?_, trivial⟩
      have hh : d.head = none := hhead
      simp [DList.append, hh]
    | cons x rest =>
      have hh : d.head ≠ none := by rw [hhead]; simp
      obtain ⟨t, ht⟩ : ∃ t, d.tail = some t := by
        cases hx : d.tail with
        | none =>
          rw [htail] at hx
          simp at hx
        | some t => exact ⟨t, rfl⟩
      refine ⟨Function.update heap t { heap t with next := some e }, ?_, ?_⟩
      · simp [DList.append, hh, ht]
      · exact DList.Seg_set_next heap (some e) (x :: rest) none none t hnd
          (by rw [hlast, ht]) hseg
  obtain ⟨heap1, hheap, hseg2⟩ := hseg1
  have hseg3 : DList.Seg (DList.append w heap d e).2.1 none (L ++ [e]) none := by
    rw [hheap]
    refine (DList.Seg_append _ L [e] none none).mpr ⟨?_, ?_⟩
    · refine DList.Seg_congr heap1 _ L none _ ?_ hseg2
      intro x hx
      have hxe : x ≠ e := fun h => he (h ▸ hx)
      exact Function.update_noteq hxe _ _
    · refine ⟨?_, ?_, trivial⟩
      · rw [Function.update_same]
        exact hlast.symm
      · rw [Function.update_same]
        rfl
  refine ⟨⟨?_, ?_, ?_, ?_, hseg3⟩, ?_⟩
  · exact List.nodup_append.mpr ⟨hnd, List.nodup_singleton e, by
      intro a ha hae
      rw [List.mem_singleton] at hae
      exact he (hae ▸ ha)⟩
  · show (if d.head = none then some e else d.head) = (L ++ [e]).head?
    cases L with
    | nil =>
      have hh : d.head = none := hhead
      simp [hh]
    | cons x rest =>
      have hh : d.head = some x := hhead
      simp [hh]
  · show some e = (L ++ [e]).getLast?
    simp
  · show wadd w d.len 1 = (L ++ [e]).length
    rw [hcount, wadd_of_lt hlen, List.length_append]
    rfl
  · have hp : ((DList.append w heap d e).2.1 e).prev = d.tail := by
      rw [hheap, Function.update_same]
    show ({ p := ((DList.append w heap d e).2.1 e).prev, n := some e } : DListIterator) = _
    rw [hp, htail]

/-- C18: on a well-formed list holding the items `L`, `append(e)` for an item `e` that
is not in `L` gives a well-formed list whose forward traversal from `begin()` to
`end()` is `L` followed by `e` and whose backward traversal from `end()` is the
reverse; both traversals end, `length()` is `|L| + 1`, and the returned iterator
dereferences to `e` and reaches `end()` with one `++`. -/
theorem DList.append_contract (w : Nat) (heap : Nat → DListItem) (d : DList)
    (L : List Nat) (e : Nat) (fuel : Nat) (hwf : DList.WellFormed heap d L) (he : e ∉ L)
    (hlen : L.length + 1 < 2 ^ w) (hfuel : L.length + 1 ≤ fuel) :
    DList.WellFormed (DList.append w heap d e).2.1 (DList.append w heap d e).2.2 (L ++ [e]) ∧
    DList.forward (DList.append w heap d e).2.1 (DList.append w heap d e).2.2 fuel =
      ((L ++ [e]).map some, true) ∧
    DList.backward (DList.append w heap d e).2.1 (DList.append w heap d e).2.2 fuel =
      ((L ++ [e]).reverse.map some, true) ∧
    DList.length (DList.append w heap d e).2.2 = L.length + 1 ∧
    DListIterator.deref (DList.append w heap d e).1 = some e ∧
    DListIterator.eq
      (DListIterator.inc (DList.append w heap d e).2.1 (DList.append w heap d e).1)
      (DList.end_it (DList.append w heap d e).2.2) = true := by
  obtain ⟨hwf2, hit⟩ := DList.append_wellFormed w heap d L e hwf he hlen
  have htrav := DList.traversal _ _ (L ++ [e]) hwf2 fuel (by simpa using hfuel)
  have hsege := ((DList.Seg_append _ L [e] none none).mp hwf2.2.2.2.2).2
  refine ⟨hwf2, htrav.1, htrav.2, ?_, ?_, ?_⟩
  · show (DList.append w heap d e).2.2.len = _
    rw [hwf2.2.2.2.1, List.length_append]
    rfl
  · rw [hit]; rfl
  · rw [hit]
    have hnext : ((DList.append w heap d e).2.1 e).next = none := hsege.2.1
    simp [DListIterator.inc, DListIterator.eq, DList.end_it, hnext]

theorem DList.append_contract_witness :
    (DList.WellFormed heapTwo dlistTwo [10, 20] ∧ 30 ∉ [10, 20] ∧
      [10, 20].length + 1 < 2 ^ 64 ∧ [10, 20].length + 1 ≤ 3) ∧
    DList.forward (DList.append 64 heapTwo dlistTwo 30).2.1
      (DList.append 64 heapTwo dlistTwo 30).2.2 3 = ([10, 20, 30].map some, true) ∧
    DList.backward (DList.append 64 heapTwo dlistTwo 30).2.1
      (DList.append 64 heapTwo dlistTwo 30).2.2 3 = ([30, 20, 10].map some, true) ∧
    DList.length (DList.append 64 heapTwo dlistTwo 30).2.2 = 3 :=
  have hwf : DList.WellFormed heapTwo dlistTwo [10, 20] := by
    refine ⟨by decide, by decide, by decide, by decide, ?_⟩
    simp [DList.Seg, DList.nextOf, heapTwo, heapEmpty, dlistEmpty, DList.append,
      Function.update]
  have h := DList.append_contract 64 heapTwo dlistTwo [10, 20] 30 3 hwf (by decide)
    (by decide) (by decide)
  ⟨⟨hwf, by decide, by decide, by decide⟩, h.2.1, h.2.2.1, h.2.2.2.1⟩

/-! ## C19: DList::remove -/

/-- The list after `remove(e)` for the item `e` between the items `A` and `B`. -/
theorem DList.remove_middle (w : Nat) (heap : Nat → DListItem) (d : DList)
    (A B : List Nat) (e : Nat) (hwf : DList.WellFormed heap d (A ++ e :: B))
    (hlen : (A ++ e :: B).length < 2 ^ w) :
    DList.WellFormed (DList.remove w heap d e).1 (DList.remove w heap d e).2 (A ++ B) := by
  obtain ⟨hnd, hhead, htail, hcount, hseg⟩ := hwf
  have hndA : A.Nodup := (List.nodup_append.mp hnd).1
  have hndeB : (e :: B).Nodup := (List.nodup_append.mp hnd).2.1
  have hdisj := (List.nodup_append.mp hnd).2.2
  have heA : e ∉ A := fun h => hdisj h (List.mem_cons_self e B)
  have heB : e ∉ B := (List.nodup_cons.mp hndeB).1
  have hndB : B.Nodup := (List.nodup_cons.mp hndeB).2
  have hAB : ∀ x, x ∈ A → x ∉ B := fun x hx hxB => hdisj hx (List.mem_cons_of_mem e hxB)
  obtain ⟨hsegA, hprev, hnext, hsegB⟩ := (DList.Seg_append heap A (e :: B) none none).mp hseg
  change DList.Seg heap none A (some e) at hsegA
  -- the `next` pointer of the predecessor
  obtain ⟨heap1, hheap1, hA1, hframe1⟩ : ∃ heap1 : Nat → DListItem,
      (match (heap e).prev with
        | some a => Function.update heap a { heap a with next := (heap e).next }
        | none => heap) = heap1 ∧
      DList.Seg heap1 none A (DList.nextOf B none) ∧ (∀ x, x ∉ A → heap1 x = heap x) := by
    rw [hprev, hnext]
    cases hl : DList.lastOf none A with
    | none =>
      have hAnil : A = [] := by
        cases A with
        | nil => rfl
        | cons a A2 =>
          have h := DList.lastOf_append_singleton
          exfalso
          obtain ⟨A3, t, hA3⟩ : ∃ A3 t, a :: A2 = A3 ++ [t] :=
            ⟨(a :: A2).dropLast, (a :: A2).getLast (List.cons_ne_nil _ _),
              (List.dropLast_append_getLast (List.cons_ne_nil _ _)).symm⟩
          rw [hA3, h] at hl
          exact Option.noConfusion hl
      subst hAnil
      exact ⟨heap, rfl, trivial, fun _ _ => rfl⟩
    | some a =>
      have hane : A ≠ [] := by
        rintro rfl
        exact Option.noConfusion hl
      have ha : a ∈ A := DList.lastOf_mem A none a hane hl
      refine ⟨_, rfl, DList.Seg_set_next heap _ A none (some e) a hndA hl hsegA, ?_⟩
      intro x hx
      have hxa : x ≠ a := by
        rintro rfl
        exact hx ha
      exact Function.update_noteq hxa _ _
  have he1 : heap1 e = heap e := hframe1 e heA
  -- the `prev` pointer of the successor
  obtain ⟨heap2, hheap2, hB2, hframe2⟩ : ∃ heap2 : Nat → DListItem,
      (match (heap1 e).next with
        | some b => Function.update heap1 b { heap1 b with prev := (heap1 e).prev }
        | none => heap1) = heap2 ∧
      DList.Seg heap2 (DList.lastOf none A) B none ∧ (∀ x, x ∉ B → heap2 x = heap1 x) := by
    rw [he1, hprev, hnext]
    have hsegB1 : DList.Seg heap1 (some e) B none :=
      DList.Seg_congr heap heap1 B (some e) none
        (fun x hx => hframe1 x (fun hxA => hAB x hxA hx)) hsegB
    cases B with
    | nil => exact ⟨heap1, rfl, trivial, fun _ _ => rfl⟩
    | cons b B2 =>
      refine ⟨_, rfl, DList.Seg_set_prev heap1 b B2 (some e) _ none hndB hsegB1, ?_⟩
      intro x hx
      have hxb : x ≠ b := by
        rintro rfl
        exact hx (List.mem_cons_self x B2)
      exact Function.update_noteq hxb _ _
  have hA2 : DList.Seg heap2 none A (DList.nextOf B none) :=
    DList.Seg_congr heap1 heap2 A none _ (fun x hx => hframe2 x (hAB x hx)) hA1
  have he2 : heap2 e = heap e := by rw [hframe2 e heB, he1]
  have hrem : DList.remove w heap d e =
      (heap2, { head := if some e = d.head then (heap2 e).next else d.head,
                tail := if some e = d.tail then (heap2 e).prev else d.tail,
                len := wsub w d.len 1 }) := by
    unfold DList.remove
    simp only [hheap1, hheap2]
  rw [hrem]
  refine ⟨?_, ?_, ?_, ?_, (DList.Seg_append heap2 A B none none).mpr ⟨hA2, hB2⟩⟩
  · exact List.nodup_append.mpr ⟨hndA, hndB, fun a ha hb => hAB a ha hb⟩
  · show (if some e = d.head then (heap2 e).next else d.head) = (A ++ B).head?
    rw [he2, hnext, hhead]
    cases A with
    | nil => simp [DList.nextOf_none_eq_head?]
    | cons a A2 =>
      have hae : e ≠ a := fun h => heA (h ▸ List.mem_cons_self a A2)
      simp [hae]
  · show (if some e = d.tail then (heap2 e).prev else d.tail) = (A ++ B).getLast?
    rw [he2, hprev, htail, ← DList.lastOf_none_eq_getLast?, ← DList.lastOf_none_eq_getLast?,
      DList.lastOf_append, DList.lastOf_append]
    cases B with
    | nil => simp [DList.lastOf]
    | cons b B2 =>
      have hl : DList.lastOf (DList.lastOf none A) (e :: b :: B2) =
          DList.lastOf (DList.lastOf none A) (b :: B2) := rfl
      rw [hl]
      have hne : some e ≠ DList.lastOf (DList.lastOf none A) (b :: B2) := by
        intro h
        exact heB (DList.lastOf_mem (b :: B2) _ e (List.cons_ne_nil _ _) h.symm)
      rw [if_neg hne]
  · show wsub w d.len 1 = (A ++ B).length
    rw [hcount]
    rw [wsub_of_le (by simp only [List.length_append, List.length_cons]; omega) hlen]
    simp

/-- C19: on a well-formed list holding the items `L`, `remove(e)` for an item `e` of
`L` (the first, the last, one in the middle or the only one) gives a well-formed list
whose forward traversal is `L` without `e`, in the old order, and whose backward
traversal is the reverse; `_head` and `_tail` are the first and the last remaining
item (both null when none remains), and `length()` is `|L| - 1`. -/
theorem DList.remove_contract (w : Nat) (heap : Nat → DListItem) (d : DList)
    (L : List Nat) (e : Nat) (fuel : Nat) (hwf : DList.WellFormed heap d L) (he : e ∈ L)
    (hlen : L.length < 2 ^ w) (hfuel : L.length ≤ fuel) :
    DList.WellFormed (DList.remove w heap d e).1 (DList.remove w heap d e).2 (L.erase e) ∧
    DList.forward (DList.remove w heap d e).1 (DList.remove w heap d e).2 fuel =
      ((L.erase e).map some, true) ∧
    DList.backward (DList.remove w heap d e).1 (DList.remove w heap d e).2 fuel =
      ((L.erase e).reverse.map some, true) ∧
    (DList.remove w heap d e).2.head = (L.erase e).head? ∧
    (DList.remove w heap d e).2.tail = (L.erase e).getLast? ∧
    (L.erase e = [] → (DList.remove w heap d e).2.head = none ∧
      (DList.remove w heap d e).2.tail = none) ∧
    DList.length (DList.remove w heap d e).2 = L.length - 1 := by
  obtain ⟨A, B, rfl⟩ := List.append_of_mem he
  have hnd := hwf.1
  have heA : e ∉ A := fun h => (List.nodup_append.mp hnd).2.2 h (List.mem_cons_self e B)
  have herase : (A ++ e :: B).erase e = A ++ B := by
    rw [List.erase_append_right _ heA, List.erase_cons_head]
  rw [herase]
  have hwf2 := DList.remove_middle w heap d A B e hwf hlen
  have htrav := DList.traversal _ _ (A ++ B) hwf2 fuel (by
    simp only [List.length_append, List.length_cons] at hfuel ⊢
    omega)
  refine ⟨hwf2, htrav.1, htrav.2, hwf2.2.1, hwf2.2.2.1, ?_, ?_⟩
  · intro hnil
    rw [hwf2.2.1, hwf2.2.2.1, hnil]
    exact ⟨rfl, rfl⟩
  · show (DList.remove w heap d e).2.len = _
    rw [hwf2.2.2.2.1]
    simp

theorem DList.remove_contract_witness :
    (DList.WellFormed heapTwo dlistTwo [10, 20] ∧ 10 ∈ [10, 20] ∧
      [10, 20].length < 2 ^ 64 ∧ [10, 20].length ≤ 2) ∧
    DList.forward (DList.remove 64 heapTwo dlistTwo 10).1
      (DList.remove 64 heapTwo dlistTwo 10).2 2 = ([20].map some, true) ∧
    (DList.remove 64 heapTwo dlistTwo 10).2.head = some 20 ∧
    DList.length (DList.remove 64 heapTwo dlistTwo 10).2 = 1 :=
  have hwf : DList.WellFormed heapTwo dlistTwo [10, 20] := by
    refine ⟨by decide, by decide, by decide, by decide, ?_⟩
    simp [DList.Seg, DList.nextOf, heapTwo, heapEmpty, dlistEmpty, DList.append,
      Function.update]
  have h := DList.remove_contract 64 heapTwo dlistTwo [10, 20] 10 2 hwf (by decide)
    (by decide) (by decide)
  ⟨⟨hwf, by decide, by decide, by decide⟩, h.2.1, h.2.2.2.1, h.2.2.2.2.2.2⟩

/-! ## Treap: the search tree property under find, insert and remove -/

theorem TreapTree.find_of_has (key a : Nat) : ∀ (t : TreapTree), TreapTree.BST t →
    TreapTree.Has (a, key) t → TreapTree.find key t = some a := by
  intro t
  induction t with
  | nil => intro _ h; exact absurd h (by simp [TreapTree.Has])
  | node l a1 k p r ihl ihr =>
    intro hbst hhas
    obtain ⟨hbl, hbr, hlt, hgt⟩ := hbst
    unfold TreapTree.find
    rcases hhas with hl | heq | hr
    · have hk : key < k := hlt _ hl
      rw [if_neg (by omega), if_pos hk]
      exact ihl hbl hl
    · have h1 : a = a1 := congrArg Prod.fst heq
      have h2 : key = k := congrArg Prod.snd heq
      rw [if_pos h2.symm, h1]
    · have hk : k < key := hgt _ hr
      rw [if_neg (by omega), if_neg (by omega)]
      exact ihr hbr hr

theorem TreapTree.find_none (key : Nat) : ∀ (t : TreapTree),
    (∀ n, TreapTree.Has n t → n.2 ≠ key) → TreapTree.find key t = none := by
  intro t
  induction t with
  | nil => intro _; rfl
  | node l a1 k p r ihl ihr =>
    intro hno
    unfold TreapTree.find
    have hk : k ≠ key := hno (a1, k) (Or.inr (Or.inl rfl))
    rw [if_neg hk]
    by_cases hlt : key < k
    · rw [if_pos hlt]
      exact ihl (fun n hn => hno n (Or.inl hn))
    · rw [if_neg hlt]
      exact ihr (fun n hn => hno n (Or.inr (Or.inr hn)))

theorem TreapTree.split_spec (key : Nat) : ∀ (t : TreapTree), TreapTree.BST t →
    (∀ n, TreapTree.Has n t → n.2 ≠ key) →
    TreapTree.BST (TreapTree.split key t).1 ∧ TreapTree.BST (TreapTree.split key t).2 ∧
    (∀ n, TreapTree.Has n (TreapTree.split key t).1 → n.2 < key) ∧
    (∀ n, TreapTree.Has n (TreapTree.split key t).2 → key < n.2) ∧
    (∀ n, TreapTree.Has n (TreapTree.split key t).1 ∨
      TreapTree.Has n (TreapTree.split key t).2 ↔ TreapTree.Has n t) := by
  intro t
  induction t with
  | nil =>
    intro _ _
    simp [TreapTree.split, TreapTree.BST, TreapTree.Has]
  | node l a k p r ihl ihr =>
    intro hbst hno
    obtain ⟨hbl, hbr, hlt, hgt⟩ := hbst
    have hk : k ≠ key := hno (a, k) (Or.inr (Or.inl rfl))
    unfold TreapTree.split
    by_cases hkey : key < k
    · rw [if_pos hkey]
      obtain ⟨h1, h2, h3, h4, h5⟩ := ihl hbl (fun n hn => hno n (Or.inl hn))
      refine ⟨h1, ⟨h2, hbr, ?_, hgt⟩, h3, ?_, ?_⟩
      · intro n hn
        exact hlt n ((h5 n).mp (Or.inr hn))
      · intro n hn
        rcases hn with hn | hn | hn
        · exact h4 n hn
        · rw [hn]; exact hkey
        · exact Nat.lt_trans hkey (hgt n hn)
      · intro n
        have h := h5 n
        constructor
        · intro hn
          rcases hn with hn | hn | hn | hn
          · exact Or.inl (h.mp (Or.inl hn))
          · exact Or.inl (h.mp (Or.inr hn))
          · exact Or.inr (Or.inl hn)
          · exact Or.inr (Or.inr hn)
        · intro hn
          rcases hn with hn | hn | hn
          · rcases h.mpr hn with hn | hn
            · exact Or.inl hn
            · exact Or.inr (Or.inl hn)
          · exact Or.inr (Or.inr (Or.inl hn))
          · exact Or.inr (Or.inr (Or.inr hn))
    · rw [if_neg hkey]
      have hkey2 : k < key := by omega
      obtain ⟨h1, h2, h3, h4, h5⟩ := ihr hbr (fun n hn => hno n (Or.inr (Or.inr hn)))
      refine ⟨⟨hbl, h1, hlt, ?_⟩, h2, ?_, h4, ?_⟩
      · intro n hn
        exact hgt n ((h5 n).mp (Or.inl hn))
      · intro n hn
        rcases hn with hn | hn | hn
        · exact Nat.lt_trans (hlt n hn) hkey2
        · rw [hn]; exact hkey2
        · exact h3 n hn
      · intro n
        have h := h5 n
        constructor
        · intro hn
          rcases hn with (hn | hn | hn) | hn
          · exact Or.inl hn
          · exact Or.inr (Or.inl hn)
          · exact Or.inr (Or.inr (h.mp (Or.inl hn)))
          · exact Or.inr (Or.inr (h.mp (Or.inr hn)))
        · intro hn
          rcases hn with hn | hn | hn
          · exact Or.inl (Or.inl hn)
          · exact Or.inl (Or.inr (Or.inl hn))
          · rcases h.mpr hn with hn | hn
            · exact Or.inl (Or.inr (Or.inr hn))
            · exact Or.inr hn

theorem TreapTree.insert_at_spec (prio addr key : Nat) : ∀ (t : TreapTree),
    TreapTree.BST t → (∀ n, TreapTree.Has n t → n.2 ≠ key) →
    TreapTree.BST (TreapTree.insert_at prio addr key t) ∧
    (∀ n, TreapTree.Has n (TreapTree.insert_at prio addr key t) ↔
      n = (addr, key) ∨ TreapTree.Has n t) := by
  intro t
  induction t with
  | nil =>
    intro _ _
    simp [TreapTree.insert_at, TreapTree.BST, TreapTree.Has]
  | node l a k p r ihl ihr =>
    intro hbst hno
    have hbst0 := hbst
    obtain ⟨hbl, hbr, hlt, hgt⟩ := hbst
    have hk : k ≠ key := hno (a, k) (Or.inr (Or.inl rfl))
    unfold TreapTree.insert_at
    by_cases hprio : toInt32 p < toInt32 prio
    · rw [if_pos hprio]
      by_cases hkey : key < k
      · rw [if_pos hkey]
        obtain ⟨h1, h2⟩ := ihl hbl (fun n hn => hno n (Or.inl hn))
        refine ⟨⟨h1, hbr, ?_, hgt⟩, ?_⟩
        · intro n hn
          rcases (h2 n).mp hn with hn | hn
          · rw [hn]; exact hkey
          · exact hlt n hn
        · intro n
          have h := h2 n
          constructor
          · intro hn
            rcases hn with hn | hn | hn
            · rcases h.mp hn with hn | hn
              · exact Or.inl hn
              · exact Or.inr (Or.inl hn)
            · exact Or.inr (Or.inr (Or.inl hn))
            · exact Or.inr (Or.inr (Or.inr hn))
          · intro hn
            rcases hn with hn | hn | hn | hn
            · exact Or.inl (h.mpr (Or.inl hn))
            · exact Or.inl (h.mpr (Or.inr hn))
            · exact Or.inr (Or.inl hn)
            · exact Or.inr (Or.inr hn)
      · rw [if_neg hkey]
        have hkey2 : k < key := by omega
        obtain ⟨h1, h2⟩ := ihr hbr (fun n hn => hno n (Or.inr (Or.inr hn)))
        refine ⟨⟨hbl, h1, hlt, ?_⟩, ?_⟩
        · intro n hn
          rcases (h2 n).mp hn with hn | hn
          · rw [hn]; exact hkey2
          · exact hgt n hn
        · intro n
          have h := h2 n
          constructor
          · intro hn
            rcases hn with hn | hn | hn
            · exact Or.inr (Or.inl hn)
            · exact Or.inr (Or.inr (Or.inl hn))
            · rcases h.mp hn with hn | hn
              · exact Or.inl hn
              · exact Or.inr (Or.inr (Or.inr hn))
          · intro hn
            rcases hn with hn | hn | hn | hn
            · exact Or.inr (Or.inr (h.mpr (Or.inl hn)))
            · exact Or.inl hn
            · exact Or.inr (Or.inl hn)
            · exact Or.inr (Or.inr (h.mpr (Or.inr hn)))
    · rw [if_neg hprio]
      obtain ⟨h1, h2, h3, h4, h5⟩ :=
        TreapTree.split_spec key (TreapTree.node l a k p r) hbst0 hno
      refine ⟨⟨h1, h2, h3, h4⟩, ?_⟩
      intro n
      have h := h5 n
      constructor
      · intro hn
        rcases hn with hn | hn | hn
        · exact Or.inr (h.mp (Or.inl hn))
        · exact Or.inl hn
        · exact Or.inr (h.mp (Or.inr hn))
      · intro hn
        rcases hn with hn | hn
        · exact Or.inr (Or.inl hn)
        · rcases h.mpr hn with hn | hn
          · exact Or.inl hn
          · exact Or.inr (Or.inr hn)

theorem TreapTree.remove_from_spec : ∀ (fuel : Nat) (l r : TreapTree) (a k p : Nat),
    (TreapTree.node l a k p r).size ≤ fuel → TreapTree.BST (TreapTree.node l a k p r) →
    TreapTree.BST (TreapTree.remove_from fuel (TreapTree.node l a k p r)) ∧
    (∀ n, TreapTree.Has n (TreapTree.remove_from fuel (TreapTree.node l a k p r)) ↔
      TreapTree.Has n l ∨ TreapTree.Has n r) := by
  intro fuel
  induction fuel with
  | zero =>
    intro l r a k p hsize _
    simp [TreapTree.size] at hsize
  | succ f ih =>
    intro l r a k p hsize hbst
    obtain ⟨hbl, hbr, hlt, hgt⟩ := hbst
    cases l with
    | nil =>
      cases r with
      | nil => simp [TreapTree.remove_from, TreapTree.BST, TreapTree.Has]
      | node rl ra rk rp rr =>
        simp only [TreapTree.remove_from]
        exact ⟨hbr, fun n => by simp [TreapTree.Has]⟩
    | node ll la lk lp lr =>
      cases r with
      | nil =>
        simp only [TreapTree.remove_from]
        exact ⟨hbl, fun n => by simp [TreapTree.Has]⟩
      | node rl ra rk rp rr =>
        obtain ⟨hbll, hblr, hllt, hlgt⟩ := hbl
        obtain ⟨hbrl, hbrr, hrlt, hrgt⟩ := hbr
        have hlk : lk < k := hlt (la, lk) (Or.inr (Or.inl rfl))
        have hrk : k < rk := hgt (ra, rk) (Or.inr (Or.inl rfl))
        simp only [TreapTree.size] at hsize
        simp only [TreapTree.remove_from]
        by_cases hprio : toInt32 lp < toInt32 rp
        · rw [if_pos hprio]
          obtain ⟨h1, h2⟩ := ih lr (TreapTree.node rl ra rk rp rr) a k p
            (by simp only [TreapTree.size]; omega)
            ⟨hblr, ⟨hbrl, hbrr, hrlt, hrgt⟩, fun n hn => hlt n (Or.inr (Or.inr hn)), hgt⟩
          refine ⟨⟨hbll, h1, hllt, ?_⟩, ?_⟩
          · intro n hn
            rcases (h2 n).mp hn with hn | hn
            · exact hlgt n hn
            · exact Nat.lt_trans hlk (hgt n hn)
          · intro n
            have h := h2 n
            constructor
            · intro hn
              rcases hn with hn | hn | hn
              · exact Or.inl (Or.inl hn)
              · exact Or.inl (Or.inr (Or.inl hn))
              · rcases h.mp hn with hn | hn
                · exact Or.inl (Or.inr (Or.inr hn))
                · exact Or.inr hn
            · intro hn
              rcases hn with (hn | hn | hn) | hn
              · exact Or.inl hn
              · exact Or.inr (Or.inl hn)
              · exact Or.inr (Or.inr (h.mpr (Or.inl hn)))
              · exact Or.inr (Or.inr (h.mpr (Or.inr hn)))
        · rw [if_neg hprio]
          obtain ⟨h1, h2⟩ := ih (TreapTree.node ll la lk lp lr) rl a k p
            (by simp only [TreapTree.size]; omega)
            ⟨⟨hbll, hblr, hllt, hlgt⟩, hbrl, hlt, fun n hn => hgt n (Or.inl hn)⟩
          refine ⟨⟨h1, hbrr, ?_, hrgt⟩, ?_⟩
          · intro n hn
            rcases (h2 n).mp hn with hn | hn
            · exact Nat.lt_trans (hlt n hn) hrk
            · exact hrlt n hn
          · intro n
            have h := h2 n
            constructor
            · intro hn
              rcases hn with hn | hn | hn
              · rcases h.mp hn with hn | hn
                · exact Or.inl hn
                · exact Or.inr (Or.inl hn)
              · exact Or.inr (Or.inr (Or.inl hn))
              · exact Or.inr (Or.inr (Or.inr hn))
            · intro hn
              rcases hn with hn | hn | hn | hn
              · exact Or.inl (h.mpr (Or.inl hn))
              · exact Or.inl (h.mpr (Or.inr hn))
              · exact Or.inr (Or.inl hn)
              · exact Or.inr (Or.inr hn)

theorem TreapTree.remove_spec (addr key : Nat) : ∀ (t : TreapTree), TreapTree.BST t →
    (∀ m n, TreapTree.Has m t → TreapTree.Has n t → m.1 = n.1 → m = n) →
    TreapTree.Has (addr, key) t →
    ∃ t1, TreapTree.remove addr key t = some t1 ∧ TreapTree.BST t1 ∧
      (∀ n, TreapTree.Has n t1 ↔ TreapTree.Has n t ∧ n ≠ (addr, key)) := by
  intro t
  induction t with
  | nil => intro _ _ h; exact absurd h (by simp [TreapTree.Has])
  | node l a k p r ihl ihr =>
    intro hbst huniq hhas
    have hbst0 := hbst
    obtain ⟨hbl, hbr, hlt, hgt⟩ := hbst
    have hroot : TreapTree.Has (a, k) (TreapTree.node l a k p r) := Or.inr (Or.inl rfl)
    unfold TreapTree.remove
    by_cases haddr : a = addr
    · rw [if_pos haddr]
      have heq : (a, k) = (addr, key) := huniq _ _ hroot hhas haddr
      obtain ⟨h1, h2⟩ := TreapTree.remove_from_spec _ l r a k p (Nat.le_refl _) hbst0
      refine ⟨_, rfl, h1, ?_⟩
      intro n
      rw [h2 n, ← heq]
      constructor
      · intro hn
        rcases hn with hn | hn
        · refine ⟨Or.inl hn, ?_⟩
          intro h
          have := hlt n hn
          rw [h] at this
          exact Nat.lt_irrefl _ this
        · refine ⟨Or.inr (Or.inr hn), ?_⟩
          intro h
          have := hgt n hn
          rw [h] at this
          exact Nat.lt_irrefl _ this
      · rintro ⟨hn | hn | hn, hne⟩
        · exact Or.inl hn
        · exact absurd hn hne
        · exact Or.inr hn
    · rw [if_neg haddr]
      have hne : (addr, key) ≠ (a, k) := fun h => haddr (congrArg Prod.fst h).symm
      by_cases hkey : key < k
      · rw [if_pos hkey]
        have hin : TreapTree.Has (addr, key) l := by
          rcases hhas with h | h | h
          · exact h
          · exact absurd h hne
          · have := hgt _ h
            exact absurd this (by simp only; omega)
        obtain ⟨l1, hl1, hb1, hm1⟩ := ihl hbl
          (fun m n hm hn => huniq m n (Or.inl hm) (Or.inl hn)) hin
        rw [hl1]
        refine ⟨_, rfl, ⟨hb1, hbr, fun n hn => hlt n ((hm1 n).mp hn).1, hgt⟩, ?_⟩
        intro n
        have h := hm1 n
        constructor
        · intro hn
          rcases hn with hn | hn | hn
          · exact ⟨Or.inl (h.mp hn).1, (h.mp hn).2⟩
          · exact ⟨Or.inr (Or.inl hn), fun h2 => hne (h2.symm.trans hn)⟩
          · refine ⟨Or.inr (Or.inr hn), ?_⟩
            intro h2
            have := hgt n hn
            rw [h2] at this
            exact absurd this (by simp only; omega)
        · rintro ⟨hn | hn | hn, hne2⟩
          · exact Or.inl (h.mpr ⟨hn, hne2⟩)
          · exact Or.inr (Or.inl hn)
          · exact Or.inr (Or.inr hn)
      · rw [if_neg hkey]
        have hin : TreapTree.Has (addr, key) r := by
          rcases hhas with h | h | h
          · have := hlt _ h
            exact absurd this hkey
          · exact absurd h hne
          · exact h
        have hkey2 : k < key := hgt _ hin
        obtain ⟨r1, hr1, hb1, hm1⟩ := ihr hbr
          (fun m n hm hn => huniq m n (Or.inr (Or.inr hm)) (Or.inr (Or.inr hn))) hin
        rw [hr1]
        refine ⟨_, rfl, ⟨hbl, hb1, hlt, fun n hn => hgt n ((hm1 n).mp hn).1⟩, ?_⟩
        intro n
        have h := hm1 n
        constructor
        · intro hn
          rcases hn with hn | hn | hn
          · refine ⟨Or.inl hn, ?_⟩
            intro h2
            have := hlt n hn
            rw [h2] at this
            exact absurd this (by simp only; omega)
          · exact ⟨Or.inr (Or.inl hn), fun h2 => hne (h2.symm.trans hn)⟩
          · exact ⟨Or.inr (Or.inr (h.mp hn).1), (h.mp hn).2⟩
        · rintro ⟨hn | hn | hn, hne2⟩
          · exact Or.inl hn
          · exact Or.inr (Or.inl hn)
          · exact Or.inr (Or.inr (h.mpr ⟨hn, hne2⟩))

/-! ## C20: find after a sequence of inserts and removes -/

theorem Treap.Holds_empty : Treap.Holds Treap.empty [] :=
  ⟨trivial, fun n => by simp [Treap.empty, TreapTree.Has], List.Pairwise.nil⟩

theorem Treap.Holds_insert (t : Treap) (live : List (Nat × Nat)) (a k : Nat)
    (h : Treap.Holds t live) (hnew : ∀ n ∈ live, n.1 ≠ a ∧ n.2 ≠ k) :
    Treap.Holds (Treap.insert t a k) (live ++ [(a, k)]) := by
  obtain ⟨hbst, hmem, hpair⟩ := h
  obtain ⟨h1, h2⟩ := TreapTree.insert_at_spec t.prio a k t.root hbst
    (fun n hn => (hnew n ((hmem n).mp hn)).2)
  refine ⟨h1, ?_, ?_⟩
  · intro n
    show TreapTree.Has n (TreapTree.insert_at t.prio a k t.root) ↔ _
    rw [h2 n, hmem n, List.mem_append, List.mem_singleton]
    exact Or.comm
  · refine List.pairwise_append.mpr ⟨hpair, List.pairwise_singleton _ _, ?_⟩
    intro m hm n hn
    rw [List.mem_singleton] at hn
    rw [hn]
    exact hnew m hm

theorem Treap.Holds_remove (t : Treap) (live : List (Nat × Nat)) (a k : Nat)
    (h : Treap.Holds t live) (hin : (a, k) ∈ live) :
    ∃ t1, Treap.remove t a k = some t1 ∧ Treap.Holds t1 (live.erase (a, k)) := by
  obtain ⟨hbst, hmem, hpair⟩ := h
  have hsym : Symmetric (fun m n : Nat × Nat => m.1 ≠ n.1 ∧ m.2 ≠ n.2) :=
    fun m n hmn => ⟨fun h => hmn.1 h.symm, fun h => hmn.2 h.symm⟩
  have hnd : live.Nodup :=
    hpair.imp (fun {m n} hmn heq => hmn.1 (congrArg Prod.fst heq))
  have huniq : ∀ m n, TreapTree.Has m t.root → TreapTree.Has n t.root → m.1 = n.1 → m = n := by
    intro m n hm hn h1
    by_contra hne
    exact (hpair.forall hsym ((hmem m).mp hm) ((hmem n).mp hn) hne).1 h1
  obtain ⟨r1, hr1, hb1, hm1⟩ := TreapTree.remove_spec a k t.root hbst huniq ((hmem _).mpr hin)
  refine ⟨{ t with root := r1 }, ?_, hb1, ?_, hpair.sublist (List.erase_sublist _ _)⟩
  · unfold Treap.remove
    rw [hr1]
    rfl
  · intro n
    show TreapTree.Has n r1 ↔ _
    rw [hm1 n, hmem n, hnd.mem_erase_iff]
    exact And.comm

theorem Treap.Holds_run : ∀ (ops : List TreapOp) (t : Treap) (live : List (Nat × Nat)),
    Treap.Holds t live → TreapOp.admissible live ops = true →
    ∃ t1, Treap.run t ops = some t1 ∧ Treap.Holds t1 (TreapOp.live live ops) := by
  intro ops
  induction ops with
  | nil => intro t live h _; exact ⟨t, rfl, h⟩
  | cons op ops ih =>
    intro t live h hadm
    cases op with
    | insert a k =>
      rw [TreapOp.admissible, Bool.and_eq_true, List.all_eq_true] at hadm
      have hnew : ∀ n ∈ live, n.1 ≠ a ∧ n.2 ≠ k := by
        intro n hn
        have h1 := hadm.1 n hn
        rw [Bool.and_eq_true, decide_eq_true_eq, decide_eq_true_eq] at h1
        exact h1
      obtain ⟨t1, ht1, hh1⟩ := ih _ _ (Treap.Holds_insert t live a k h hnew) hadm.2
      refine ⟨t1, ?_, ?_⟩
      · rw [Treap.run, Treap.step, Option.some_bind]; exact ht1
      · rw [TreapOp.live]; exact hh1
    | remove a k =>
      rw [TreapOp.admissible, Bool.and_eq_true] at hadm
      have hin : (a, k) ∈ live := by
        have h1 := hadm.1
        simpa using h1
      obtain ⟨t1, ht1, hh1⟩ := Treap.Holds_remove t live a k h hin
      obtain ⟨t2, ht2, hh2⟩ := ih t1 _ hh1 hadm.2
      refine ⟨t2, ?_, ?_⟩
      · rw [Treap.run, Treap.step, ht1, Option.some_bind]; exact ht2
      · rw [TreapOp.live]; exact hh2

theorem Treap.find_of_holds (t : Treap) (live : List (Nat × Nat)) (h : Treap.Holds t live)
    (key : Nat) : Treap.find t key = TreapOp.lookup live key := by
  obtain ⟨hbst, hmem, _⟩ := h
  unfold Treap.find TreapOp.lookup
  cases hf : live.find? (fun n => n.2 == key) with
  | none =>
    rw [List.find?_eq_none] at hf
    rw [TreapTree.find_none key t.root (fun n hn => by
      have := hf n ((hmem n).mp hn)
      simpa using this)]
    rfl
  | some n =>
    have hn : n ∈ live := List.mem_of_find?_eq_some hf
    have hk : n.2 = key := by
      have := List.find?_some hf
      simpa using this
    have hhas : TreapTree.Has (n.1, key) t.root := by
      rw [← hk]
      exact (hmem n).mpr hn
    rw [TreapTree.find_of_has key n.1 t.root hbst hhas]
    rfl

/-- C20: every sequence of `insert` calls on nodes that are not in the tree and whose
keys differ from all keys in the tree, and of `remove` calls on nodes that are in the
tree, takes the empty treap to a treap in which `find(k)` returns the node with key
`k` that has been inserted and not removed since, and the null pointer when there is
no such node. -/
theorem Treap.find_after_calls (ops : List TreapOp)
    (hadm : TreapOp.admissible [] ops = true) :
    ∃ t, Treap.run Treap.empty ops = some t ∧
      (∀ key, Treap.find t key = TreapOp.lookup (TreapOp.live [] ops) key) ∧
      (∀ a key, (a, key) ∈ TreapOp.live [] ops → Treap.find t key = some a) ∧
      (∀ key, (∀ a, (a, key) ∉ TreapOp.live [] ops) → Treap.find t key = none) := by
  obtain ⟨t, hrun, hholds⟩ := Treap.Holds_run ops Treap.empty [] Treap.Holds_empty hadm
  refine ⟨t, hrun, Treap.find_of_holds t _ hholds, ?_, ?_⟩
  · intro a key hin
    exact TreapTree.find_of_has key a t.root hholds.1 ((hholds.2.1 _).mpr hin)
  · intro key hno
    refine TreapTree.find_none key t.root ?_
    intro n hn hk
    have hin := (hholds.2.1 n).mp hn
    exact hno n.1 (by rw [← hk]; exact hin)

theorem Treap.find_after_calls_witness :
    TreapOp.admissible [] treapCalls = true ∧
    ∃ t, Treap.run Treap.empty treapCalls = some t ∧
      (∀ key, Treap.find t key = TreapOp.lookup (TreapOp.live [] treapCalls) key) ∧
      (∀ a key, (a, key) ∈ TreapOp.live [] treapCalls → Treap.find t key = some a) ∧
      (∀ key, (∀ a, (a, key) ∉ TreapOp.live [] treapCalls) → Treap.find t key = none) :=
  ⟨by decide, Treap.find_after_calls treapCalls (by decide)⟩

/-! ## Treap: the heap property under insert and remove -/

theorem TreapTree.root_prio_ge_mono {q1 q : Int} (hq : q1 ≤ q) : ∀ (t : TreapTree),
    TreapTree.root_prio_ge q t → TreapTree.root_prio_ge q1 t := by
  intro t
  cases t with
  | nil => intro _; trivial
  | node l a k p r => intro h; exact Int.le_trans hq h

theorem TreapTree.prioGe_of_heap (q : Int) : ∀ (t : TreapTree), TreapTree.Heap t →
    TreapTree.root_prio_ge q t → TreapTree.PrioGe q t := by
  intro t
  induction t generalizing q with
  | nil => intro _ _; trivial
  | node l a k p r ihl ihr =>
    intro hheap hroot
    obtain ⟨hl, hr, hpl, hpr⟩ := hheap
    have hq : q ≤ toInt32 p := hroot
    exact ⟨hq, ihl q hl (TreapTree.root_prio_ge_mono hq l hpl),
      ihr q hr (TreapTree.root_prio_ge_mono hq r hpr)⟩

theorem TreapTree.root_of_prioGe (q : Int) : ∀ (t : TreapTree), TreapTree.PrioGe q t →
    TreapTree.root_prio_ge q t := by
  intro t
  cases t with
  | nil => intro _; trivial
  | node l a k p r => intro h; exact h.1

theorem TreapTree.split_prioGe (key : Nat) (q : Int) : ∀ (t : TreapTree),
    TreapTree.PrioGe q t →
    TreapTree.PrioGe q (TreapTree.split key t).1 ∧
      TreapTree.PrioGe q (TreapTree.split key t).2 := by
  intro t
  induction t with
  | nil => intro _; exact ⟨trivial, trivial⟩
  | node l a k p r ihl ihr =>
    intro h
    obtain ⟨hp, hl, hr⟩ := h
    unfold TreapTree.split
    by_cases hk : key < k
    · rw [if_pos hk]
      exact ⟨(ihl hl).1, hp, (ihl hl).2, hr⟩
    · rw [if_neg hk]
      exact ⟨⟨hp, hl, (ihr hr).1⟩, (ihr hr).2⟩

theorem TreapTree.split_heap (key : Nat) : ∀ (t : TreapTree), TreapTree.Heap t →
    TreapTree.Heap (TreapTree.split key t).1 ∧ TreapTree.Heap (TreapTree.split key t).2 := by
  intro t
  induction t with
  | nil => intro _; exact ⟨trivial, trivial⟩
  | node l a k p r ihl ihr =>
    intro h
    obtain ⟨hl, hr, hpl, hpr⟩ := h
    unfold TreapTree.split
    by_cases hk : key < k
    · rw [if_pos hk]
      refine ⟨(ihl hl).1, (ihl hl).2, hr, ?_, hpr⟩
      exact TreapTree.root_of_prioGe _ _
        (TreapTree.split_prioGe key _ l (TreapTree.prioGe_of_heap _ l hl hpl)).2
    · rw [if_neg hk]
      refine ⟨⟨hl, (ihr hr).1, hpl, ?_⟩, (ihr hr).2⟩
      exact TreapTree.root_of_prioGe _ _
        (TreapTree.split_prioGe key _ r (TreapTree.prioGe_of_heap _ r hr hpr)).1

theorem TreapTree.insert_at_heap (prio addr key : Nat) : ∀ (t : TreapTree),
    TreapTree.Heap t →
    TreapTree.Heap (TreapTree.insert_at prio addr key t) ∧
      ∀ q : Int, q ≤ toInt32 prio → TreapTree.root_prio_ge q t →
        TreapTree.root_prio_ge q (TreapTree.insert_at prio addr key t) := by
  intro t
  induction t with
  | nil =>
    intro _
    exact ⟨⟨trivial, trivial, trivial, trivial⟩, fun q hq _ => hq⟩
  | node l a k p r ihl ihr =>
    intro h
    have h0 := h
    obtain ⟨hl, hr, hpl, hpr⟩ := h
    unfold TreapTree.insert_at
    by_cases hp : toInt32 p < toInt32 prio
    · rw [if_pos hp]
      by_cases hk : key < k
      · rw [if_pos hk]
        exact ⟨⟨(ihl hl).1, hr, (ihl hl).2 _ (Int.le_of_lt hp) hpl, hpr⟩, fun q _ hq => hq⟩
      · rw [if_neg hk]
        exact ⟨⟨hl, (ihr hr).1, hpl, (ihr hr).2 _ (Int.le_of_lt hp) hpr⟩, fun q _ hq => hq⟩
    · rw [if_neg hp]
      have hge : TreapTree.PrioGe (toInt32 prio) (TreapTree.node l a k p r) :=
        TreapTree.prioGe_of_heap _ _ h0 (Int.not_lt.mp hp)
      have hs := TreapTree.split_prioGe key _ _ hge
      have hh := TreapTree.split_heap key _ h0
      exact ⟨⟨hh.1, hh.2, TreapTree.root_of_prioGe _ _ hs.1, TreapTree.root_of_prioGe _ _ hs.2⟩,
        fun q hq _ => hq⟩

theorem TreapTree.remove_from_heap : ∀ (fuel : Nat) (l r : TreapTree) (a k p : Nat),
    (TreapTree.node l a k p r).size ≤ fuel → TreapTree.Heap (TreapTree.node l a k p r) →
    TreapTree.Heap (TreapTree.remove_from fuel (TreapTree.node l a k p r)) ∧
      ∀ q : Int, TreapTree.root_prio_ge q l → TreapTree.root_prio_ge q r →
        TreapTree.root_prio_ge q (TreapTree.remove_from fuel (TreapTree.node l a k p r)) := by
  intro fuel
  induction fuel with
  | zero =>
    intro l r a k p hsize _
    simp [TreapTree.size] at hsize
  | succ f ih =>
    intro l r a k p hsize hheap
    obtain ⟨hl, hr, hpl, hpr⟩ := hheap
    cases l with
    | nil =>
      cases r with
      | nil =>
        simp only [TreapTree.remove_from]
        exact ⟨trivial, fun _ _ _ => trivial⟩
      | node rl ra rk rp rr =>
        simp only [TreapTree.remove_from]
        exact ⟨hr, fun _ _ h => h⟩
    | node ll la lk lp lr =>
      cases r with
      | nil =>
        simp only [TreapTree.remove_from]
        exact ⟨hl, fun _ h _ => h⟩
      | node rl ra rk rp rr =>
        obtain ⟨hll, hlr, hpll, hplr⟩ := hl
        obtain ⟨hrl, hrr, hprl, hprr⟩ := hr
        have hplp : toInt32 p ≤ toInt32 lp := hpl
        have hprp : toInt32 p ≤ toInt32 rp := hpr
        simp only [TreapTree.size] at hsize
        simp only [TreapTree.remove_from]
        by_cases hprio : toInt32 lp < toInt32 rp
        · rw [if_pos hprio]
          obtain ⟨h1, h2⟩ := ih lr (TreapTree.node rl ra rk rp rr) a k p
            (by simp only [TreapTree.size]; omega)
            ⟨hlr, ⟨hrl, hrr, hprl, hprr⟩, TreapTree.root_prio_ge_mono hplp lr hplr, hprp⟩
          exact ⟨⟨hll, h1, hpll, h2 _ hplr (Int.le_of_lt hprio)⟩, fun q hq _ => hq⟩
        · rw [if_neg hprio]
          obtain ⟨h1, h2⟩ := ih (TreapTree.node ll la lk lp lr) rl a k p
            (by simp only [TreapTree.size]; omega)
            ⟨⟨hll, hlr, hpll, hplr⟩, hrl, hplp, TreapTree.root_prio_ge_mono hprp rl hprl⟩
          exact ⟨⟨h1, hrr, h2 _ (Int.not_lt.mp hprio) hprl, hprr⟩, fun q _ hq => hq⟩

theorem TreapTree.remove_heap (addr key : Nat) : ∀ (t t1 : TreapTree), TreapTree.Heap t →
    TreapTree.remove addr key t = some t1 →
    TreapTree.Heap t1 ∧
      ∀ q : Int, TreapTree.root_prio_ge q t → TreapTree.root_prio_ge q t1 := by
  intro t
  induction t with
  | nil => intro t1 _ h; simp [TreapTree.remove] at h
  | node l a k p r ihl ihr =>
    intro t1 hheap hrem
    have h0 := hheap
    obtain ⟨hl, hr, hpl, hpr⟩ := hheap
    unfold TreapTree.remove at hrem
    by_cases haddr : a = addr
    · rw [if_pos haddr] at hrem
      obtain ⟨h1, h2⟩ := TreapTree.remove_from_heap _ l r a k p (Nat.le_refl _) h0
      have heq : TreapTree.remove_from (TreapTree.node l a k p r).size (TreapTree.node l a k p r)
          = t1 := Option.some.inj hrem
      rw [← heq]
      refine ⟨h1, fun q hq => h2 q ?_ ?_⟩
      · exact TreapTree.root_prio_ge_mono hq l hpl
      · exact TreapTree.root_prio_ge_mono hq r hpr
    · rw [if_neg haddr] at hrem
      by_cases hkey : key < k
      · rw [if_pos hkey] at hrem
        cases hl1 : TreapTree.remove addr key l with
        | none => rw [hl1] at hrem; simp at hrem
        | some l1 =>
          rw [hl1] at hrem
          have heq : TreapTree.node l1 a k p r = t1 := Option.some.inj hrem
          rw [← heq]
          obtain ⟨h1, h2⟩ := ihl l1 hl hl1
          exact ⟨⟨h1, hr, h2 _ hpl, hpr⟩, fun q hq => hq⟩
      · rw [if_neg hkey] at hrem
        cases hr1 : TreapTree.remove addr key r with
        | none => rw [hr1] at hrem; simp at hrem
        | some r1 =>
          rw [hr1] at hrem
          have heq : TreapTree.node l a k p r1 = t1 := Option.some.inj hrem
          rw [← heq]
          obtain ⟨h1, h2⟩ := ihr r1 hr hr1
          exact ⟨⟨hl, h1, hpl, h2 _ hpr⟩, fun q hq => hq⟩

theorem Treap.heap_run : ∀ (ops : List TreapOp) (t t1 : Treap), TreapTree.Heap t.root →
    Treap.run t ops = some t1 → TreapTree.Heap t1.root := by
  intro ops
  induction ops with
  | nil =>
    intro t t1 h hrun
    rw [Treap.run] at hrun
    rw [← Option.some.inj hrun]
    exact h
  | cons op ops ih =>
    intro t t1 h hrun
    cases op with
    | insert a k =>
      rw [Treap.run, Treap.step, Option.some_bind] at hrun
      exact ih _ t1 (TreapTree.insert_at_heap t.prio a k t.root h).1 hrun
    | remove a k =>
      rw [Treap.run, Treap.step] at hrun
      cases hrem : TreapTree.remove a k t.root with
      | none =>
        rw [Treap.remove, hrem] at hrun
        simp at hrun
      | some r1 =>
        rw [Treap.remove, hrem, Option.map_some', Option.some_bind] at hrun
        exact ih _ t1 (TreapTree.remove_heap a k t.root r1 h hrem).1 hrun

/-! ## C21: the treap invariant -/

/-- C21: every sequence of `insert` calls on nodes that are not in the tree and whose
keys differ from all keys in the tree, and of `remove` calls on nodes that are in the
tree, takes the empty treap to a treap that is a search tree (all keys in the left
subtree of a node are smaller and all keys in its right subtree are bigger than its
key) and a heap (no node has a smaller priority than its parent). -/
theorem Treap.invariant_after_calls (ops : List TreapOp)
    (hadm : TreapOp.admissible [] ops = true) :
    ∃ t, Treap.run Treap.empty ops = some t ∧ TreapTree.BST t.root ∧
      TreapTree.Heap t.root := by
  obtain ⟨t, hrun, hholds⟩ := Treap.Holds_run ops Treap.empty [] Treap.Holds_empty hadm
  exact ⟨t, hrun, hholds.1, Treap.heap_run ops Treap.empty t trivial hrun⟩

theorem Treap.invariant_after_calls_witness :
    TreapOp.admissible [] treapCalls = true ∧
    ∃ t, Treap.run Treap.empty treapCalls = some t ∧ TreapTree.BST t.root ∧
      TreapTree.Heap t.root :=
  ⟨by decide, Treap.invariant_after_calls treapCalls (by decide)⟩

/-! ## ChildMemory::find_free while the alignment does not overflow -/

theorem wand_wnot_pow2 (w i x : Nat) (hi : i ≤ w) (hx : x < 2 ^ w) :
    x &&& wnot w (wsub w (2 ^ i) 1) = 2 ^ i * (x / 2 ^ i) := by
  have hpos : 0 < 2 ^ i := two_pow_pos_nat i
  have hle : 2 ^ i ≤ 2 ^ w := Nat.pow_le_pow_right (by decide) hi
  have hsub : wsub w (2 ^ i) 1 = 2 ^ i - 1 := by
    unfold wsub
    by_cases hw : w = 0
    · subst hw
      have hi0 : i = 0 := by omega
      subst hi0
      simp
    · have h1 : (1 : Nat) < 2 ^ w := Nat.one_lt_two_pow hw
      rw [Nat.mod_eq_of_lt h1]
      by_cases hiw : 2 ^ i < 2 ^ w
      · rw [Nat.mod_eq_of_lt hiw]
        have h2 : 2 ^ i + 2 ^ w - 1 = 2 ^ i - 1 + 2 ^ w := by omega
        rw [h2, Nat.add_mod_right, Nat.mod_eq_of_lt (by omega)]
      · have heq : 2 ^ i = 2 ^ w := by omega
        rw [heq, Nat.mod_self, Nat.zero_add, Nat.mod_eq_of_lt (by omega)]
  have hmask : wnot w (wsub w (2 ^ i) 1) = 2 ^ i * (2 ^ (w - i) - 1) := by
    rw [hsub]
    unfold wnot
    rw [Nat.mod_eq_of_lt (by omega), Nat.mul_sub, Nat.mul_one, ← Nat.pow_add,
      Nat.add_sub_cancel' hi]
    omega
  rw [hmask]
  apply Nat.eq_of_testBit_eq
  intro j
  rw [Nat.testBit_and, Nat.testBit_mul_pow_two, Nat.testBit_mul_pow_two,
    Nat.testBit_two_pow_sub_one, ← Nat.shiftRight_eq_div_pow, Nat.testBit_shiftRight]
  by_cases hj : i ≤ j
  · have e : i + (j - i) = j := by omega
    rw [e]
    by_cases hjw : j < w
    · simp [hj, hjw]
      intro _
      omega
    · have hfalse : x.testBit j = false :=
        Nat.testBit_eq_false_of_lt (Nat.lt_of_lt_of_le hx (Nat.pow_le_pow_right (by decide)
          (by omega)))
      simp [hfalse]
  · simp [hj]

theorem ChildMemory.list_end_max (w K : Nat) (cm : ChildMemory) (hK : K < 2 ^ w)
    (hsorted : cm.list.Pairwise (fun a b => a.desc.virt + a.desc.size ≤ b.desc.virt))
    (hend : ∀ ds ∈ cm.list, ds.desc.virt + ds.desc.size ≤ K) :
    ChildMemory.list_end w cm ≤ K ∧
      ∀ ds ∈ cm.list, ds.desc.virt + ds.desc.size ≤ ChildMemory.list_end w cm := by
  unfold ChildMemory.list_end
  cases hlast : cm.list.getLast? with
  | none =>
    have hnil : cm.list = [] := List.getLast?_eq_none_iff.mp hlast
    refine ⟨Nat.zero_le _, ?_⟩
    intro ds hds
    rw [hnil] at hds
    exact absurd hds (List.not_mem_nil _)
  | some last =>
    have hsplit : cm.list.dropLast ++ [last] = cm.list :=
      List.dropLast_append_getLast? last hlast
    have hmem : last ∈ cm.list := by
      rw [← hsplit]
      exact List.mem_append_right _ (List.mem_singleton_self _)
    have hlastK := hend last hmem
    simp only []
    rw [wadd_of_lt (by omega)]
    refine ⟨hlastK, ?_⟩
    intro ds hds
    rw [← hsplit] at hds hsorted
    rcases List.mem_append.mp hds with h | h
    · have := (List.pairwise_append.mp hsorted).2.2 ds h last (List.mem_singleton_self _)
      omega
    · rw [List.mem_singleton] at h
      rw [h]

theorem ChildMemory.find_free_spec (w j i K : Nat) (cm : ChildMemory) (size : Nat)
    (hsorted : cm.list.Pairwise (fun a b => a.desc.virt + a.desc.size ≤ b.desc.virt))
    (hend : ∀ ds ∈ cm.list, ds.desc.virt + ds.desc.size ≤ K) (hK : K < 2 ^ w)
    (hroom : ChildMemory.list_end w cm + 2 * 2 ^ j + 2 ^ i ≤ 2 ^ w) (hsize : size < 2 ^ w) :
    ∃ e, e % 2 ^ i = 0 ∧ ChildMemory.list_end w cm + 2 ^ j ≤ e ∧
      (∀ ds ∈ cm.list, ds.desc.virt + ds.desc.size + 2 ^ j ≤ e) ∧
      ChildMemory.find_free w (2 ^ j) K cm size (2 ^ i) =
        if K < e + size then Except.error ErrorCode.E_CAPACITY else Except.ok e := by
  obtain ⟨_, hmax⟩ := ChildMemory.list_end_max w K cm hK hsorted hend
  have hP : 0 < 2 ^ j := two_pow_pos_nat j
  have hA : 0 < 2 ^ i := two_pow_pos_nat i
  have hjw : j ≤ w := by
    by_contra hlt
    have := Nat.pow_lt_pow_right (by decide : 1 < 2) (Nat.lt_of_not_le hlt)
    omega
  have hiw : i ≤ w := by
    by_contra hlt
    have := Nat.pow_lt_pow_right (by decide : 1 < 2) (Nat.lt_of_not_le hlt)
    omega
  have hx1 : wsub w (wadd w (ChildMemory.list_end w cm) (wmul w (2 ^ j) 2)) 1 =
      ChildMemory.list_end w cm + 2 * 2 ^ j - 1 := by
    rw [wmul_of_lt (by omega), wadd_of_lt (by omega), wsub_of_le (by omega) (by omega)]
    omega
  have hd1 := Nat.div_add_mod (ChildMemory.list_end w cm + 2 * 2 ^ j - 1) (2 ^ j)
  have hm1 := Nat.mod_lt (ChildMemory.list_end w cm + 2 * 2 ^ j - 1) hP
  have he1 : wsub w (wadd w (ChildMemory.list_end w cm) (wmul w (2 ^ j) 2)) 1 &&&
      wnot w (wsub w (2 ^ j) 1) =
      2 ^ j * ((ChildMemory.list_end w cm + 2 * 2 ^ j - 1) / 2 ^ j) := by
    rw [hx1, wand_wnot_pow2 w j _ hjw (by omega)]
  have hx2 : wsub w (wadd w (2 ^ j * ((ChildMemory.list_end w cm + 2 * 2 ^ j - 1) / 2 ^ j))
      (2 ^ i)) 1 =
      2 ^ j * ((ChildMemory.list_end w cm + 2 * 2 ^ j - 1) / 2 ^ j) + 2 ^ i - 1 := by
    rw [wadd_of_lt (by omega), wsub_of_le (by omega) (by omega)]
  have hd2 := Nat.div_add_mod
    (2 ^ j * ((ChildMemory.list_end w cm + 2 * 2 ^ j - 1) / 2 ^ j) + 2 ^ i - 1) (2 ^ i)
  have hm2 := Nat.mod_lt
    (2 ^ j * ((ChildMemory.list_end w cm + 2 * 2 ^ j - 1) / 2 ^ j) + 2 ^ i - 1) hA
  have he2 : wsub w (wadd w (2 ^ j * ((ChildMemory.list_end w cm + 2 * 2 ^ j - 1) / 2 ^ j))
      (2 ^ i)) 1 &&& wnot w (wsub w (2 ^ i) 1) =
      2 ^ i * ((2 ^ j * ((ChildMemory.list_end w cm + 2 * 2 ^ j - 1) / 2 ^ j) + 2 ^ i - 1)
        / 2 ^ i) := by
    rw [hx2, wand_wnot_pow2 w i _ hiw (by omega)]
  refine ⟨2 ^ i * ((2 ^ j * ((ChildMemory.list_end w cm + 2 * 2 ^ j - 1) / 2 ^ j) + 2 ^ i - 1)
    / 2 ^ i), Nat.mul_mod_right _ _, by omega, ?_, ?_⟩
  · intro ds hds
    have := hmax ds hds
    omega
  · unfold ChildMemory.find_free
    simp only []
    rw [he1, he2]
    generalize 2 ^ i * ((2 ^ j * ((ChildMemory.list_end w cm + 2 * 2 ^ j - 1) / 2 ^ j) +
      2 ^ i - 1) / 2 ^ i) = e at hd2 ⊢
    have he : e < 2 ^ w := by omega
    by_cases hfit : e + size < 2 ^ w
    · rw [wadd_of_lt hfit]
      by_cases hk : K < e + size
      · rw [if_pos (Or.inr hk), if_pos hk]
      · rw [if_neg (by omega), if_neg hk]
    · have hwrap : wadd w e size = e + size - 2 ^ w := by
        unfold wadd
        rw [Nat.mod_eq_sub_mod (by omega), Nat.mod_eq_of_lt (by omega)]
      rw [hwrap, if_pos (Or.inl (by omega)), if_pos (by omega)]

/-! ## C22: a free range in the address space of a child -/

/-- C22: on a machine of 32-bit words with pages of 0x1000 bytes and the kernel at
0xC0000000, a child has two dataspaces of one page, at 0 and at 0x80000000. They do
not overlap, are sorted and end below the kernel, and 0x80000000 is a power of two.
`find_free(0x1000, 0x80000000)` returns the address 0: rounding 0x80002000 up to the
alignment overflows the word, and only the addition of the size is checked. The
address is not above the last dataspace, and `[0, 0x1000)` is the range of the first
dataspace. -/
theorem ChildMemory.find_free_align_overflow :
    childMemoryTwo.list.map (fun ds => (ds.desc.virt, ds.desc.size)) =
      [(0, 0x1000), (0x80000000, 0x1000)] ∧
    IsPow2 0x80000000 ∧
    ∃ e, ChildMemory.find_free 32 0x1000 0xC0000000 childMemoryTwo 0x1000 0x80000000 =
      Except.ok e ∧ e = 0 :=
  ⟨by decide, ⟨31, by norm_num⟩, 0, rfl, rfl⟩

/-! ## VGAStream: the column of the cursor -/

theorem VGAStream.x_after_pos (s : VGAStream) (x y : Nat) (hx : x < VGAStream.COLS)
    (hy : y < VGAStream.ROWS) :
    (VGAStream.pos s x y).x = x ∧
      (VGAStream.pos s x y).y = (y * VGAStream.COLS + x) / VGAStream.ROWS := by
  unfold VGAStream.COLS at hx
  unfold VGAStream.ROWS at hy
  have h1 : wmul 32 y VGAStream.COLS = y * 80 := by
    unfold VGAStream.COLS
    exact wmul_of_lt (by omega)
  have h2 : wadd 32 (y * 80) x = y * 80 + x := wadd_of_lt (by omega)
  unfold VGAStream.x VGAStream.y VGAStream.pos
  simp only []
  rw [h1, h2]
  unfold VGAStream.COLS VGAStream.ROWS
  constructor
  · omega
  · rfl

/-! ## C23: the cursor position of a VGAStream -/

/-- C23: after `pos(0, 1)`, the first column of the second row, `x()` returns 0 but
`y()` returns 3 and not 1: the position is `1 * COLS + 0 = 80`, and `y()` divides it
by `ROWS = 25`, not by the length `COLS = 80` of a row. -/
theorem VGAStream.y_after_pos :
    (VGAStream.pos vgaStart 0 1)._pos = 80 ∧ (VGAStream.pos vgaStart 0 1).x = 0 ∧
      (VGAStream.pos vgaStart 0 1).y = 3 :=
  ⟨by decide, by decide, by decide⟩

/-! ## C24: strstr -/

/-- C24: `strstr("aaab", "aab")` returns `nullptr`, although "aab" occurs in "aaab"
from the second character on: after the match at the first character has failed at
the third one, the search goes on at the third character and never tries the second
one. -/
theorem strstr_misses_occurrence :
    (List.range 5).map (fun i => memStrstr (100 + i)) = [97, 97, 97, 98, 0] ∧
    (List.range 4).map (fun i => memStrstr (200 + i)) = [97, 97, 98, 0] ∧
    strstr 64 16 memStrstr 100 200 = some none :=
  ⟨by decide, by decide, by decide⟩

/-! ## C25: strcpy -/

/-- C25: `strcpy(dst, "ab")` into a buffer that holds "XXXX" returns `dst` and leaves
"abXX" in the buffer: the loop ends at the NUL of the source without storing one, so
the length of the string at `dst` is 4 and not 2. -/
theorem strcpy_stores_no_terminator :
    strlen 64 16 memStrcpy 200 = some 2 ∧
    (strcpy 64 16 memStrcpy 100 200).map
        (fun r => (r.2, (List.range 5).map (fun i => r.1 (100 + i)))) =
      some (100, [97, 98, 88, 88, 0]) ∧
    (strcpy 64 16 memStrcpy 100 200).bind (fun r => strlen 64 16 r.1 100) = some 4 :=
  ⟨by decide, by decide, by decide⟩

/-! ## C26: strncmp -/

/-- C26: `strncmp("ab", "ab", 5)` returns -1 and not 0: the loop ends at the NUL of
both strings with `rem = 3`, and the statements after the loop return 0 only for
`rem <= 0`. With the count 2 the same strings compare as equal. -/
theorem strncmp_equal_strings :
    (List.range 3).map (fun i => memEqual (100 + i)) =
      (List.range 3).map (fun i => memEqual (200 + i)) ∧
    strncmp 64 16 memEqual 100 200 5 = some (-1) ∧
    strncmp 64 16 memEqual 100 200 2 = some 0 :=
  ⟨by decide, by decide, by decide⟩

/-! ## memcpy and memmove: blocks copied upwards and downwards -/

theorem copy_obj_zero (mem : Nat → Nat) (d s : Nat) : copy_obj 0 mem d s = mem := by
  funext a
  simp only [copy_obj]
  rw [if_neg (by omega)]

theorem copy_obj_up (mem : Nat → Nat) (d s m n : Nat) (hds : d ≤ s) :
    copy_obj n (copy_obj m mem d s) (d + m) (s + m) = copy_obj (m + n) mem d s := by
  funext a
  simp only [copy_obj]
  by_cases h1 : d + m ≤ a ∧ a < d + m + n
  · rw [if_pos h1, if_neg (by omega), if_pos (by omega)]
    congr 1
    omega
  · rw [if_neg h1]
    by_cases h3 : d ≤ a ∧ a < d + m
    · rw [if_pos h3, if_pos (by omega)]
    · rw [if_neg h3, if_neg (by omega)]

theorem copy_obj_down (mem : Nat → Nat) (d s m n : Nat) (hsd : s ≤ d) :
    copy_obj m (copy_obj n mem (d + m) (s + m)) d s = copy_obj (m + n) mem d s := by
  funext a
  simp only [copy_obj]
  by_cases h1 : d ≤ a ∧ a < d + m
  · rw [if_pos h1, if_neg (by omega), if_pos (by omega)]
  · rw [if_neg h1]
    by_cases h3 : d + m ≤ a ∧ a < d + m + n
    · rw [if_pos h3, if_pos (by omega)]
      congr 1
      omega
    · rw [if_neg h3, if_neg (by omega)]

theorem CopyState.up_step (w : Nat) (mem : Nat → Nat) (dest src count k n : Nat)
    (hds : dest ≤ src) (hsrc : src + count < 2 ^ w) (hk : k + n ≤ count) :
    ({ mem := copy_obj n (CopyState.up mem dest src count k).mem
                (CopyState.up mem dest src count k).dest (CopyState.up mem dest src count k).src
       dest := wadd w (CopyState.up mem dest src count k).dest n
       src := wadd w (CopyState.up mem dest src count k).src n
       len := wsub w (CopyState.up mem dest src count k).len n } : CopyState) =
      CopyState.up mem dest src count (k + n) := by
  simp only [CopyState.up]
  rw [copy_obj_up _ _ _ _ _ hds, wadd_of_lt (by omega), wadd_of_lt (by omega),
    wsub_of_le (by omega) (by omega)]
  congr 1 <;> omega

theorem memcpy_align_spec (w W : Nat) (mem : Nat → Nat) (dest src count : Nat)
    (hds : dest ≤ src) (hsrc : src + count < 2 ^ w) : ∀ (fuel k : Nat),
    k ≤ count → count - k < fuel →
    ∃ k1, k ≤ k1 ∧ k1 ≤ count ∧
      memcpy_align w W fuel (CopyState.up mem dest src count k) =
        some (CopyState.up mem dest src count k1) := by
  intro fuel
  induction fuel with
  | zero => intro k _ h; omega
  | succ f ih =>
    intro k hk hf
    rw [memcpy_align]
    by_cases hg : 0 < (CopyState.up mem dest src count k).len ∧
        (CopyState.up mem dest src count k).dest % W ≠ 0
    · rw [if_pos hg]
      have hlen : 0 < count - k := hg.1
      rw [CopyState.up_step w mem dest src count k 1 hds hsrc (by omega)]
      obtain ⟨k1, h1, h2, h3⟩ := ih (k + 1) (by omega) (by omega)
      exact ⟨k1, by omega, h2, h3⟩
    · rw [if_neg hg]
      exact ⟨k, Nat.le_refl _, hk, rfl⟩

theorem copy_words_up (w W : Nat) (mem : Nat → Nat) (dest src count k : Nat)
    (hds : dest ≤ src) (hsrc : src + count < 2 ^ w) : ∀ (j : Nat), k + j * W ≤ count →
    (List.range j).foldl
      (fun m i => copy_obj W m (wadd w (dest + k) (wmul w i W)) (wadd w (src + k) (wmul w i W)))
      (copy_obj k mem dest src) = copy_obj (k + j * W) mem dest src := by
  intro j
  induction j with
  | zero => intro _; simp
  | succ j ih =>
    intro hj
    rw [Nat.succ_mul] at hj
    rw [List.range_succ, List.foldl_append, ih (by omega)]
    simp only [List.foldl]
    rw [wmul_of_lt (by omega), wadd_of_lt (by omega), wadd_of_lt (by omega),
      Nat.add_assoc dest, Nat.add_assoc src, copy_obj_up _ _ _ _ _ hds, Nat.succ_mul,
      Nat.add_assoc]

theorem CopyState.up_step8 (w W : Nat) (mem : Nat → Nat) (dest src count k : Nat)
    (hds : dest ≤ src) (hsrc : src + count < 2 ^ w) (hW8 : W * 8 < 2 ^ w)
    (hk : k + 8 * W ≤ count) :
    ({ mem := copy_words8 w W (CopyState.up mem dest src count k).mem
                (CopyState.up mem dest src count k).dest (CopyState.up mem dest src count k).src
       dest := wadd w (CopyState.up mem dest src count k).dest (wmul w 8 W)
       src := wadd w (CopyState.up mem dest src count k).src (wmul w 8 W)
       len := wsub w (CopyState.up mem dest src count k).len (wmul w W 8) } : CopyState) =
      CopyState.up mem dest src count (k + 8 * W) := by
  simp only [CopyState.up, copy_words8]
  rw [copy_words_up w W mem dest src count k hds hsrc 8 (by omega),
    wmul_of_lt (by omega), wmul_of_lt hW8, wadd_of_lt (by omega), wadd_of_lt (by omega),
    wsub_of_le (by omega) (by omega)]
  congr 1 <;> omega

theorem memcpy_words8_spec (w W : Nat) (mem : Nat → Nat) (dest src count : Nat)
    (hds : dest ≤ src) (hsrc : src + count < 2 ^ w) (hW : 0 < W) (hW8 : W * 8 < 2 ^ w) :
    ∀ (fuel k : Nat), k ≤ count → count - k < fuel →
    ∃ k1, k ≤ k1 ∧ k1 ≤ count ∧
      memcpy_words8 w W fuel (CopyState.up mem dest src count k) =
        some (CopyState.up mem dest src count k1) := by
  intro fuel
  induction fuel with
  | zero => intro k _ h; omega
  | succ f ih =>
    intro k hk hf
    rw [memcpy_words8]
    by_cases hg : wmul w W 8 ≤ (CopyState.up mem dest src count k).len
    · rw [if_pos hg]
      rw [wmul_of_lt hW8] at hg
      have hlen : W * 8 ≤ count - k := hg
      rw [CopyState.up_step8 w W mem dest src count k hds hsrc hW8 (by omega)]
      obtain ⟨k1, h1, h2, h3⟩ := ih (k + 8 * W) (by omega) (by omega)
      exact ⟨k1, by omega, h2, h3⟩
    · rw [if_neg hg]
      exact ⟨k, Nat.le_refl _, hk, rfl⟩

theorem memcpy_words_spec (w W : Nat) (mem : Nat → Nat) (dest src count : Nat)
    (hds : dest ≤ src) (hsrc : src + count < 2 ^ w) (hW : 0 < W) :
    ∀ (fuel k : Nat), k ≤ count → count - k < fuel →
    ∃ k1, k ≤ k1 ∧ k1 ≤ count ∧
      memcpy_words w W fuel (CopyState.up mem dest src count k) =
        some (CopyState.up mem dest src count k1) := by
  intro fuel
  induction fuel with
  | zero => intro k _ h; omega
  | succ f ih =>
    intro k hk hf
    rw [memcpy_words]
    by_cases hg : W ≤ (CopyState.up mem dest src count k).len
    · rw [if_pos hg]
      have hlen : W ≤ count - k := hg
      rw [CopyState.up_step w mem dest src count k W hds hsrc (by omega)]
      obtain ⟨k1, h1, h2, h3⟩ := ih (k + W) (by omega) (by omega)
      exact ⟨k1, by omega, h2, h3⟩
    · rw [if_neg hg]
      exact ⟨k, Nat.le_refl _, hk, rfl⟩

theorem memcpy_bytes_spec (w : Nat) (mem : Nat → Nat) (dest src count : Nat)
    (hds : dest ≤ src) (hsrc : src + count < 2 ^ w) :
    ∀ (fuel k : Nat), k ≤ count → count - k < fuel →
      memcpy_bytes w fuel (CopyState.up mem dest src count k) =
        some (copy_obj count mem dest src) := by
  intro fuel
  induction fuel with
  | zero => intro k _ h; omega
  | succ f ih =>
    intro k hk hf
    rw [memcpy_bytes]
    by_cases hg : 0 < (CopyState.up mem dest src count k).len
    · rw [if_pos hg]
      have hlen : 0 < count - k := hg
      rw [CopyState.up_step w mem dest src count k 1 hds hsrc (by omega)]
      exact ih (k + 1) (by omega) (by omega)
    · rw [if_neg hg]
      have hlen : ¬ 0 < count - k := hg
      have hkc : k = count := by omega
      rw [hkc]
      rfl

theorem memcpy_spec (w W : Nat) (mem : Nat → Nat) (dest src count : Nat)
    (hds : dest ≤ src) (hsrc : src + count < 2 ^ w) (hW : 0 < W) (hW8 : W * 8 < 2 ^ w) :
    memcpy w W (count + 1) mem dest src count = some (copy_obj count mem dest src, dest) := by
  have hstart : ({ mem := mem, dest := dest, src := src, len := count } : CopyState) =
      CopyState.up mem dest src count 0 := by
    simp only [CopyState.up, copy_obj_zero]
    rfl
  obtain ⟨k1, _, hk1, h1⟩ : ∃ k1, 0 ≤ k1 ∧ k1 ≤ count ∧
      (if dest % W = src % W then
        memcpy_align w W (count + 1) { mem := mem, dest := dest, src := src, len := count }
      else some { mem := mem, dest := dest, src := src, len := count }) =
        some (CopyState.up mem dest src count k1) := by
    by_cases ha : dest % W = src % W
    · rw [if_pos ha, hstart]
      exact memcpy_align_spec w W mem dest src count hds hsrc _ 0 (Nat.zero_le _) (by omega)
    · rw [if_neg ha, hstart]
      exact ⟨0, Nat.le_refl _, Nat.zero_le _, rfl⟩
  obtain ⟨k2, hk12, hk2, h2⟩ :=
    memcpy_words8_spec w W mem dest src count hds hsrc hW hW8 (count + 1) k1 hk1 (by omega)
  obtain ⟨k3, hk23, hk3, h3⟩ :=
    memcpy_words_spec w W mem dest src count hds hsrc hW (count + 1) k2 hk2 (by omega)
  have h4 := memcpy_bytes_spec w mem dest src count hds hsrc (count + 1) k3 hk3 (by omega)
  unfold memcpy
  rw [h1, Option.some_bind, h2, Option.some_bind, h3, Option.some_bind, h4]
  rfl

theorem wadd_wsub_back (w x W : Nat) (hx0 : 0 < x) (hx : x < 2 ^ w) (hW : 0 < W)
    (hWw : W < 2 ^ w) : wadd w (wsub w x W) (wsub w W 1) = x - 1 := by
  rw [wsub_of_le (Nat.succ_le_of_lt hW) hWw]
  by_cases hle : W ≤ x
  · rw [wsub_of_le hle hx, wadd_of_lt (by omega)]
    omega
  · unfold wadd wsub
    rw [Nat.mod_eq_of_lt hx, Nat.mod_eq_of_lt hWw,
      Nat.mod_eq_of_lt (by omega : x + 2 ^ w - W < 2 ^ w)]
    have h : x + 2 ^ w - W + (W - 1) = x - 1 + 2 ^ w := by omega
    rw [h, Nat.add_mod_right, Nat.mod_eq_of_lt (by omega)]

theorem CopyState.down_step (w W : Nat) (mem : Nat → Nat) (dest src count c : Nat)
    (hsd : src ≤ dest) (hdst : dest + count < 2 ^ w) (hc : c ≤ count) (hWc : W ≤ c) :
    ({ mem := copy_obj W (CopyState.down w W mem dest src count c).mem
                (CopyState.down w W mem dest src count c).dest
                (CopyState.down w W mem dest src count c).src
       dest := wsub w (CopyState.down w W mem dest src count c).dest W
       src := wsub w (CopyState.down w W mem dest src count c).src W
       len := wsub w (CopyState.down w W mem dest src count c).len W } : CopyState) =
      CopyState.down w W mem dest src count (c - W) := by
  simp only [CopyState.down]
  rw [wsub_of_le (by omega : W ≤ dest + c) (by omega),
    wsub_of_le (by omega : W ≤ src + c) (by omega), wsub_of_le hWc (by omega)]
  have e1 : dest + c - W = dest + (c - W) := by omega
  have e2 : src + c - W = src + (c - W) := by omega
  have e3 : dest + c = dest + (c - W) + W := by omega
  have e4 : src + c = src + (c - W) + W := by omega
  have e5 : W + (count - c) = count - (c - W) := by omega
  rw [e1, e2, e3, e4, copy_obj_down _ _ _ _ _ (by omega), e5]

theorem memmove_words_spec (w W : Nat) (mem : Nat → Nat) (dest src count : Nat)
    (hsd : src ≤ dest) (hdst : dest + count < 2 ^ w) (hW : 0 < W) :
    ∀ (fuel c : Nat), c ≤ count → c < fuel →
    ∃ c1, c1 ≤ c ∧ c1 < W ∧
      memmove_words w W fuel (CopyState.down w W mem dest src count c) =
        some (CopyState.down w W mem dest src count c1) := by
  intro fuel
  induction fuel with
  | zero => intro c _ h; omega
  | succ f ih =>
    intro c hc hf
    rw [memmove_words]
    by_cases hg : W ≤ (CopyState.down w W mem dest src count c).len
    · rw [if_pos hg]
      have hlen : W ≤ c := hg
      rw [CopyState.down_step w W mem dest src count c hsd hdst hc hlen]
      obtain ⟨c1, h1, h2, h3⟩ := ih (c - W) (by omega) (by omega)
      exact ⟨c1, by omega, h2, h3⟩
    · rw [if_neg hg]
      have hlen : ¬ W ≤ c := hg
      exact ⟨c, Nat.le_refl _, by omega, rfl⟩

theorem memmove_bytes_spec (w : Nat) (mem : Nat → Nat) (dest src count : Nat)
    (hsd : src ≤ dest) (hdst : dest + count < 2 ^ w) :
    ∀ (fuel c D S : Nat), c ≤ count → c < fuel →
    (0 < c → D = dest + c - 1 ∧ S = src + c - 1) →
    memmove_bytes w fuel
      { mem := copy_obj (count - c) mem (dest + c) (src + c), dest := D, src := S, len := c } =
      some (copy_obj count mem dest src) := by
  intro fuel
  induction fuel with
  | zero => intro c _ _ _ h; omega
  | succ f ih =>
    intro c D S hc hf hptr
    rw [memmove_bytes]
    by_cases hg : 0 < c
    · rw [if_pos hg]
      obtain ⟨hD, hS⟩ := hptr hg
      simp only []
      have e1 : D = dest + (c - 1) := by omega
      have e2 : S = src + (c - 1) := by omega
      have e3 : dest + c = dest + (c - 1) + 1 := by omega
      have e4 : src + c = src + (c - 1) + 1 := by omega
      have e5 : 1 + (count - c) = count - (c - 1) := by omega
      have hmem : copy_obj 1 (copy_obj (count - c) mem (dest + c) (src + c)) D S =
          copy_obj (count - (c - 1)) mem (dest + (c - 1)) (src + (c - 1)) := by
        rw [e1, e2, e3, e4, copy_obj_down _ _ _ _ _ (by omega), e5]
      rw [hmem, wsub_of_le hg (by omega)]
      refine ih (c - 1) _ _ (by omega) (by omega) ?_
      intro hc1
      rw [hD, hS, wsub_of_le (by omega) (by omega), wsub_of_le (by omega) (by omega)]
      omega
    · rw [if_neg hg]
      have hc0 : c = 0 := by omega
      subst hc0
      simp

/-! ## C27: memmove -/

theorem memmove_eq (w W : Nat) (mem : Nat → Nat) (dest src count : Nat)
    (hW : 0 < W) (hW8 : W * 8 < 2 ^ w) (hsrc : src + count < 2 ^ w)
    (hdst : dest + count < 2 ^ w) :
    memmove w W mem dest src count = some (copy_obj count mem dest src, dest) := by
  unfold memmove
  by_cases h0 : dest = src ∨ count = 0
  · rw [if_pos h0]
    rcases h0 with h | h
    · subst h
      congr 2
      funext a
      simp only [copy_obj]
      split
      · congr 1; omega
      · rfl
    · subst h
      rw [copy_obj_zero]
  · rw [if_neg h0]
    by_cases hgt : dest > src
    · rw [if_pos hgt, wadd_of_lt hdst, wadd_of_lt hsrc]
      have hstart :
          ({ mem := mem
             dest := wsub w (dest + count) W
             src := wsub w (src + count) W
             len := count } : CopyState) = CopyState.down w W mem dest src count count := by
        simp only [CopyState.down, Nat.sub_self, copy_obj_zero]
      obtain ⟨c1, hc1, hc1W, h1⟩ := memmove_words_spec w W mem dest src count
        (Nat.le_of_lt hgt) hdst hW (count + 1) count (Nat.le_refl _) (by omega)
      rw [hstart, h1, Option.some_bind]
      have h2 := memmove_bytes_spec w mem dest src count (Nat.le_of_lt hgt) hdst (count + 1) c1
        (wadd w (CopyState.down w W mem dest src count c1).dest (wsub w W 1))
        (wadd w (CopyState.down w W mem dest src count c1).src (wsub w W 1)) hc1 (by omega)
        (by
          intro hpos
          simp only [CopyState.down]
          rw [wadd_wsub_back w _ W (by omega) (by omega) hW (by omega),
            wadd_wsub_back w _ W (by omega) (by omega) hW (by omega)]
          exact ⟨rfl, rfl⟩)
      have h3 : (CopyState.down w W mem dest src count c1).mem =
          copy_obj (count - c1) mem (dest + c1) (src + c1) := rfl
      have h4 : (CopyState.down w W mem dest src count c1).len = c1 := rfl
      rw [h3, h4, h2]
      rfl
    · rw [if_neg hgt, memcpy_spec w W mem dest src count (by omega) hsrc hW hW8]
      rfl

/-- C27: for regions of `count` bytes at `src` and `dest` that lie in the address
space (they may overlap in either direction and be aligned in any way), on a machine
with words of `W` bytes, `memmove(dest, src, count)` returns `dest`; after the call
the `count` bytes at `dest` are the `count` bytes that were at `src` before, and every
byte outside `[dest, dest + count)` is unchanged. -/
theorem memmove_contract (w W : Nat) (mem : Nat → Nat) (dest src count : Nat)
    (hW : 0 < W) (hW8 : W * 8 < 2 ^ w) (hsrc : src + count < 2 ^ w)
    (hdst : dest + count < 2 ^ w) :
    ∃ m, memmove w W mem dest src count = some (m, dest) ∧
      (∀ i, i < count → m (dest + i) = mem (src + i)) ∧
      (∀ a, a < dest ∨ dest + count ≤ a → m a = mem a) := by
  refine ⟨copy_obj count mem dest src, memmove_eq w W mem dest src count hW hW8 hsrc hdst,
    ?_, ?_⟩
  · intro i hi
    simp only [copy_obj]
    rw [if_pos (by omega)]
    congr 1
    omega
  · intro a ha
    simp only [copy_obj]
    rw [if_neg (by omega)]

theorem memmove_contract_witness :
    (0 < 8 ∧ 8 * 8 < 2 ^ 64 ∧ 100 + 16 < 2 ^ 64 ∧ 103 + 16 < 2 ^ 64) ∧
    ∃ m, memmove 64 8 memCounting 103 100 16 = some (m, 103) ∧
      (∀ i, i < 16 → m (103 + i) = memCounting (100 + i)) ∧
      (∀ a, a < 103 ∨ 103 + 16 ≤ a → m a = memCounting a) :=
  ⟨by decide,
    memmove_contract 64 8 memCounting 103 100 16 (by decide) (by decide) (by decide)
      (by decide)⟩

/-! ## C28: the stream of priorities -/

theorem Treap.insert_prio (t : Treap) (a k : Nat) :
    (Treap.insert t a k).prio = (t.prio + 0x9e3779b9) % 2 ^ 32 := by
  unfold Treap.insert
  rfl

theorem Treap.run_prio : ∀ (ops : List TreapOp) (t t1 : Treap), t.prio < 2 ^ 32 →
    Treap.run t ops = some t1 →
    t1.prio = (t.prio + TreapOp.inserts ops * 0x9e3779b9) % 2 ^ 32 := by
  intro ops
  induction ops with
  | nil =>
    intro t t1 hlt hrun
    rw [Treap.run] at hrun
    rw [← Option.some.inj hrun, TreapOp.inserts, Nat.zero_mul, Nat.add_zero,
      Nat.mod_eq_of_lt hlt]
  | cons op ops ih =>
    intro t t1 hlt hrun
    cases op with
    | insert a k =>
      rw [Treap.run, Treap.step, Option.some_bind] at hrun
      have h := ih _ t1 (by rw [Treap.insert_prio]; exact Nat.mod_lt _ (by omega)) hrun
      rw [h, Treap.insert_prio, TreapOp.inserts, Nat.mod_add_mod, Nat.succ_mul]
      congr 1
      omega
    | remove a k =>
      rw [Treap.run, Treap.step] at hrun
      cases hrem : TreapTree.remove a k t.root with
      | none =>
        rw [Treap.remove, hrem] at hrun
        simp at hrun
      | some r1 =>
        rw [Treap.remove, hrem, Option.map_some', Option.some_bind] at hrun
        have h := ih _ t1 (by exact hlt) hrun
        rw [h, TreapOp.inserts]

theorem prio_stream_injective (n m : Nat) (hn : n < 2 ^ 32) (hm : m < 2 ^ 32)
    (h : (314159265 + n * 0x9e3779b9) % 2 ^ 32 = (314159265 + m * 0x9e3779b9) % 2 ^ 32) :
    n = m := by
  have h1 : 314159265 + n * 0x9e3779b9 ≡ 314159265 + m * 0x9e3779b9 [MOD 2 ^ 32] := h
  have h2 : n * 0x9e3779b9 ≡ m * 0x9e3779b9 [MOD 2 ^ 32] := Nat.ModEq.add_left_cancel' _ h1
  have h3 : n ≡ m [MOD 2 ^ 32] :=
    Nat.ModEq.cancel_right_of_coprime (by norm_num) h2
  exact Nat.ModEq.eq_of_lt_of_lt h3 hn hm

theorem TreapTree.insert_at_prio_at (prio addr key : Nat) : ∀ (t : TreapTree),
    TreapTree.prio_at addr t = none →
    TreapTree.prio_at addr (TreapTree.insert_at prio addr key t) = some prio := by
  intro t
  induction t with
  | nil => intro _; simp [TreapTree.insert_at, TreapTree.prio_at]
  | node l a k p r ihl ihr =>
    intro h
    unfold TreapTree.prio_at at h
    by_cases ha : a = addr
    · rw [if_pos ha] at h
      exact absurd h (by simp)
    · rw [if_neg ha] at h
      have hl : TreapTree.prio_at addr l = none := by
        cases hl1 : TreapTree.prio_at addr l with
        | none => rfl
        | some x => rw [hl1] at h; simp at h
      have hr : TreapTree.prio_at addr r = none := by
        rw [hl] at h
        simpa using h
      unfold TreapTree.insert_at
      by_cases hp : toInt32 p < toInt32 prio
      · rw [if_pos hp]
        by_cases hk : key < k
        · rw [if_pos hk]
          unfold TreapTree.prio_at
          rw [if_neg ha, ihl hl]
          rfl
        · rw [if_neg hk]
          unfold TreapTree.prio_at
          rw [if_neg ha, hl, ihr hr]
          rfl
      · rw [if_neg hp]
        unfold TreapTree.prio_at
        rw [if_pos rfl]

/-- C28: after calls with `n` inserts the field `_prio` of the treap, which the next
`insert` gives to its node, is `(314159265 + n * 0x9e3779b9) mod 2 ^ 32`; for two
different numbers of inserts below `2 ^ 32` these priorities differ. -/
theorem Treap.prio_stream_distinct (ops1 ops2 : List TreapOp) (t1 t2 : Treap)
    (h1 : Treap.run Treap.empty ops1 = some t1) (h2 : Treap.run Treap.empty ops2 = some t2)
    (hn1 : TreapOp.inserts ops1 < 2 ^ 32) (hn2 : TreapOp.inserts ops2 < 2 ^ 32)
    (hne : TreapOp.inserts ops1 ≠ TreapOp.inserts ops2) :
    t1.prio = (314159265 + TreapOp.inserts ops1 * 0x9e3779b9) % 2 ^ 32 ∧
    (∀ a k, TreapTree.prio_at a t1.root = none →
      TreapTree.prio_at a (Treap.insert t1 a k).root = some t1.prio) ∧
    t1.prio ≠ t2.prio := by
  have hlt : Treap.empty.prio < 2 ^ 32 := by decide
  have e1 := Treap.run_prio ops1 Treap.empty t1 hlt h1
  have e2 := Treap.run_prio ops2 Treap.empty t2 hlt h2
  have e0 : Treap.empty.prio = 314159265 := rfl
  rw [e0] at e1 e2
  refine ⟨e1, ?_, ?_⟩
  · intro a k hfree
    exact TreapTree.insert_at_prio_at t1.prio a k t1.root hfree
  · intro heq
    rw [e1, e2] at heq
    exact hne (prio_stream_injective _ _ hn1 hn2 heq)

theorem Treap.prio_stream_distinct_witness :
    ∃ t1 t2, Treap.run Treap.empty treapCalls = some t1 ∧
      Treap.run Treap.empty [TreapOp.insert 1 1] = some t2 ∧
      TreapOp.inserts treapCalls < 2 ^ 32 ∧ TreapOp.inserts [TreapOp.insert 1 1] < 2 ^ 32 ∧
      TreapOp.inserts treapCalls ≠ TreapOp.inserts [TreapOp.insert 1 1] ∧
      t1.prio = (314159265 + TreapOp.inserts treapCalls * 0x9e3779b9) % 2 ^ 32 ∧
      (∀ a k, TreapTree.prio_at a t1.root = none →
        TreapTree.prio_at a (Treap.insert t1 a k).root = some t1.prio) ∧
      t1.prio ≠ t2.prio :=
  ⟨_, _, rfl, rfl, by decide, by decide, by decide,
    Treap.prio_stream_distinct treapCalls [TreapOp.insert 1 1] _ _ rfl rfl (by decide)
      (by decide) (by decide)⟩

end NRE
